import Mathlib

/-!
# The arena heap manager of the uffs native memory allocator

A shallow embedding of `src/src/uffs/uffs_mem.c` (the `_k*` heap routines) and the
properties of its specification.

Memory is a map from byte addresses to 32-bit words.  The target is a 32-bit platform
(the code casts pointers to `u32`), so a `HEAPNODE` at address `p` keeps `mark` at `p`,
`size` at `p + 4`, `prevNode` at `p + 8`, `prevFree` at `p + 12` and `nextFree` at
`p + 16`.  `int` arithmetic wraps through `i32`, `u32` arithmetic through `u32`.
The critical-section calls have no effect on the data and are left out.
-/

namespace Uffs

set_option linter.unusedVariables false
set_option maxRecDepth 100000

/-! ## Definitions -/

/-! ### Machine arithmetic and memory -/

/-- Value of an integer as an unsigned 32-bit word. -/
def u32 (x : Int) : Int := x % 4294967296

/-- Value of an integer as a signed 32-bit `int` (two's complement). -/
def i32 (x : Int) : Int := (x + 2147483648) % 4294967296 - 2147483648

/-- Word-addressed memory: the 32-bit word stored at a byte address. -/
abbrev Mem := Int → Int

/-- Write of one word. -/
def store (m : Mem) (a v : Int) : Mem := fun x => if x = a then v else m x

/-- The `memcpy(dst, src, n)` of `_krealloc`, on words. -/
def memcpy (m : Mem) (dst src n : Int) : Mem :=
  fun x => if dst ≤ x ∧ x < dst + n then m (src + (x - dst)) else m x

/-- The macro `ALLOC_PAGE_SIZE` (`1 << 5`). -/
abbrev ALLOC_PAGE_SIZE : Int := 32

/-- The macro `ALLOC_THRESHOLD` (`ALLOC_PAGE_SIZE * 1`). -/
abbrev ALLOC_THRESHOLD : Int := 32

/-- The macro `ALLOC_OFFSET`. -/
abbrev ALLOC_OFFSET : Int := 12

/-- The mark `HEAP_NODE_FREE` (`0x123455aa`). -/
abbrev HEAP_NODE_FREE : Int := 305419690

/-- The mark `(int)HEAP_NODE_ALLOCED` (`0xaa551234` as an `int`). -/
abbrev HEAP_NODE_ALLOCED : Int := -1437265356

/-- The global variables of the heap manager together with the memory. -/
structure Heap where
  /-- contents of memory -/
  mem : Mem
  /-- head of the free list, `0` when empty -/
  _k_heapFreeList : Int
  /-- the tail sentinel -/
  _k_heapTail_ : Int
  /-- available bytes (`u32`) -/
  _k_heap_available : Int
  /-- low-water mark of the available bytes (`u32`) -/
  _minimu_heap_avaiable : Int
  /-- total bytes registered (`u32`) -/
  _kernel_heap_total : Int

/-! ### The routines -/

/-- Source `HeapDeleteFromFreeList`: unlink `node` from the free list. -/
def HeapDeleteFromFreeList (node : Int) (h : Heap) : Heap :=
  let m1 := if h.mem (node + 16) ≠ 0
    then store h.mem (h.mem (node + 16) + 12) (h.mem (node + 12)) else h.mem
  let m2 := if m1 (node + 12) ≠ 0
    then store m1 (m1 (node + 12) + 16) (m1 (node + 16)) else m1
  if node = h._k_heapFreeList
  then { h with mem := m2, _k_heapFreeList := m2 (node + 16) }
  else { h with mem := m2 }

/-- Source `HeapChainToFreeList`: push `node` on the head of the free list. -/
def HeapChainToFreeList (node : Int) (h : Heap) : Heap :=
  let m1 := store h.mem (node + 16) 0
  let m2 := store m1 (node + 12) 0
  if h._k_heapFreeList = 0 then { h with mem := m2, _k_heapFreeList := node }
  else
    let m3 := store m2 (h._k_heapFreeList + 12) node
    let m4 := store m3 (node + 16) h._k_heapFreeList
    { h with mem := m4, _k_heapFreeList := node }

/-- Source `_k_allock_node`: hand out `node`, splitting it when the remainder reaches
the threshold.  Returns the block address and the new heap. -/
def _k_allock_node (node size : Int) (h : Heap) : Int × Heap :=
  let h1 :=
    if h.mem (node + 4) ≥ i32 (size + ALLOC_THRESHOLD) then
      let newNode := u32 (node + size)
      let m1 := store h.mem (newNode + 4) (i32 (h.mem (node + 4) - size))
      let m2 := store m1 newNode HEAP_NODE_FREE
      let m3 := store m2 (newNode + 8) node
      let m4 := store m3 (node + 4) size
      let h' := HeapChainToFreeList newNode { h with mem := m4 }
      { h' with mem := store h'.mem (u32 (newNode + h'.mem (newNode + 4)) + 8) newNode }
    else h
  let h2 := { h1 with mem := store h1.mem node HEAP_NODE_ALLOCED }
  let h3 := HeapDeleteFromFreeList node h2
  let av := u32 (h3._k_heap_available - h3.mem (node + 4))
  (u32 (node + ALLOC_OFFSET),
    { h3 with
      _k_heap_available := av
      _minimu_heap_avaiable := if h3._minimu_heap_avaiable > av then av
        else h3._minimu_heap_avaiable })

/-- The size adjustment of `_kmalloc` and `_krealloc`: add the header offset and round up
to the page size (`size += ALLOC_OFFSET; if (size & MASK) { size += PAGE; size &= ~MASK; }`). -/
def adjustSize (size : Int) : Int :=
  let s := i32 (size + ALLOC_OFFSET)
  if s % 32 ≠ 0 then i32 (s + ALLOC_PAGE_SIZE) - i32 (s + ALLOC_PAGE_SIZE) % 32 else s

/-- Bound on the iterations of the free-list scan: a walk that visits more nodes than there
are addresses has entered a cycle, and the C loop does not return. -/
def FUEL : Nat := 4294967297

/-- The best-fit `while` loop of `_kmalloc`, from the current `node` and `fit`.
`none` when the scan does not end. -/
def bestFit (m : Mem) (size : Int) : Nat → Int → Int → Option Int
  | 0, _, _ => none
  | fuel + 1, node, fit =>
    if node = 0 then some fit
    else if m (node + 4) ≥ size then
      if m (node + 4) = size then some node
      else
        bestFit m size fuel (m (node + 16))
          (if fit ≠ 0 then (if m (node + 4) < m (fit + 4) then node else fit) else node)
    else bestFit m size fuel (m (node + 16)) fit

/-- Source `_kmalloc`.  Returns the block address (`0` for `NULL`) and the new heap;
`none` when the scan of the free list does not end. -/
def _kmalloc (size : Int) (h : Heap) : Option (Int × Heap) :=
  if size ≤ 0 then some (0, h)
  else
    match bestFit h.mem (adjustSize size) FUEL h._k_heapFreeList 0 with
    | none => none
    | some fit =>
      if fit ≠ 0 ∧ h.mem (fit + 4) ≥ adjustSize size
      then some (_k_allock_node fit (adjustSize size) h)
      else some (0, h)

/-- Source `_kfree`.  Returns the result code and the new heap. -/
def _kfree (block : Int) (h : Heap) : Int × Heap :=
  if block = 0 then (-1, h)
  else
    let node := u32 (block - ALLOC_OFFSET)
    if h.mem node ≠ HEAP_NODE_ALLOCED ∨ h.mem (node + 4) ≤ ALLOC_OFFSET then (-1, h)
    else
      let av := u32 (h._k_heap_available + h.mem (node + 4))
      let prev := h.mem (node + 8)
      let next := u32 (node + h.mem (node + 4))
      let h1 : Heap := { h with _k_heap_available := av }
      let nh : Int × Heap :=
        if h1.mem prev = HEAP_NODE_FREE then
          let m1 := store h1.mem (prev + 4) (i32 (h1.mem (prev + 4) + h1.mem (node + 4)))
          let m2 := store m1 (next + 8) prev
          (prev, HeapDeleteFromFreeList prev { h1 with mem := m2 })
        else (node, h1)
      let h2 : Heap :=
        if nh.2.mem next = HEAP_NODE_FREE then
          let m1 := store nh.2.mem (nh.1 + 4) (i32 (nh.2.mem (nh.1 + 4) + nh.2.mem (next + 4)))
          let m2 := store m1 (u32 (next + m1 (next + 4)) + 8) nh.1
          HeapDeleteFromFreeList next { nh.2 with mem := m2 }
        else nh.2
      (0, HeapChainToFreeList nh.1 { h2 with mem := store h2.mem nh.1 HEAP_NODE_FREE })

/-- Source `_krealloc`.  Returns the block address (`0` for `NULL`) and the new heap. -/
def _krealloc (block size : Int) (h : Heap) : Option (Int × Heap) :=
  if block = 0 then _kmalloc size h
  else if size = 0 then some (0, (_kfree block h).2)
  else
    let node := u32 (block - ALLOC_OFFSET)
    let old_data_size := i32 (h.mem (node + 4) - ALLOC_OFFSET)
    if h.mem node ≠ HEAP_NODE_ALLOCED ∨ old_data_size ≤ 0 then some (0, h)
    else if old_data_size < size then
      match _kmalloc size h with
      | none => none
      | some (p, h1) =>
        if p = 0 then some (0, h1)
        else some (p, (_kfree block { h1 with mem := memcpy h1.mem p block old_data_size }).2)
    else
      let size := adjustSize size
      if i32 (h.mem (node + 4) - size) < ALLOC_PAGE_SIZE then some (block, h)
      else
        let newNode := u32 (node + size)
        let m1 := store h.mem (newNode + 8) node
        let m2 := store m1 newNode HEAP_NODE_ALLOCED
        let m3 := store m2 (newNode + 4) (i32 (m2 (node + 4) - size))
        let m4 := store m3 (u32 (node + m3 (node + 4)) + 8) newNode
        let m5 := store m4 (node + 4) size
        some (block, (_kfree (u32 (newNode + ALLOC_OFFSET)) { h with mem := m5 }).2)

/-- Source `uffs_InitHeapMemory`: register the region of `size` bytes at `addr`. -/
def uffs_InitHeapMemory (addr size : Int) (h : Heap) : Heap :=
  let addr := if addr % 4 = 0 then u32 (addr + 4) - u32 (addr + 4) % 4 else addr
  let size := size - size % 32
  if size < ALLOC_PAGE_SIZE * 3 then h
  else
    let m1 := store h.mem (addr + 4) ALLOC_PAGE_SIZE
    let m2 := store m1 addr HEAP_NODE_ALLOCED
    let m3 := store m2 (addr + 8) 0
    let tl := u32 (addr + size - ALLOC_PAGE_SIZE)
    let m4 := store m3 tl HEAP_NODE_ALLOCED
    let m5 := store m4 (tl + 4) (-1)
    let m6 := store m5 (tl + 8) (u32 (addr + ALLOC_PAGE_SIZE))
    let np := u32 (addr + ALLOC_PAGE_SIZE)
    let m7 := store m6 np HEAP_NODE_FREE
    let m8 := store m7 (np + 8) addr
    let m9 := store m8 (np + 4) (i32 (size - 2 * ALLOC_PAGE_SIZE))
    let m10 := store m9 (np + 16) 0
    let m11 := store m10 (np + 12) 0
    { mem := m11
      _k_heapFreeList := np
      _k_heapTail_ := tl
      _k_heap_available := u32 (m11 (np + 4))
      _minimu_heap_avaiable := u32 (m11 (np + 4))
      _kernel_heap_total := u32 (h._kernel_heap_total + size) }

/-! ### The free list as a linked structure -/

/-- The nodes `l` form a doubly linked list in `m`, entered at `cur`, whose first node
has `prev` as its `prevFree` and whose last node has a null `nextFree`. -/
def FL (m : Mem) : Int → Int → List Int → Prop
  | _, cur, [] => cur = 0
  | prev, cur, a :: rest => cur = a ∧ a ≠ 0 ∧ m (a + 12) = prev ∧ FL m a (m (a + 16)) rest

/-- Memory after unlinking a node whose free-list successor is `n` and predecessor `p`. -/
def unlinkMem (m : Mem) (n p : Int) : Mem :=
  let m1 := if n ≠ 0 then store m (n + 12) p else m
  if p ≠ 0 then store m1 (p + 16) n else m1

/-- The words of node headers proper (`mark`, `size`, `prevNode`) of nodes aligned with `c`. -/
def IsHdr (c y : Int) : Prop := (y - c) % 32 = 0 ∨ (y - c) % 32 = 4 ∨ (y - c) % 32 = 8

/-! ### The arena as a list of nodes -/

/-- A node of the physical chain: start address, size in bytes, and whether it is free. -/
structure Blk where
  /-- start address of the node -/
  addr : Int
  /-- bytes spanned, header included -/
  size : Int
  /-- whether the node is free -/
  free : Bool

/-- The mark a node carries in memory. -/
def markOf (f : Bool) : Int := if f then HEAP_NODE_FREE else HEAP_NODE_ALLOCED

/-- Node `y` starts where node `x` ends, and `x` spans a positive number of pages. -/
def Adj (x y : Blk) : Prop := y.addr = x.addr + x.size ∧ 32 ≤ x.size ∧ x.size % 32 = 0

/-- The physical chain with its two sentinels, for an arena of `R` bytes at `base`. -/
def full (base R : Int) (bs : List Blk) : List Blk :=
  ⟨base, 32, false⟩ :: (bs ++ [⟨base + R - 32, -1, false⟩])

/-- The heap `h` lays out the nodes `bs` between the sentinels of the arena of `R` bytes
at `base`, and its free list holds the nodes `fl`: the free nodes of `bs` other than the
node at `k`, which is being released and whose mark is not looked at. -/
structure RepP (base R : Int) (h : Heap) (bs : List Blk) (fl : List Int) (k : Int) : Prop where
  base_pos : 0 < base
  top : base + R ≤ 4294967300
  R_le : R ≤ 2147483616
  tail : h._k_heapTail_ = base + R - 32
  geom : List.Chain' Adj (full base R bs)
  hdr : ∀ b ∈ full base R bs,
    (b.addr ≠ k → h.mem b.addr = markOf b.free) ∧ h.mem (b.addr + 4) = b.size
  link : List.Chain' (fun a b => h.mem (b + 8) = a) ((full base R bs).map (·.addr))
  flist : FL h.mem 0 h._k_heapFreeList fl
  fl_mem : ∀ a, a ∈ fl ↔ ((∃ b ∈ bs, b.free = true ∧ b.addr = a) ∧ a ≠ k)
  fl_nodup : fl.Nodup

/-! ### The merge step of `_kfree` -/

/-- The merge step of `_kfree`: the node at `lo` absorbs its successor at `up`; `nx` is the
node after `up` and `del` the one of the two that sits on the free list.
With `lo = prev, up = node` this is the first `if` of the source, with `lo = node, up = next`
the second. -/
def absorb (lo up nx del : Int) (h : Heap) : Heap :=
  let m1 := store h.mem (lo + 4) (i32 (h.mem (lo + 4) + h.mem (up + 4)))
  HeapDeleteFromFreeList del { h with mem := store m1 (nx + 8) lo }

/-- The split branch of `_k_allock_node`: the tail of `node` beyond `size` bytes becomes a
new free node, pushed on the free list. -/
def splitNode (node size : Int) (h : Heap) : Heap :=
  let newNode := u32 (node + size)
  let m1 := store h.mem (newNode + 4) (i32 (h.mem (node + 4) - size))
  let m2 := store m1 newNode HEAP_NODE_FREE
  let m3 := store m2 (newNode + 8) node
  let m4 := store m3 (node + 4) size
  let h' := HeapChainToFreeList newNode { h with mem := m4 }
  { h' with mem := store h'.mem (u32 (newNode + h'.mem (newNode + 4)) + 8) newNode }

/-! ### The invariant of the arena -/

/-- Sum of the sizes of the free nodes. -/
def freeSum : List Blk → Int
  | [] => 0
  | b :: bs => (if b.free then b.size else 0) + freeSum bs

/-- Sum of the sizes of the allocated nodes. -/
def allocSum : List Blk → Int
  | [] => 0
  | b :: bs => (if b.free then 0 else b.size) + allocSum bs

/-- No two neighbouring nodes are both free. -/
def NoAdjFree (bs : List Blk) : Prop :=
  List.Chain' (fun x y => ¬ (x.free = true ∧ y.free = true)) bs

/-- The invariant of the arena: `h` lays out the nodes `bs` with free list `fl`, free
neighbours are merged, and the counter of available bytes is the sum of the free sizes. -/
structure Rep (base R : Int) (h : Heap) (bs : List Blk) (fl : List Int) : Prop where
  rep : RepP base R h bs fl 0
  naf : NoAdjFree bs
  avail : h._k_heap_available = freeSum bs

/-! ### `_kfree` -/

/-- The first `if` of `_kfree`: merge with a free predecessor.  Returns the node that
stands for the released memory from here on. -/
def kfreeLo (node next : Int) (h : Heap) : Int × Heap :=
  if h.mem (h.mem (node + 8)) = HEAP_NODE_FREE
  then (h.mem (node + 8), absorb (h.mem (node + 8)) node next (h.mem (node + 8)) h)
  else (node, h)

/-- The second `if` of `_kfree`: merge with a free successor. -/
def kfreeHi (node next : Int) (h : Heap) : Heap :=
  if h.mem next = HEAP_NODE_FREE then
    absorb node next (u32 (next + (store h.mem (node + 4)
      (i32 (h.mem (node + 4) + h.mem (next + 4)))) (next + 4))) next h
  else h

/-- The path of `_kfree` past its two checks, for the node at `node`. -/
def kfreeBody (node : Int) (h : Heap) : Heap :=
  let av := u32 (h._k_heap_available + h.mem (node + 4))
  let next := u32 (node + h.mem (node + 4))
  let nh := kfreeLo node next { h with _k_heap_available := av }
  let h2 := kfreeHi nh.1 next nh.2
  HeapChainToFreeList nh.1 { h2 with mem := store h2.mem nh.1 HEAP_NODE_FREE }

/-- The node list and the merged node after the released node `N` took in a free
predecessor. -/
def mergeLo (pre : List Blk) (N : Blk) : List Blk × Blk :=
  match pre.getLast? with
  | some P =>
    if P.free then (pre.dropLast, ⟨P.addr, P.size + N.size, true⟩)
    else (pre, ⟨N.addr, N.size, true⟩)
  | none => (pre, ⟨N.addr, N.size, true⟩)

/-- The free list after the released node took in a free predecessor. -/
def flLo (fl : List Int) (pre : List Blk) : List Int :=
  match pre.getLast? with
  | some P => if P.free then fl.erase P.addr else fl
  | none => fl

/-- The merged node and the rest of the list after the node `B` took in a free successor. -/
def mergeHi (B : Blk) (post : List Blk) : Blk × List Blk :=
  match post with
  | X :: post' => if X.free then (⟨B.addr, B.size + X.size, true⟩, post') else (B, post)
  | [] => (B, [])

/-- The free list after the released node took in a free successor. -/
def flHi (fl : List Int) (post : List Blk) : List Int :=
  match post with
  | X :: _ => if X.free then fl.erase X.addr else fl
  | [] => fl

/-- The chain after the release of the allocated node `N` that stood between `pre` and
`post`. -/
def freedList (pre : List Blk) (N : Blk) (post : List Blk) : List Blk :=
  (mergeLo pre N).1 ++ (mergeHi (mergeLo pre N).2 post).1 :: (mergeHi (mergeLo pre N).2 post).2

/-- The free list after the release of `N`. -/
def freedFl (fl : List Int) (pre : List Blk) (N : Blk) (post : List Blk) : List Int :=
  (mergeLo pre N).2.addr :: flHi (flLo fl pre) post

/-! ### The best-fit scan -/

/-- The best-fit scan over the nodes `l` of the free list, in list order, starting with
candidate `fit` (`0` for none). -/
def pick (m : Mem) (size : Int) : List Int → Int → Int
  | [], fit => fit
  | a :: rest, fit =>
    if m (a + 4) ≥ size then
      if m (a + 4) = size then a
      else pick m size rest
        (if fit ≠ 0 then (if m (a + 4) < m (fit + 4) then a else fit) else a)
    else pick m size rest fit

/-! ### `_k_allock_node` and `_kmalloc` -/

/-- The chain after the free node `F` between `pre` and `post` served `sz` bytes. -/
def allocList (pre : List Blk) (F : Blk) (post : List Blk) (sz : Int) : List Blk :=
  if sz + 32 ≤ F.size
  then pre ++ ⟨F.addr, sz, false⟩ :: ⟨F.addr + sz, F.size - sz, true⟩ :: post
  else pre ++ ⟨F.addr, F.size, false⟩ :: post

/-- The free list after the free node `F` served `sz` bytes. -/
def allocFl (fl : List Int) (F : Blk) (sz : Int) : List Int :=
  if sz + 32 ≤ F.size then (F.addr + sz) :: fl.erase F.addr else fl.erase F.addr

/-- The part of `_k_allock_node` after the split: mark the node allocated, take it off the
free list, and count its bytes. -/
def allocStep (node : Int) (h1 : Heap) : Int × Heap :=
  let h2 := { h1 with mem := store h1.mem node HEAP_NODE_ALLOCED }
  let h3 := HeapDeleteFromFreeList node h2
  let av := u32 (h3._k_heap_available - h3.mem (node + 4))
  (u32 (node + ALLOC_OFFSET),
    { h3 with
      _k_heap_available := av
      _minimu_heap_avaiable := if h3._minimu_heap_avaiable > av then av
        else h3._minimu_heap_avaiable })

/-! ### `_krealloc` -/

/-- The split of `_krealloc` on a shrink: the tail of `node` beyond `size` bytes becomes a
new allocated node. -/
def shrinkSplit (node size : Int) (h : Heap) : Heap :=
  let newNode := u32 (node + size)
  let m1 := store h.mem (newNode + 8) node
  let m2 := store m1 newNode HEAP_NODE_ALLOCED
  let m3 := store m2 (newNode + 4) (i32 (m2 (node + 4) - size))
  let m4 := store m3 (u32 (node + m3 (node + 4)) + 8) newNode
  let m5 := store m4 (node + 4) size
  { h with mem := m5 }

/-! ### The blocks handed out -/

/-- The list `L` holds, without repetition, the blocks handed out and not yet given back: the
payload addresses of the allocated nodes of the chain. -/
def Live (bs : List Blk) (L : List Int) : Prop :=
  L.Nodup ∧ ∀ p, p ∈ L ↔ ∃ b ∈ bs, b.free = false ∧ p = b.addr + 12

/-- The invariant of the arena with the blocks `L` handed out. -/
def Inv (base R : Int) (h : Heap) (L : List Int) : Prop :=
  ∃ bs fl, Rep base R h bs fl ∧ Live bs L

/-! ### Registration of the arena -/

/-- The start of the arena that `uffs_InitHeapMemory` derives from `addr`. -/
def arenaBase (addr : Int) : Int :=
  if addr % 4 = 0 then u32 (addr + 4) - u32 (addr + 4) % 4 else addr

/-- The size of the arena that `uffs_InitHeapMemory` derives from `size`: rounded down to
whole pages. -/
def arenaSize (size : Int) : Int := size - size % 32

/-- The call `uffs_InitHeapMemory (addr, size)` registers an arena: `addr` and `size` are a
`u32` and an `int`, the region lies in the address space, and it holds three pages. -/
structure InitOK (addr size : Int) : Prop where
  addr_nonneg : 0 ≤ addr
  size_le : size ≤ 2147483647
  fits : addr + size ≤ 4294967296
  pages : 96 ≤ arenaSize size

/-- The eleven header words that `uffs_InitHeapMemory` writes, for the arena of `R` bytes at
`B`: head sentinel, tail sentinel, and the one free node between them. -/
def initMem (m : Mem) (B R : Int) : Mem :=
  store (store (store (store (store (store (store (store (store (store (store m
    (B + 4) 32) B HEAP_NODE_ALLOCED) (B + 8) 0)
    (B + R - 32) HEAP_NODE_ALLOCED) (B + R - 32 + 4) (-1)) (B + R - 32 + 8) (B + 32))
    (B + 32) HEAP_NODE_FREE) (B + 32 + 8) B) (B + 32 + 4) (R - 64))
    (B + 32 + 16) 0) (B + 32 + 12) 0

/-! ### Reachable states -/

/-- States reached from `uffs_InitHeapMemory addr size` on the state `h0` by calls that
respect the interface, together with the blocks handed out and not yet given back:
`_kmalloc n` and `_krealloc` with sizes whose adjustment fits an `int`
(`n ≤ 2147483604`), `_kfree` and `_krealloc` on blocks that are handed out, `_kfree`
calls that are rejected, and writes of the caller into the blocks it holds. -/
inductive Reach (addr size : Int) (h0 : Heap) : Heap → List Int → Prop
  | init : Reach addr size h0 (uffs_InitHeapMemory addr size h0) []
  | malloc {h : Heap} {L : List Int} (n : Int) (r : Int × Heap) :
      Reach addr size h0 h L → n ≤ 2147483604 → _kmalloc n h = some r →
      Reach addr size h0 r.2 (if r.1 = 0 then L else r.1 :: L)
  | free {h : Heap} {L : List Int} (p : Int) :
      Reach addr size h0 h L → p ∈ L → Reach addr size h0 (_kfree p h).2 (L.erase p)
  | free_rejected {h : Heap} {L : List Int} (p : Int) :
      Reach addr size h0 h L → (_kfree p h).1 = -1 → Reach addr size h0 (_kfree p h).2 L
  | realloc {h : Heap} {L : List Int} (p n : Int) (r : Int × Heap) :
      Reach addr size h0 h L → p ∈ L → 0 < n → n ≤ 2147483604 → _krealloc p n h = some r →
      Reach addr size h0 r.2 (if r.1 = 0 then L else r.1 :: L.erase p)
  | realloc_null {h : Heap} {L : List Int} (n : Int) (r : Int × Heap) :
      Reach addr size h0 h L → n ≤ 2147483604 → _krealloc 0 n h = some r →
      Reach addr size h0 r.2 (if r.1 = 0 then L else r.1 :: L)
  | realloc_zero {h : Heap} {L : List Int} (p : Int) (r : Int × Heap) :
      Reach addr size h0 h L → p ∈ L → _krealloc p 0 h = some r →
      Reach addr size h0 r.2 (L.erase p)
  | write {h : Heap} {L : List Int} (p a v : Int) :
      Reach addr size h0 h L → p ∈ L → p ≤ a → a + 4 ≤ p + (h.mem (p - 8) - 12) →
      Reach addr size h0 { h with mem := store h.mem a v } L

/-! ### Observation of the heap through memory -/

/-- The nodes met by following `nextFree` from `a`; `none` when the walk does not end. -/
def freeWalk (m : Mem) : Nat → Int → Option (List Int)
  | 0, _ => none
  | fuel + 1, a =>
    if a = 0 then some [] else (freeWalk m fuel (m (a + 16))).map (fun l => a :: l)

/-- The nodes of the free list, in list order. -/
def freeNodes (h : Heap) : Option (List Int) := freeWalk h.mem FUEL h._k_heapFreeList

/-- The nodes met by stepping from `a` by the node sizes up to the tail sentinel `tl`;
`none` when the walk meets a non-positive size or does not end. -/
def physWalk (m : Mem) (tl : Int) : Nat → Int → Option (List Int)
  | 0, _ => none
  | fuel + 1, a =>
    if a = tl then some []
    else if m (a + 4) ≤ 0 then none
    else (physWalk m tl fuel (u32 (a + m (a + 4)))).map (fun l => a :: l)

/-- The nodes between the head sentinel at `base` and the tail sentinel, in address order. -/
def physNodes (base : Int) (h : Heap) : Option (List Int) :=
  physWalk h.mem h._k_heapTail_ FUEL (base + 32)

/-- Sum of the sizes of the nodes of `l` that carry the mark `HEAP_NODE_ALLOCED`. -/
def allocBytes (m : Mem) (l : List Int) : Int :=
  (l.map (fun a => if m a = HEAP_NODE_ALLOCED then m (a + 4) else 0)).sum

/-- Conservation: the available bytes plus the sizes of the allocated nodes between the
sentinels make up the arena of `R` bytes without its two sentinel pages. -/
def Conserved (base R : Int) (h : Heap) : Prop :=
  ∃ l, physNodes base h = some l ∧ h._k_heap_available + allocBytes h.mem l = R - 64

/-- No node between the sentinels is marked free together with the node that starts at its
address plus its size. -/
def NoAdjacentFree (base : Int) (h : Heap) : Prop :=
  ∃ l, physNodes base h = some l ∧
    ∀ a ∈ l, ¬ (h.mem a = HEAP_NODE_FREE ∧ h.mem (u32 (a + h.mem (a + 4))) = HEAP_NODE_FREE)

/-! ### Concrete runs -/

/-- The globals as the C initialisers leave them, over a memory of zero words. -/
def bootHeap : Heap := ⟨fun _ => 0, 0, 0, 0, 268435455, 0⟩

/-- A region of 160 bytes at `4092` registered: the arena is at `4096`, its one free node
of 96 bytes at `4128`. -/
def runA0 : Heap := uffs_InitHeapMemory 4092 160 bootHeap

/-- After `a = _kmalloc(1)`, which hands out the node at `4128` (`a = 4140`). -/
def runA1 : Int × Heap := (_kmalloc 1 runA0).getD (0, runA0)

/-- After `b = _kmalloc(1)`, which hands out the node at `4160` (`b = 4172`). -/
def runA2 : Int × Heap := (_kmalloc 1 runA1.2).getD (0, runA0)

/-- After `_kfree(a)`: the nodes are free (32), allocated (32), free (32). -/
def runA3 : Heap := (_kfree 4140 runA2.2).2

/-- Any sequence of calls: the states reached from `uffs_InitHeapMemory addr size` on `h0`
by `_kmalloc`, `_kfree` and `_krealloc` with arbitrary arguments. -/
inductive ReachAny (addr size : Int) (h0 : Heap) : Heap → Prop
  | init : ReachAny addr size h0 (uffs_InitHeapMemory addr size h0)
  | malloc {h : Heap} (n : Int) (r : Int × Heap) :
      ReachAny addr size h0 h → _kmalloc n h = some r → ReachAny addr size h0 r.2
  | free {h : Heap} (p : Int) : ReachAny addr size h0 h → ReachAny addr size h0 (_kfree p h).2
  | realloc {h : Heap} (p n : Int) (r : Int × Heap) :
      ReachAny addr size h0 h → _krealloc p n h = some r → ReachAny addr size h0 r.2

/-- Memory before the registration of the region in which the words at `4160` and `4164`
happen to read as the header of an allocated node of 32 bytes. -/
def strayHeap : Heap :=
  ⟨fun x => if x = 4160 then HEAP_NODE_ALLOCED else if x = 4164 then 32 else 0,
    0, 0, 0, 268435455, 0⟩

/-- The region of 160 bytes at `4092` registered over `strayHeap`, then `_kfree(4172)` on an
address that `_kmalloc` never returned. -/
def runStray : Heap := (_kfree 4172 (uffs_InitHeapMemory 4092 160 strayHeap)).2

/-- Memory before the registration of the region in which the words at `4160`, `4164` and
`4168` read as the header of an allocated node of 32 bytes whose predecessor is at `4128`. -/
def strayHeap2 : Heap :=
  ⟨fun x => if x = 4160 then HEAP_NODE_ALLOCED else if x = 4164 then 32
    else if x = 4168 then 4128 else 0, 0, 0, 0, 268435455, 0⟩

/-- A region of 192 bytes at `4092` registered over `strayHeap2`. -/
def runB0 : Heap := uffs_InitHeapMemory 4092 192 strayHeap2

/-- After `_kmalloc(40)`, which hands out 64 bytes at `4128`. -/
def runB1 : Int × Heap := (_kmalloc 40 runB0).getD (0, runB0)

/-- After `_kmalloc(1)`, which hands out 32 bytes at `4192`. -/
def runB2 : Int × Heap := (_kmalloc 1 runB1.2).getD (0, runB0)

/-- After `_kfree(4140)` of the first block and `_kfree(4172)` on an address inside it that
`_kmalloc` never returned. -/
def runB3 : Heap := (_kfree 4172 (_kfree 4140 runB2.2).2).2

/-! ### Best fit and failing allocations -/

/-- The adjusted size in the words of the specification: the requested size plus the
header offset of 12, rounded up to a multiple of 32, in unbounded integers. -/
def specAdjusted (n : Int) : Int :=
  if (n + 12) % 32 = 0 then n + 12 else n + 12 + 32 - (n + 12) % 32

/-- A region of 352 bytes at `4092` registered: one free node of 288 bytes at `4128`. -/
def runW0 : Heap := uffs_InitHeapMemory 4092 352 bootHeap

/-- After `_kmalloc(1)`: 32 bytes at `4128`. -/
def runW1 : Int × Heap := (_kmalloc 1 runW0).getD (0, runW0)

/-- After `_kmalloc(1)`: 32 bytes at `4160`. -/
def runW2 : Int × Heap := (_kmalloc 1 runW1.2).getD (0, runW0)

/-- After `_kmalloc(40)`: 64 bytes at `4192`. -/
def runW3 : Int × Heap := (_kmalloc 40 runW2.2).getD (0, runW0)

/-- After `_kmalloc(1)`: 32 bytes at `4256`. -/
def runW4 : Int × Heap := (_kmalloc 1 runW3.2).getD (0, runW0)

/-- After `_kmalloc(80)`: 96 bytes at `4288`. -/
def runW5 : Int × Heap := (_kmalloc 80 runW4.2).getD (0, runW0)

/-- After `_kmalloc(1)`: 32 bytes at `4384`. -/
def runW6 : Int × Heap := (_kmalloc 1 runW5.2).getD (0, runW0)

/-- After the release of the blocks at `4128`, `4192` and `4288`: the free list holds the
nodes at `4288`, `4192`, `4128` of 96, 64 and 32 bytes. -/
def runW9 : Heap := (_kfree 4300 (_kfree 4204 (_kfree 4140 runW6.2).2).2).2

/-! ### Coalescing on release -/

/-- The `prevNode` field of the node of the block `p`. -/
def physPred (h : Heap) (p : Int) : Int := h.mem (p - 12 + 8)

/-- The address at which the node of the block `p` ends. -/
def physNext (h : Heap) (p : Int) : Int := p - 12 + h.mem (p - 12 + 4)

/-- Start of the span that a release of `p` merges: the predecessor when it is marked free,
else the node of `p`. -/
def mergedStart (h : Heap) (p : Int) : Int :=
  if h.mem (physPred h p) = HEAP_NODE_FREE then physPred h p else p - 12

/-- Size of the span that a release of `p` merges: the size of the node of `p` plus the
sizes of the predecessor and of the successor, each counted when it is marked free. -/
def mergedSize (h : Heap) (p : Int) : Int :=
  h.mem (p - 12 + 4) +
    (if h.mem (physPred h p) = HEAP_NODE_FREE then h.mem (physPred h p + 4) else 0) +
    (if h.mem (physNext h p) = HEAP_NODE_FREE then h.mem (physNext h p + 4) else 0)

/-- The free list without the neighbours that a release of `p` absorbs. -/
def restFree (h : Heap) (p : Int) (fl : List Int) : List Int :=
  let l := if h.mem (physPred h p) = HEAP_NODE_FREE then fl.erase (physPred h p) else fl
  if h.mem (physNext h p) = HEAP_NODE_FREE then l.erase (physNext h p) else l

/-! ### Registration, free-list consistency, node sizes -/

/-- Along the list `l` every node has the node before it in its `prevFree` field, the first
one has `prev`. -/
def backLinked (m : Mem) : Int → List Int → Prop
  | _, [] => True
  | prev, a :: rest => m (a + 12) = prev ∧ backLinked m a rest

/-- Free-list consistency: the walk along `nextFree` from the head of the free list ends,
meets no node twice, meets exactly the nodes between the sentinels that are marked free, and
`prevFree` leads back along it, with `NULL` at the head. -/
def FreeListConsistent (base : Int) (h : Heap) : Prop :=
  ∃ fl nodes, freeNodes h = some fl ∧ physNodes base h = some nodes ∧ fl.Nodup ∧
    (∀ a, a ∈ fl ↔ (a ∈ nodes ∧ h.mem a = HEAP_NODE_FREE)) ∧ backLinked h.mem 0 fl

/-! ### The allocation tracker of a device -/

/-- The macro `HEAP_MAGIC_SIZE`. -/
abbrev HEAP_MAGIC_SIZE : Int := 8

/-- The declarations of `uffs/uffs_mem.h` that the tracker routines use.  The header is not
among the sources, so they are parameters: the number of hash chains `HEAP_HASH_SIZE`, the
macro `GET_HASH_INDEX`, the size of `HEAP_MM`, the offsets of its fields `next`, `p`, `size`
and `task_id`, and whether `count` and `maxused` of `uffs_memAllocator` are declared `int`
(else `unsigned int`). -/
structure Layout where
  /-- number of hash chains -/
  HEAP_HASH_SIZE : Nat
  /-- hash index of a block address -/
  GET_HASH_INDEX : Int → Nat
  /-- the value of `sizeof(HEAP_MM)` -/
  sizeof_HEAP_MM : Int
  /-- offset of the field `next` -/
  off_next : Int
  /-- offset of the field `p` -/
  off_p : Int
  /-- offset of the field `size` -/
  off_size : Int
  /-- offset of the field `task_id` -/
  off_task_id : Int
  /-- whether the counters are signed -/
  count_signed : Bool

/-- Well-formed declarations: hash indices are inside the table, the four fields of
`HEAP_MM` are distinct words inside the record, and the record size is positive. -/
structure Layout.OK (c : Layout) : Prop where
  hash_lt : ∀ p, c.GET_HASH_INDEX p < c.HEAP_HASH_SIZE
  size_pos : 0 < c.sizeof_HEAP_MM
  size_le : c.sizeof_HEAP_MM ≤ 65536
  next_in : 0 ≤ c.off_next ∧ c.off_next + 4 ≤ c.sizeof_HEAP_MM
  p_in : 0 ≤ c.off_p ∧ c.off_p + 4 ≤ c.sizeof_HEAP_MM
  size_in : 0 ≤ c.off_size ∧ c.off_size + 4 ≤ c.sizeof_HEAP_MM
  task_in : 0 ≤ c.off_task_id ∧ c.off_task_id + 4 ≤ c.sizeof_HEAP_MM
  distinct : c.off_next ≠ c.off_p ∧ c.off_next ≠ c.off_size ∧ c.off_next ≠ c.off_task_id ∧
    c.off_p ≠ c.off_size ∧ c.off_p ≠ c.off_task_id ∧ c.off_size ≠ c.off_task_id

/-- A counter value as stored in `count` or `maxused`. -/
def Layout.wrap (c : Layout) (x : Int) : Int := if c.count_signed then i32 x else u32 x

/-- The part of a device that the tracker routines use: the arena with the memory, the
hash table `mem.tbl` (its address and its entries) and the counters `mem.count` and
`mem.maxused`. -/
structure Dev where
  /-- the arena and all of memory -/
  heap : Heap
  /-- address of the hash table, `0` when the device has none -/
  tbl_addr : Int
  /-- the entries of the hash table: heads of the chains -/
  tbl : Nat → Int
  /-- bytes in use -/
  count : Int
  /-- high-water mark of the bytes in use -/
  maxused : Int

/-- Assignment to one entry of the hash table. -/
def setTbl (t : Nat → Int) (i : Nat) (v : Int) : Nat → Int := fun j => if j = i then v else t j

/-- Source `__umalloc`, with `task` the value that `uffs_OSGetTaskId()` returns.  The result
is the block address (`0` for `NULL`) and the new state. -/
def __umalloc (c : Layout) (task : Int) (size : Int) (d : Dev) : Option (Int × Dev) :=
  match _kmalloc (i32 (HEAP_MAGIC_SIZE + size + HEAP_MAGIC_SIZE)) d.heap with
  | none => none
  | some (p, h1) =>
    if p ≠ 0 then
      match _kmalloc c.sizeof_HEAP_MM h1 with
      | none => none
      | some (node, h2) =>
        if node = 0 then some (0, { d with heap := (_kfree p h2).2 })
        else
          let p := u32 (p + HEAP_MAGIC_SIZE)
          let m1 := store h2.mem (node + c.off_p) p
          let m2 := store m1 (node + c.off_size) size
          let count := c.wrap (d.count + size)
          let maxused := if d.maxused < count then count else d.maxused
          let m3 := store m2 (node + c.off_task_id) task
          let idx := c.GET_HASH_INDEX p
          let m4 := store m3 (node + c.off_next) (d.tbl idx)
          some (p, { heap := { h2 with mem := m4 }, tbl_addr := d.tbl_addr, tbl := setTbl d.tbl idx node, count := count, maxused := maxused })
    else some (0, { d with heap := h1 })

/-- The search loop of `__ufree` from the record `node` with predecessor `prev`, together
with the release it does when it finds the record of `p`.  The result is the return value
and the new state; `none` when the loop does not end. -/
def ufreeLoop (c : Layout) (p : Int) (d : Dev) : Nat → Int → Int → Option (Int × Dev)
  | 0, _, _ => none
  | fuel + 1, node, prev =>
    if node = 0 then some (-1, d)
    else if d.heap.mem (node + c.off_p) = p then
      let next := d.heap.mem (node + c.off_next)
      let m1 := if prev ≠ 0 then store d.heap.mem (prev + c.off_next) next else d.heap.mem
      let tbl := if prev ≠ 0 then d.tbl else setTbl d.tbl (c.GET_HASH_INDEX p) next
      let count := c.wrap (d.count - m1 (node + c.off_size))
      let r1 := _kfree node { d.heap with mem := m1 }
      if r1.1 = -1 then some (-1, { d with heap := r1.2, tbl := tbl, count := count })
      else
        let r2 := _kfree (u32 (p - HEAP_MAGIC_SIZE)) r1.2
        some (r2.1, { d with heap := r2.2, tbl := tbl, count := count })
    else ufreeLoop c p d fuel (d.heap.mem (node + c.off_next)) node

/-- Source `__ufree`. -/
def __ufree (c : Layout) (p : Int) (d : Dev) : Option (Int × Dev) :=
  if p ≠ 0 then ufreeLoop c p d FUEL (d.tbl (c.GET_HASH_INDEX p)) 0
  else some (-1, d)

/-- The search loop of `__urealloc`: the record of `block` in the chain from `node`, and
its predecessor; a record `0` when there is none; `none` when the loop does not end. -/
def findRecord (c : Layout) (m : Mem) (block : Int) : Nat → Int → Int → Option (Int × Int)
  | 0, _, _ => none
  | fuel + 1, node, prev =>
    if node = 0 then some (0, prev)
    else if m (node + c.off_p) = block then some (node, prev)
    else findRecord c m block fuel (m (node + c.off_next)) node

/-- Source `__urealloc`, with `task` the value that `uffs_OSGetTaskId()` returns. -/
def __urealloc (c : Layout) (task : Int) (block size : Int) (d : Dev) : Option (Int × Dev) :=
  if block = 0 then __umalloc c task size d
  else if size = 0 then (__ufree c block d).map (fun r => (0, r.2))
  else
    let idx := c.GET_HASH_INDEX block
    match findRecord c d.heap.mem block FUEL (d.tbl idx) 0 with
    | none => none
    | some (node, prev) =>
      if node = 0 then some (0, d)
      else
        let p := u32 (block - HEAP_MAGIC_SIZE)
        match _krealloc p (i32 (HEAP_MAGIC_SIZE + size + HEAP_MAGIC_SIZE)) d.heap with
        | none => none
        | some (pNew, h1) =>
          if pNew = 0 then some (0, { d with heap := h1 })
          else if pNew = p then some (block, { d with heap := h1 })
          else
            let m1 := if prev ≠ 0 then store h1.mem (prev + c.off_next) (h1.mem (node + c.off_next)) else h1.mem
            let tbl1 := if prev ≠ 0 then d.tbl else setTbl d.tbl idx (h1.mem (node + c.off_next))
            let q := u32 (pNew + HEAP_MAGIC_SIZE)
            let m2 := store m1 (node + c.off_p) q
            let m3 := store m2 (node + c.off_size) size
            let m4 := store m3 (node + c.off_task_id) task
            let idx2 := c.GET_HASH_INDEX q
            let m5 := store m4 (node + c.off_next) (tbl1 idx2)
            some (q, { d with heap := { h1 with mem := m5 }, tbl := setTbl tbl1 idx2 node })

/-- The result type `URET` of `uffs_free`. -/
inductive URET where
  | U_SUCC
  | U_FAIL
  deriving DecidableEq

/-- Source `uffs_malloc`: the entry point of a device for `__umalloc`. -/
def uffs_malloc (c : Layout) (task : Int) (size : Int) (d : Dev) : Option (Int × Dev) :=
  if i32 size < 0 then some (0, d)
  else if d.tbl_addr ≠ 0 then __umalloc c task size d
  else some (0, d)

/-- Source `uffs_free`: the entry point of a device for `__ufree`. -/
def uffs_free (c : Layout) (block : Int) (d : Dev) : Option (URET × Dev) :=
  if d.tbl_addr ≠ 0 then
    match __ufree c block d with
    | none => none
    | some (r, d1) => if r < 0 then some (URET.U_FAIL, d1) else some (URET.U_SUCC, d1)
  else some (URET.U_SUCC, d)

/-- The `while` loop of `ReleaseHeap` on the chain `i`, from the count `cnt`: each round
releases the block of the first record of the chain. -/
def releaseChain (c : Layout) (i : Nat) : Nat → Int → Dev → Option (Int × Dev)
  | 0, _, _ => none
  | fuel + 1, cnt, d =>
    if d.tbl i = 0 then some (cnt, d)
    else
      match __ufree c (d.heap.mem (d.tbl i + c.off_p)) d with
      | none => none
      | some (_, d1) => releaseChain c i fuel (i32 (cnt + 1)) d1

/-- The `for` loop of `ReleaseHeap` over the last `k` chains of the table. -/
def releaseChains (c : Layout) : Nat → Int → Dev → Option (Int × Dev)
  | 0, cnt, d => some (cnt, d)
  | k + 1, cnt, d =>
    match releaseChain c (c.HEAP_HASH_SIZE - (k + 1)) FUEL cnt d with
    | none => none
    | some (cnt1, d1) => releaseChains c k cnt1 d1

/-- Source `ReleaseHeap`: the sweep over all chains, then the `_kfree` of the table
address.  The result is the number of blocks released, or `-1` without a table. -/
def ReleaseHeap (c : Layout) (d : Dev) : Option (Int × Dev) :=
  if d.tbl_addr = 0 then some (-1, d)
  else
    match releaseChains c c.HEAP_HASH_SIZE 0 d with
    | none => none
    | some (cnt, d1) => some (cnt, { d1 with heap := (_kfree d1.tbl_addr d1.heap).2 })

/-! ### The tracker: foreign pointers and concrete runs -/

/-- The records met by following `next` from `node`; `none` when the walk does not end. -/
def chainWalk (c : Layout) (m : Mem) : Nat → Int → Option (List Int)
  | 0, _ => none
  | fuel + 1, node =>
    if node = 0 then some []
    else (chainWalk c m fuel (m (node + c.off_next))).map (fun l => node :: l)

/-- The records of the chain `i` of the hash table, in chain order. -/
def chainNodes (c : Layout) (d : Dev) (i : Nat) : Option (List Int) :=
  chainWalk c d.heap.mem FUEL (d.tbl i)

/-- An instance of the declarations of `uffs/uffs_mem.h` for the concrete runs: 32 chains,
the hash index taken from the bits 2 to 6 of the address, records of four words in the
order `task_id`, `next`, `p`, `size`; `signed` tells whether the counters are `int`. -/
def layoutRun (signed : Bool) : Layout :=
  { HEAP_HASH_SIZE := 32
    GET_HASH_INDEX := fun p => ((p / 4) % 32).toNat
    sizeof_HEAP_MM := 16
    off_task_id := 0
    off_next := 4
    off_p := 8
    off_size := 12
    count_signed := signed }

/-- A device with an empty table at `1024` over a region of `size` bytes registered at
`4092` on zeroed memory. -/
def devRun (size : Int) : Dev :=
  { heap := uffs_InitHeapMemory 4092 size bootHeap, tbl_addr := 1024, tbl := fun _ => 0, count := 0, maxused := 0 }

/-- The state of a run after a call; a call that does not return leaves the empty device. -/
def after (o : Option (Int × Dev)) : Int × Dev := o.getD (0, devRun 0)

/-- Run T: the device over 352 bytes after `p = uffs_malloc(10)`: the block `p = 4148` in
the node of 64 bytes at `4128`, its record at `4204` in the node at `4192`. -/
def runT1 : Int × Dev := after (uffs_malloc (layoutRun true) 7 10 (devRun 352))

/-- Run U: the device over 352 bytes after three `uffs_malloc(1)`, which return `4148`,
`4212` and `4276`. -/
def runU3 : Int × Dev :=
  after (uffs_malloc (layoutRun true) 7 1 (after (uffs_malloc (layoutRun true) 7 1
    (after (uffs_malloc (layoutRun true) 7 1 (devRun 352))).2)).2)

/-- Run U after `uffs_free(4212)`: the free nodes are the 64 bytes at `4192` and the 96
bytes at `4320`. -/
def runU4 : Dev := ((uffs_free (layoutRun true) 4212 runU3.2).map Prod.snd).getD (devRun 0)

/-- Run U after `p = uffs_malloc(2147483631)`. -/
def runU5 : Int × Dev := after (uffs_malloc (layoutRun true) 7 2147483631 runU4)

/-- Run V: on a device over `size` bytes, `p = uffs_malloc(n)`, `q = __urealloc(p, m)`,
`__ufree(q)`, from the state `d`. -/
def cycleV (signed : Bool) (n m : Int) (d : Dev) : Int × Dev :=
  let a := after (uffs_malloc (layoutRun signed) 7 n d)
  let b := after (__urealloc (layoutRun signed) 7 a.1 m a.2)
  after (__ufree (layoutRun signed) b.1 b.2)

/-! ### Size adjustment at the overflow bound, and the counter against the records -/

/-- The records of all chains of the hash table, chain after chain; `none` when the walk of
a chain does not end. -/
def tableRecords (c : Layout) (d : Dev) : Option (List Int) :=
  (List.range c.HEAP_HASH_SIZE).foldr
    (fun i acc =>
      match chainNodes c d i, acc with
      | some l, some r => some (l ++ r)
      | _, _ => none)
    (some [])

/-- The sum of the fields `size` of all records of the hash table. -/
def recordedBytes (c : Layout) (d : Dev) : Option Int :=
  (tableRecords c d).map (fun l => (l.map (fun r => d.heap.mem (r + c.off_size))).sum)

/-- Run R: the device over 352 bytes after `p = __umalloc(10)`: the block `p = 4148`, its
record at `4204`. -/
def runR1 (signed : Bool) : Int × Dev := after (__umalloc (layoutRun signed) 7 10 (devRun 352))

/-- Run R after `q = __urealloc(p, 100)`: the block moved to `q = 4244`. -/
def runR2 (signed : Bool) : Int × Dev :=
  after (__urealloc (layoutRun signed) 7 (runR1 signed).1 100 (runR1 signed).2)

/-! ### The words the arena routines leave alone -/

/-- The address `y` is no header word of a node of the chain and no link word of a node of
the free list. -/
def Clear (base R : Int) (bs : List Blk) (fl : List Int) (y : Int) : Prop :=
  (∀ a ∈ (full base R bs).map (·.addr), y ≠ a ∧ y ≠ a + 4 ∧ y ≠ a + 8) ∧
  (∀ a ∈ fl, y ≠ a + 12 ∧ y ≠ a + 16)

/-! ### The invariant of the tracker -/

/-- A tracking record of the hash table: the address of the `HEAP_MM`, and its fields `p`
and `size`. -/
structure Rec where
  /-- address of the record -/
  a : Int
  /-- the field `p`: the block handed to the caller -/
  p : Int
  /-- the field `size`: the size the caller asked for -/
  s : Int

/-- The blocks of the arena that the records stand for: each record itself, and the block
that its field `p` points into, `HEAP_MAGIC_SIZE` bytes before `p`. -/
def blocksOf : List Rec → List Int
  | [] => []
  | r :: rs => r.a :: (r.p - 8) :: blocksOf rs

/-- The sum of the fields `size` of the records. -/
def sizeSum : List Rec → Int
  | [] => 0
  | r :: rs => r.s + sizeSum rs

/-- The records whose field `p` has the hash index `i`, most recent first. -/
def chainOf (c : Layout) (rs : List Rec) (i : Nat) : List Rec :=
  rs.filter (fun r => decide (c.GET_HASH_INDEX r.p = i))

/-- The records `l` form a chain in memory, entered at `cur` and linked by `next`, that ends
with a null `next`. -/
def ChainL (c : Layout) (m : Mem) : Int → List Rec → Prop
  | cur, [] => cur = 0
  | cur, r :: t => cur = r.a ∧ ChainL c m (m (r.a + c.off_next)) t

/-- Every record lies in the payload of an allocated node of the chain. -/
def RecBlks (c : Layout) (rs : List Rec) (bs : List Blk) : Prop :=
  ∀ r ∈ rs, ∃ x ∈ bs, x.free = false ∧ x.addr + 12 = r.a ∧ c.sizeof_HEAP_MM + 12 ≤ x.size

/-- The memories `m` and `m'` agree on the words of the records. -/
def RecFrame (c : Layout) (rs : List Rec) (m m' : Mem) : Prop :=
  ∀ r ∈ rs, ∀ off, 0 ≤ off → off + 4 ≤ c.sizeof_HEAP_MM → m' (r.a + off) = m (r.a + off)

/-- The invariant of a device: the arena is well formed with the nodes `bs` and the free
list `fl`; the blocks handed out are those of the records `rs`; the fields of the records
are in memory; the chain `i` of the table links the records with hash index `i`; and
`count` is its initial value `c0` plus the sizes of the records. -/
structure TInv (c : Layout) (base R c0 : Int) (d : Dev) (rs : List Rec) (bs : List Blk)
    (fl : List Int) : Prop where
  rep : Rep base R d.heap bs fl
  live : Live bs (blocksOf rs)
  flds : ∀ r ∈ rs, d.heap.mem (r.a + c.off_p) = r.p ∧ d.heap.mem (r.a + c.off_size) = r.s
  blks : RecBlks c rs bs
  chains : ∀ i, ChainL c d.heap.mem (d.tbl i) (chainOf c rs i)
  count : d.count = c.wrap (c0 + sizeSum rs)

/-- The states of a device after `k` calls of `uffs_malloc` that all returned a block, from
the state `d0`; the sizes are values of an `unsigned int`. -/
inductive AllocRun (c : Layout) (d0 : Dev) : Nat → Dev → Prop
  | start : AllocRun c d0 0 d0
  | step {k : Nat} {d : Dev} (task size p : Int) (d' : Dev) :
      AllocRun c d0 k d → 0 ≤ size → size < 4294967296 →
      uffs_malloc c task size d = some (p, d') → p ≠ 0 → AllocRun c d0 (k + 1) d'

/-! ### Leak accounting -/

/-- Run U after the first `uffs_malloc(1)`. -/
def runU1 : Int × Dev := after (uffs_malloc (layoutRun true) 7 1 (devRun 352))

/-- Run U after the second `uffs_malloc(1)`. -/
def runU2 : Int × Dev := after (uffs_malloc (layoutRun true) 7 1 runU1.2)

/-! ## Theorems -/

/-! ### Basic facts on words and memory -/

theorem u32_of_range {x : Int} (h0 : 0 ≤ x) (h1 : x < 4294967296) : u32 x = x := by
  unfold u32; omega

theorem i32_of_range {x : Int} (h0 : -2147483648 ≤ x) (h1 : x < 2147483648) : i32 x = x := by
  unfold i32; omega

@[simp] theorem store_same (m : Mem) (a v : Int) : store m a v a = v := by
  simp [store]

theorem store_ne (m : Mem) {a x : Int} (v : Int) (h : x ≠ a) : store m a v x = m x := by
  simp [store, h]

/-! ### The free list as a linked structure -/

theorem FL_congr {m m' : Mem} : ∀ {l : List Int} {prev cur : Int},
    (∀ a ∈ l, m' (a + 12) = m (a + 12) ∧ m' (a + 16) = m (a + 16)) →
    FL m prev cur l → FL m' prev cur l := by
  intro l
  induction l with
  | nil => intro prev cur _ h; exact h
  | cons a rest ih =>
    intro prev cur hm h
    obtain ⟨h1, h2, h3, h4⟩ := h
    have ha := hm a (List.mem_cons_self a rest)
    refine ⟨h1, h2, by rw [ha.1]; exact h3, ?_⟩
    rw [ha.2]
    exact ih (fun b hb => hm b (List.mem_cons_of_mem a hb)) h4

theorem FL_ne_zero {m : Mem} : ∀ {l : List Int} {prev cur : Int},
    FL m prev cur l → ∀ a ∈ l, a ≠ 0 := by
  intro l
  induction l with
  | nil => intro _ _ _ a ha; simp at ha
  | cons b rest ih =>
    intro prev cur h a ha
    obtain ⟨_, h2, _, h4⟩ := h
    rcases List.mem_cons.1 ha with rfl | hr
    · exact h2
    · exact ih h4 a hr

theorem FL_head {m : Mem} {l : List Int} {prev cur : Int} (h : FL m prev cur l) :
    cur = l.headD 0 := by
  cases l with
  | nil => exact h
  | cons a rest => exact h.1

theorem getLastD_cons (d p : Int) : ∀ l : List Int,
    ((d :: l).getLast?).getD p = (l.getLast?).getD d
  | [] => by simp
  | e :: l => by
    rw [List.getLast?_cons_cons, List.getLast?_eq_getLast _ (List.cons_ne_nil e l)]; simp

theorem FL_nbrs {m : Mem} {x : Int} {l2 : List Int} : ∀ {l1 : List Int} {prev cur : Int},
    FL m prev cur (l1 ++ x :: l2) →
    m (x + 12) = (l1.getLast?).getD prev ∧ m (x + 16) = l2.headD 0 := by
  intro l1
  induction l1 with
  | nil =>
    intro prev cur h
    obtain ⟨_, _, h3, h4⟩ := h
    exact ⟨by simpa using h3, (FL_head h4)⟩
  | cons c l1 ih =>
    intro prev cur h
    obtain ⟨_, _, _, h4⟩ := h
    have := ih h4
    refine ⟨?_, this.2⟩
    rw [this.1, getLastD_cons]

theorem FL_unlink {m : Mem} {c x : Int} {l2 : List Int} : ∀ {l1 : List Int} {prev cur : Int},
    FL m prev cur (l1 ++ x :: l2) → (l1 ++ x :: l2).Nodup →
    (∀ a ∈ l1 ++ x :: l2, (a - c) % 32 = 0) →
    (prev = 0 ∨ ((prev - c) % 32 = 0 ∧ prev ∉ l1 ++ x :: l2)) →
    FL (unlinkMem m (l2.headD 0) ((l1.getLast?).getD prev)) prev
      (if l1 = [] then l2.headD 0 else cur) (l1 ++ l2) := by
  intro l1
  induction l1 with
  | nil =>
    intro prev cur h hnd hal hprev
    obtain ⟨_, hx0, _, h4⟩ := h
    simp only [List.nil_append, List.getLast?_nil, Option.getD_none, if_true]
    cases l2 with
    | nil => simp [FL]
    | cons b l2 =>
      obtain ⟨hb1, hb0, _, hb4⟩ := h4
      simp only [List.nil_append, List.nodup_cons, List.mem_cons, not_or] at hnd
      have halx := hal x (by simp)
      have halb := hal b (by simp)
      simp only [List.headD_cons, unlinkMem, if_pos hb0]
      have key : ∀ y, y ≠ b + 12 → y ≠ prev + 16 ∨ prev = 0 →
          (if prev ≠ 0 then store (store m (b + 12) prev) (prev + 16) b
            else store m (b + 12) prev) y = m y := by
        intro y h1 h2
        by_cases hp : prev = 0
        · simp [hp, store_ne _ _ h1]
        · rcases h2 with h2 | h2
          · simp [hp, store_ne _ _ h2, store_ne _ _ h1]
          · exact absurd h2 hp
      refine ⟨rfl, hb0, ?_, ?_⟩
      · by_cases hp : prev = 0
        · simp [hp]
        · have hpa : (prev - c) % 32 = 0 := by
            rcases hprev with h | h
            · exact absurd h hp
            · exact h.1
          simp only [if_pos hp]
          rw [store_ne _ _ (by omega), store_same]
      · have hpb : prev = 0 ∨ ((prev - c) % 32 = 0 ∧ prev ≠ b ∧ ∀ a ∈ l2, prev ≠ a) := by
          rcases hprev with h | h
          · exact Or.inl h
          · right
            refine ⟨h.1, ?_, ?_⟩
            · intro e; exact h.2 (by simp [e])
            · intro a ha e; exact h.2 (by simp [e, ha])
        rw [key (b + 16) (by omega) (by rcases hpb with h | h; exact Or.inr h; left; omega)]
        refine FL_congr ?_ hb4
        intro a ha
        have hab : a ≠ b := by intro e; exact hnd.2.1 (e ▸ ha)
        have hala := hal a (by simp [ha])
        constructor
        · exact key _ (by omega) (by rcases hpb with h | h; exact Or.inr h; left; omega)
        · refine key _ (by omega) ?_
          rcases hpb with h | h
          · exact Or.inr h
          · left; have := h.2.2 a ha; omega
  | cons d l1 ih =>
    intro prev cur h hnd hal hprev
    obtain ⟨hd1, hd0, hd3, h4⟩ := h
    have hnd' : (l1 ++ x :: l2).Nodup := (List.nodup_cons.1 hnd).2
    have hdn : d ∉ l1 ++ x :: l2 := (List.nodup_cons.1 hnd).1
    have hald := hal d (by simp)
    have hal' : ∀ a ∈ l1 ++ x :: l2, (a - c) % 32 = 0 :=
      fun a ha => hal a (List.mem_cons_of_mem d ha)
    have IH := ih h4 hnd' hal' (Or.inr ⟨hald, hdn⟩)
    have hp : ((d :: l1).getLast?).getD prev = (l1.getLast?).getD d := getLastD_cons d prev l1
    simp only [List.cons_append, hp, reduceCtorEq, if_false]
    -- the predecessor `p` and successor `n` of `x`
    have hn : l2.headD 0 = 0 ∨ (l2.headD 0 ∈ l2) := by
      cases l2 with
      | nil => exact Or.inl rfl
      | cons b l2 => exact Or.inr (List.mem_cons_self _ _)
    have hpm : (l1.getLast?).getD d = d ∧ l1 = [] ∨ ((l1.getLast?).getD d ∈ l1) := by
      rcases List.eq_nil_or_concat l1 with h | ⟨l, e, h⟩
      · subst h; exact Or.inl ⟨rfl, rfl⟩
      · subst h; right; simp
    have hn_ne : l2.headD 0 = 0 ∨ ((l2.headD 0 - c) % 32 = 0 ∧ l2.headD 0 ≠ d) := by
      rcases hn with h | h
      · exact Or.inl h
      · right
        have hm : l2.headD 0 ∈ l1 ++ x :: l2 :=
          List.mem_append_right l1 (List.mem_cons_of_mem x h)
        refine ⟨hal' _ hm, ?_⟩
        intro e; exact hdn (e ▸ hm)
    have hp_al : ((l1.getLast?).getD d - c) % 32 = 0 := by
      rcases hpm with h | h
      · rw [h.1]; exact hald
      · exact hal' _ (List.mem_append_left _ h)
    have hp0 : (l1.getLast?).getD d ≠ 0 := by
      rcases hpm with h | h
      · rw [h.1]; exact hd0
      · intro e
        have : (0 : Int) ∈ l1 ++ x :: l2 := by rw [← e]; exact List.mem_append_left _ h
        exact FL_ne_zero h4 0 this rfl
    have hpd : l1 ≠ [] → (l1.getLast?).getD d ≠ d := by
      intro hne e
      rcases hpm with h | h
      · exact hne h.2
      · rw [e] at h; exact hdn (List.mem_append_left _ h)
    generalize l2.headD 0 = n at *
    generalize (l1.getLast?).getD d = p at *
    refine ⟨hd1, hd0, ?_, ?_⟩
    · simp only [unlinkMem, if_pos hp0]
      rw [store_ne _ _ (by omega)]
      by_cases h0 : n = 0
      · simp [h0, hd3]
      · simp only [if_pos h0]
        rw [store_ne _ _ (by rcases hn_ne with h | h; exact absurd h h0; omega)]; exact hd3
    · have : unlinkMem m n p (d + 16) = (if l1 = [] then n else m (d + 16)) := by
        simp only [unlinkMem, if_pos hp0]
        by_cases hne : l1 = []
        · rcases hpm with h | h
          · rw [h.1, store_same, if_pos hne]
          · rw [hne] at h; simp at h
        · have := hpd hne
          rw [if_neg hne, store_ne _ _ (by omega)]
          by_cases h0 : n = 0
          · simp [h0]
          · simp only [if_pos h0]
            rw [store_ne _ _ (by rcases hn_ne with h | h; exact absurd h h0; omega)]
      rw [this]
      exact IH

theorem FL_store_hdr {m : Mem} {c y v prev cur : Int} {l : List Int}
    (hy : IsHdr c y) (hal : ∀ a ∈ l, (a - c) % 32 = 0) (h : FL m prev cur l) :
    FL (store m y v) prev cur l := by
  refine FL_congr ?_ h
  intro a ha
  have := hal a ha
  unfold IsHdr at hy
  constructor <;> (apply store_ne; omega)

theorem HeapDeleteFromFreeList_spec {h : Heap} {c x : Int} {fl : List Int}
    (hfl : FL h.mem 0 h._k_heapFreeList fl) (hnd : fl.Nodup)
    (hal : ∀ a ∈ fl, (a - c) % 32 = 0) (hx : x ∈ fl) :
    FL (HeapDeleteFromFreeList x h).mem 0 (HeapDeleteFromFreeList x h)._k_heapFreeList
        (fl.erase x) ∧
      (∀ y, IsHdr c y → (HeapDeleteFromFreeList x h).mem y = h.mem y) ∧
      (HeapDeleteFromFreeList x h)._k_heapTail_ = h._k_heapTail_ ∧
      (HeapDeleteFromFreeList x h)._k_heap_available = h._k_heap_available ∧
      (HeapDeleteFromFreeList x h)._minimu_heap_avaiable = h._minimu_heap_avaiable ∧
      (HeapDeleteFromFreeList x h)._kernel_heap_total = h._kernel_heap_total := by
  obtain ⟨l1, l2, rfl⟩ := List.append_of_mem hx
  have hx1 : x ∉ l1 := by
    intro hm
    have := List.nodup_append.1 hnd
    exact this.2.2 hm (List.mem_cons_self _ _)
  have hx2 : x ∉ l2 := by
    have := (List.nodup_append.1 hnd).2.1
    exact (List.nodup_cons.1 this).1
  have hnb := FL_nbrs hfl
  have hun := FL_unlink (c := c) hfl hnd hal (Or.inl rfl)
  have hhead := FL_head hfl
  have herase : (l1 ++ x :: l2).erase x = l1 ++ l2 := by
    rw [List.erase_append_right _ hx1, List.erase_cons_head]
  have halx := hal x (by simp)
  -- successor and predecessor
  have hn : l2.headD 0 = 0 ∨ ((l2.headD 0 - c) % 32 = 0 ∧ l2.headD 0 ≠ x) := by
    cases l2 with
    | nil => exact Or.inl rfl
    | cons b l2 =>
      right
      refine ⟨hal b (by simp), ?_⟩
      intro e; exact hx2 (e ▸ List.mem_cons_self _ _)
  have hp : (l1.getLast?).getD 0 = 0 ∨ (((l1.getLast?).getD 0 - c) % 32 = 0) := by
    rcases List.eq_nil_or_concat l1 with e | ⟨l, e, h⟩
    · subst e; exact Or.inl rfl
    · rw [List.concat_eq_append] at h
      subst h; right
      have : (l ++ [e]).getLast?.getD 0 = e := by simp
      rw [this]; exact hal e (by simp)
  have hp0' : l1 = [] → (l1.getLast?).getD 0 = 0 := by
    intro e; rw [e]; rfl
  have hcur : x = h._k_heapFreeList ↔ l1 = [] := by
    rw [hhead]
    cases l1 with
    | nil => simp
    | cons d l1 =>
      simp only [List.cons_append, List.headD_cons, reduceCtorEq, iff_false]
      intro e; exact hx1 (e ▸ List.mem_cons_self _ _)
  generalize l2.headD 0 = n at *
  generalize (l1.getLast?).getD 0 = p at *
  have hm1a : (if n ≠ 0 then store h.mem (n + 12) p else h.mem) (x + 12) = p := by
    by_cases h0 : n = 0
    · simp [h0, hnb.1]
    · simp only [ne_eq, h0, not_false_eq_true, if_true]
      rw [store_ne _ _ (by rcases hn with e | e; exact absurd e h0; omega)]; exact hnb.1
  have hm1b : (if n ≠ 0 then store h.mem (n + 12) p else h.mem) (x + 16) = n := by
    by_cases h0 : n = 0
    · simp [h0, hnb.2]
    · simp only [ne_eq, h0, not_false_eq_true, if_true]
      rw [store_ne _ _ (by rcases hn with e | e; exact absurd e h0; omega)]; exact hnb.2
  have hmem : (HeapDeleteFromFreeList x h).mem = unlinkMem h.mem n p := by
    unfold HeapDeleteFromFreeList unlinkMem
    simp only [hnb.1, hnb.2]
    simp only [hm1a, hm1b]
    split <;> rfl
  have hfree : (HeapDeleteFromFreeList x h)._k_heapFreeList =
      (if l1 = [] then n else h._k_heapFreeList) := by
    unfold HeapDeleteFromFreeList
    simp only [hnb.1, hnb.2]
    simp only [hm1a, hm1b]
    by_cases e : l1 = []
    · have hp0 : p = 0 := hp0' e
      rw [if_pos (hcur.2 e), if_pos e]
      subst hp0
      simp only [ne_eq, not_true_eq_false, if_false]
      exact hm1b
    · rw [if_neg (fun h' => e (hcur.1 h')), if_neg e]
  refine ⟨?_, ?_, ?_, ?_, ?_, ?_⟩
  · rw [herase, hmem, hfree]; exact hun
  · intro y hy
    rw [hmem]
    unfold unlinkMem IsHdr at *
    by_cases hp0 : p = 0 <;> by_cases hn0 : n = 0
    · simp [hp0, hn0]
    · simp only [hp0, hn0, ne_eq, not_true_eq_false, not_false_eq_true, if_true, if_false]
      rw [store_ne _ _ (by rcases hn with e | e; exact absurd e hn0; omega)]
    · simp only [hp0, hn0, ne_eq, not_true_eq_false, not_false_eq_true, if_true, if_false]
      rw [store_ne _ _ (by rcases hp with e | e; exact absurd e hp0; omega)]
    · simp only [hp0, hn0, ne_eq, not_false_eq_true, if_true]
      rw [store_ne _ _ (by rcases hp with e | e; exact absurd e hp0; omega),
        store_ne _ _ (by rcases hn with e | e; exact absurd e hn0; omega)]
  all_goals (by_cases e : x = h._k_heapFreeList <;> simp [HeapDeleteFromFreeList, e])

theorem HeapChainToFreeList_spec {h : Heap} {c x : Int} {fl : List Int}
    (hfl : FL h.mem 0 h._k_heapFreeList fl) (hnd : fl.Nodup)
    (hal : ∀ a ∈ fl, (a - c) % 32 = 0)
    (hx : x ∉ fl) (hx0 : x ≠ 0) (halx : (x - c) % 32 = 0) :
    FL (HeapChainToFreeList x h).mem 0 (HeapChainToFreeList x h)._k_heapFreeList (x :: fl) ∧
      (∀ y, IsHdr c y → (HeapChainToFreeList x h).mem y = h.mem y) ∧
      (HeapChainToFreeList x h)._k_heapTail_ = h._k_heapTail_ ∧
      (HeapChainToFreeList x h)._k_heap_available = h._k_heap_available ∧
      (HeapChainToFreeList x h)._minimu_heap_avaiable = h._minimu_heap_avaiable ∧
      (HeapChainToFreeList x h)._kernel_heap_total = h._kernel_heap_total := by
  have hhead := FL_head hfl
  cases fl with
  | nil =>
    have h0 : h._k_heapFreeList = 0 := hhead
    unfold HeapChainToFreeList
    simp only [h0, if_true]
    refine ⟨⟨rfl, hx0, ?_, ?_⟩, ?_, by trivial, by trivial, by trivial, by trivial⟩
    · simp
    · rw [store_ne _ _ (by omega), store_same]; rfl
    · intro y hy
      unfold IsHdr at hy
      rw [store_ne _ _ (by omega), store_ne _ _ (by omega)]
  | cons a rest =>
    obtain ⟨ha1, ha0, ha3, ha4⟩ := hfl
    have hala := hal a (by simp)
    have hxa : x ≠ a := by intro e; exact hx (e ▸ List.mem_cons_self _ _)
    unfold HeapChainToFreeList
    simp only [ha1, ha0, if_false]
    refine ⟨⟨rfl, hx0, ?_, ?_⟩, ?_, by trivial, by trivial, by trivial, by trivial⟩
    · rw [store_ne _ _ (by omega), store_ne _ _ (by omega), store_same]
    · rw [store_same]
      refine ⟨rfl, ha0, ?_, ?_⟩
      · rw [store_ne _ _ (by omega), store_same]
      · rw [store_ne _ _ (by omega), store_ne _ _ (by omega), store_ne _ _ (by omega),
          store_ne _ _ (by omega)]
        refine FL_congr ?_ ha4
        intro b hb
        have halb := hal b (by simp [hb])
        have hxb : x ≠ b := by intro e; exact hx (e ▸ List.mem_cons_of_mem _ hb)
        constructor
        · have hab : b ≠ a := by
            intro e; exact (List.nodup_cons.1 hnd).1 (e ▸ hb)
          rw [store_ne _ _ (by omega), store_ne _ _ (by omega), store_ne _ _ (by omega),
            store_ne _ _ (by omega)]
        · rw [store_ne _ _ (by omega), store_ne _ _ (by omega), store_ne _ _ (by omega),
            store_ne _ _ (by omega)]
    · intro y hy
      unfold IsHdr at hy
      rw [store_ne _ _ (by omega), store_ne _ _ (by omega), store_ne _ _ (by omega),
        store_ne _ _ (by omega)]

/-! ### The arena as a list of nodes -/

theorem chain_after : ∀ {l : List Blk} {x : Blk}, List.Chain' Adj (x :: l) →
    ∀ b ∈ l, x.addr + x.size ≤ b.addr ∧ 32 ≤ x.size ∧ (b.addr - x.addr) % 32 = 0 := by
  intro l
  induction l with
  | nil => intro x _ b hb; simp at hb
  | cons y l ih =>
    intro x h b hb
    rw [List.chain'_cons] at h
    obtain ⟨⟨h1, h2, h3⟩, h4⟩ := h
    rcases List.mem_cons.1 hb with rfl | hb'
    · refine ⟨by omega, h2, by omega⟩
    · have := ih h4 b hb'
      refine ⟨by omega, h2, by omega⟩

theorem chain_sep {A B : List Blk} {x : Blk} (h : List.Chain' Adj (A ++ x :: B)) :
    (∀ a ∈ A, a.addr + a.size ≤ x.addr ∧ 32 ≤ a.size ∧ (x.addr - a.addr) % 32 = 0) ∧
      (∀ b ∈ B, x.addr + x.size ≤ b.addr ∧ 32 ≤ x.size ∧ (b.addr - x.addr) % 32 = 0) := by
  constructor
  · intro a ha
    obtain ⟨A1, A2, rfl⟩ := List.append_of_mem ha
    rw [List.append_assoc, List.cons_append] at h
    have h' := (List.chain'_split.1 h).2
    exact chain_after h' x (by simp)
  · exact chain_after (List.chain'_split.1 h).2

theorem full_split (base R : Int) (pre post : List Blk) (x : Blk) :
    full base R (pre ++ x :: post) =
      (⟨base, 32, false⟩ :: pre) ++ x :: (post ++ [⟨base + R - 32, -1, false⟩]) := by
  simp [full]

theorem mem_full {base R : Int} {bs : List Blk} {b : Blk} (hb : b ∈ bs) :
    b ∈ full base R bs := by
  simp [full, hb]

/-- Facts on a node `x` of the chain that follow from the layout alone. -/
theorem geom_node {base R : Int} {pre post : List Blk} {x : Blk}
    (h : List.Chain' Adj (full base R (pre ++ x :: post))) :
    base + 32 ≤ x.addr ∧ x.addr + x.size ≤ base + R - 32 ∧ 32 ≤ x.size ∧
      x.size % 32 = 0 ∧ (x.addr - base) % 32 = 0 ∧
      (∀ a ∈ pre, a.addr + a.size ≤ x.addr ∧ 32 ≤ a.size ∧ base + 32 ≤ a.addr ∧
        (a.addr - base) % 32 = 0) ∧
      (∀ b ∈ post, x.addr + x.size ≤ b.addr ∧ b.addr + 32 ≤ base + R - 32 ∧
        (b.addr - base) % 32 = 0) := by
  rw [full_split] at h
  have hs := chain_sep h
  have h0 := hs.1 ⟨base, 32, false⟩ (by simp)
  have ht := hs.2 ⟨base + R - 32, -1, false⟩ (by simp)
  simp only at h0 ht
  have hx3 : x.size % 32 = 0 := by
    have h' := (List.chain'_split.1 h).2
    cases post with
    | nil =>
      simp only [List.nil_append] at h'
      exact ((List.chain'_cons.1 h').1).2.2
    | cons z post =>
      simp only [List.cons_append] at h'
      exact ((List.chain'_cons.1 h').1).2.2
  refine ⟨by omega, by omega, ht.2.1, hx3, by omega, ?_, ?_⟩
  · intro a ha
    have ha' := hs.1 a (by simp [ha])
    obtain ⟨p1, p2, rfl⟩ := List.append_of_mem ha
    have h2 : List.Chain' Adj ((⟨base, 32, false⟩ :: p1) ++ a ::
        (p2 ++ x :: (post ++ [⟨base + R - 32, -1, false⟩]))) := by
      simpa using h
    have h3 := (chain_sep h2).1 ⟨base, 32, false⟩ (by simp)
    simp only at h3
    refine ⟨ha'.1, ha'.2.1, by omega, by omega⟩
  · intro b hb
    have hb' := hs.2 b (by simp [hb])
    obtain ⟨p1, p2, rfl⟩ := List.append_of_mem hb
    have h2 : List.Chain' Adj ((⟨base, 32, false⟩ :: pre ++ x :: p1) ++ b ::
        (p2 ++ [⟨base + R - 32, -1, false⟩])) := by
      simpa using h
    have h3 := (chain_sep h2).2 ⟨base + R - 32, -1, false⟩ (by simp)
    simp only at h3
    refine ⟨hb'.1, by omega, by omega⟩

theorem isHdr_of_al {c a : Int} (h : (a - c) % 32 = 0) :
    IsHdr c a ∧ IsHdr c (a + 4) ∧ IsHdr c (a + 8) := by
  unfold IsHdr; omega

/-- Every node of the chain is aligned with the base, and lies in the arena. -/
theorem full_al {base R : Int} {bs : List Blk} (h : List.Chain' Adj (full base R bs)) :
    ∀ b ∈ full base R bs, (b.addr - base) % 32 = 0 ∧ base ≤ b.addr := by
  intro b hb
  unfold full at h hb
  rcases List.mem_cons.1 hb with rfl | hb'
  · simp
  · have := chain_after h b hb'
    simp only at this
    omega

/-! ### The `prevNode` links along the chain -/

theorem link_frame_cons {m m' : Mem} : ∀ (l : List Int) (x : Int),
    List.Chain' (fun a b => m (b + 8) = a) (x :: l) →
    (∀ y ∈ l, m' (y + 8) = m (y + 8)) →
    List.Chain' (fun a b => m' (b + 8) = a) (x :: l)
  | [], _, _, _ => List.chain'_singleton _
  | y :: l, x, h, hf => by
    rw [List.chain'_cons] at h ⊢
    refine ⟨?_, link_frame_cons l y h.2 (fun z hz => hf z (List.mem_cons_of_mem _ hz))⟩
    rw [hf y (List.mem_cons_self _ _)]; exact h.1

theorem link_frame {m m' : Mem} {l : List Int}
    (h : List.Chain' (fun a b => m (b + 8) = a) l)
    (hf : ∀ y ∈ l, m' (y + 8) = m (y + 8)) :
    List.Chain' (fun a b => m' (b + 8) = a) l := by
  cases l with
  | nil => exact List.chain'_nil
  | cons x l => exact link_frame_cons l x h (fun y hy => hf y (List.mem_cons_of_mem _ hy))

theorem link_remove {m m' : Mem} {A1 A2 : List Int} {lo up nx : Int}
    (h : List.Chain' (fun a b => m (b + 8) = a) (A1 ++ lo :: up :: nx :: A2))
    (hnx : m' (nx + 8) = lo)
    (hf : ∀ y ∈ A1 ++ lo :: A2, m' (y + 8) = m (y + 8)) :
    List.Chain' (fun a b => m' (b + 8) = a) (A1 ++ lo :: nx :: A2) := by
  rw [List.chain'_split] at h ⊢
  obtain ⟨h1, h2⟩ := h
  rw [List.chain'_cons, List.chain'_cons] at h2
  refine ⟨link_frame h1 (fun y hy => hf y ?_), ?_⟩
  · rcases List.mem_append.1 hy with h' | h'
    · exact List.mem_append_left _ h'
    · exact List.mem_append_right _ (by simp at h'; simp [h'])
  · rw [List.chain'_cons]
    exact ⟨hnx, link_frame_cons A2 nx h2.2.2
      (fun y hy => hf y (List.mem_append_right _ (List.mem_cons_of_mem _ hy)))⟩

theorem link_insert {m m' : Mem} {A1 A2 : List Int} {lo nw nx : Int}
    (h : List.Chain' (fun a b => m (b + 8) = a) (A1 ++ lo :: nx :: A2))
    (hnw : m' (nw + 8) = lo) (hnx : m' (nx + 8) = nw)
    (hf : ∀ y ∈ A1 ++ lo :: A2, m' (y + 8) = m (y + 8)) :
    List.Chain' (fun a b => m' (b + 8) = a) (A1 ++ lo :: nw :: nx :: A2) := by
  rw [List.chain'_split] at h ⊢
  obtain ⟨h1, h2⟩ := h
  rw [List.chain'_cons] at h2
  refine ⟨link_frame h1 (fun y hy => hf y ?_), ?_⟩
  · rcases List.mem_append.1 hy with h' | h'
    · exact List.mem_append_left _ h'
    · exact List.mem_append_right _ (by simp at h'; simp [h'])
  · rw [List.chain'_cons, List.chain'_cons]
    exact ⟨hnw, hnx, link_frame_cons A2 nx h2.2
      (fun y hy => hf y (List.mem_append_right _ (List.mem_cons_of_mem _ hy)))⟩

theorem chain_swap_last {F : List Blk} {a a' : Blk} (h : List.Chain' Adj (F ++ [a]))
    (e : a'.addr = a.addr) : List.Chain' Adj (F ++ [a']) := by
  rw [List.chain'_append] at h ⊢
  refine ⟨h.1, List.chain'_singleton _, ?_⟩
  intro x hx y hy
  have := h.2.2 x hx a (by simp)
  simp only [List.head?_cons, Option.mem_def, Option.some.injEq] at hy
  subst hy
  unfold Adj at *
  rw [e]; exact this

/-! ### Unconditional facts on the global counters -/

@[simp] theorem HeapDeleteFromFreeList_avail (x : Int) (h : Heap) :
    (HeapDeleteFromFreeList x h)._k_heap_available = h._k_heap_available := by
  by_cases e : x = h._k_heapFreeList <;> simp [HeapDeleteFromFreeList, e]

@[simp] theorem HeapDeleteFromFreeList_min (x : Int) (h : Heap) :
    (HeapDeleteFromFreeList x h)._minimu_heap_avaiable = h._minimu_heap_avaiable := by
  by_cases e : x = h._k_heapFreeList <;> simp [HeapDeleteFromFreeList, e]

@[simp] theorem HeapDeleteFromFreeList_total (x : Int) (h : Heap) :
    (HeapDeleteFromFreeList x h)._kernel_heap_total = h._kernel_heap_total := by
  by_cases e : x = h._k_heapFreeList <;> simp [HeapDeleteFromFreeList, e]

@[simp] theorem HeapDeleteFromFreeList_tail (x : Int) (h : Heap) :
    (HeapDeleteFromFreeList x h)._k_heapTail_ = h._k_heapTail_ := by
  by_cases e : x = h._k_heapFreeList <;> simp [HeapDeleteFromFreeList, e]

@[simp] theorem HeapChainToFreeList_avail (x : Int) (h : Heap) :
    (HeapChainToFreeList x h)._k_heap_available = h._k_heap_available := by
  by_cases e : h._k_heapFreeList = 0 <;> simp [HeapChainToFreeList, e]

@[simp] theorem HeapChainToFreeList_min (x : Int) (h : Heap) :
    (HeapChainToFreeList x h)._minimu_heap_avaiable = h._minimu_heap_avaiable := by
  by_cases e : h._k_heapFreeList = 0 <;> simp [HeapChainToFreeList, e]

@[simp] theorem HeapChainToFreeList_total (x : Int) (h : Heap) :
    (HeapChainToFreeList x h)._kernel_heap_total = h._kernel_heap_total := by
  by_cases e : h._k_heapFreeList = 0 <;> simp [HeapChainToFreeList, e]

@[simp] theorem HeapChainToFreeList_tail (x : Int) (h : Heap) :
    (HeapChainToFreeList x h)._k_heapTail_ = h._k_heapTail_ := by
  by_cases e : h._k_heapFreeList = 0 <;> simp [HeapChainToFreeList, e]

@[simp] theorem HeapChainToFreeList_head (x : Int) (h : Heap) :
    (HeapChainToFreeList x h)._k_heapFreeList = x := by
  by_cases e : h._k_heapFreeList = 0 <;> simp [HeapChainToFreeList, e]

/-! ### General consequences of the representation -/

theorem RepP.fl_al {base R k : Int} {h : Heap} {bs : List Blk} {fl : List Int}
    (r : RepP base R h bs fl k) : ∀ a ∈ fl, (a - base) % 32 = 0 := by
  intro a ha
  obtain ⟨⟨b, hb, _, rfl⟩, _⟩ := (r.fl_mem a).1 ha
  exact (full_al r.geom b (mem_full hb)).1

theorem RepP.fl_ne_zero {base R k : Int} {h : Heap} {bs : List Blk} {fl : List Int}
    (r : RepP base R h bs fl k) : ∀ a ∈ fl, a ≠ 0 :=
  FL_ne_zero r.flist

/-! ### The merge step of `_kfree` -/

theorem full_split2 (base R : Int) (pre post : List Blk) (x y : Blk) :
    full base R (pre ++ x :: y :: post) =
      (⟨base, 32, false⟩ :: pre) ++ x :: y :: (post ++ [⟨base + R - 32, -1, false⟩]) := by
  simp [full]

theorem tail_cons (post : List Blk) (t : Blk) : ∃ z F2, post ++ [t] = z :: F2 := by
  cases post with
  | nil => exact ⟨t, [], rfl⟩
  | cons z post => exact ⟨z, post ++ [t], rfl⟩

theorem absorb_mem {c lo up nx y : Int} {h : Heap} {fl : List Int}
    (hfl : FL h.mem 0 h._k_heapFreeList fl) (hnd : fl.Nodup)
    (hal : ∀ a ∈ fl, (a - c) % 32 = 0) (hy : y ∈ fl)
    (hlo : (lo - c) % 32 = 0) (hnx : (nx - c) % 32 = 0) :
    FL (absorb lo up nx y h).mem 0 (absorb lo up nx y h)._k_heapFreeList (fl.erase y) ∧
      (∀ a, (a - c) % 32 = 0 → (absorb lo up nx y h).mem a = h.mem a) ∧
      (∀ a, (a - c) % 32 = 0 → a ≠ lo → (absorb lo up nx y h).mem (a + 4) = h.mem (a + 4)) ∧
      (absorb lo up nx y h).mem (lo + 4) = i32 (h.mem (lo + 4) + h.mem (up + 4)) ∧
      (∀ a, (a - c) % 32 = 0 → a ≠ nx → (absorb lo up nx y h).mem (a + 8) = h.mem (a + 8)) ∧
      (absorb lo up nx y h).mem (nx + 8) = lo := by
  have hfl1 : FL (store (store h.mem (lo + 4) (i32 (h.mem (lo + 4) + h.mem (up + 4))))
      (nx + 8) lo) 0 h._k_heapFreeList fl :=
    FL_store_hdr (c := c) (by unfold IsHdr; omega) hal
      (FL_store_hdr (c := c) (by unfold IsHdr; omega) hal hfl)
  obtain ⟨D1, D2, _⟩ := HeapDeleteFromFreeList_spec
    (h := { h with mem := store (store h.mem (lo + 4) (i32 (h.mem (lo + 4) + h.mem (up + 4)))) (nx + 8) lo })
    (c := c) (x := y) hfl1 hnd hal hy
  refine ⟨D1, ?_, ?_, ?_, ?_, ?_⟩
  · intro a ha
    unfold absorb
    rw [D2 a (isHdr_of_al ha).1]
    show store (store h.mem _ _) _ _ a = _
    rw [store_ne _ _ (by omega), store_ne _ _ (by omega)]
  · intro a ha hne
    unfold absorb
    rw [D2 _ (isHdr_of_al ha).2.1]
    show store (store h.mem _ _) _ _ (a + 4) = _
    rw [store_ne _ _ (by omega), store_ne _ _ (by omega)]
  · unfold absorb
    rw [D2 _ (isHdr_of_al hlo).2.1]
    show store (store h.mem _ _) _ _ (lo + 4) = _
    rw [store_ne _ _ (by omega), store_same]
  · intro a ha hne
    unfold absorb
    rw [D2 _ (isHdr_of_al ha).2.2]
    show store (store h.mem _ _) _ _ (a + 8) = _
    rw [store_ne _ _ (by omega), store_ne _ _ (by omega)]
  · unfold absorb
    rw [D2 _ (isHdr_of_al hnx).2.2]
    show store (store h.mem _ _) _ _ (nx + 8) = _
    rw [store_same]

@[simp] theorem absorb_tail (lo up nx y : Int) (h : Heap) :
    (absorb lo up nx y h)._k_heapTail_ = h._k_heapTail_ := by
  unfold absorb; rw [HeapDeleteFromFreeList_tail]

@[simp] theorem absorb_avail (lo up nx y : Int) (h : Heap) :
    (absorb lo up nx y h)._k_heap_available = h._k_heap_available := by
  unfold absorb; rw [HeapDeleteFromFreeList_avail]

@[simp] theorem absorb_min (lo up nx y : Int) (h : Heap) :
    (absorb lo up nx y h)._minimu_heap_avaiable = h._minimu_heap_avaiable := by
  unfold absorb; rw [HeapDeleteFromFreeList_min]

@[simp] theorem absorb_total (lo up nx y : Int) (h : Heap) :
    (absorb lo up nx y h)._kernel_heap_total = h._kernel_heap_total := by
  unfold absorb; rw [HeapDeleteFromFreeList_total]

theorem absorb_spec {base R k y : Int} {h : Heap} {pre post : List Blk} {lo up : Blk}
    {fl : List Int}
    (r : RepP base R h (pre ++ lo :: up :: post) fl k)
    (hlo : lo.free = true) (hup : up.free = true)
    (hk : (k = lo.addr ∧ y = up.addr) ∨ (k = up.addr ∧ y = lo.addr)) :
    RepP base R (absorb lo.addr up.addr (up.addr + up.size) y h)
      (pre ++ ⟨lo.addr, lo.size + up.size, true⟩ :: post) (fl.erase y) lo.addr := by
  obtain ⟨lo1, _, lo3, lo4, lo5, lo6, _⟩ := geom_node r.geom
  obtain ⟨_, up2, up3, up4, up5, _, up7⟩ :=
    @geom_node base R (pre ++ [lo]) post up (by simpa using r.geom)
  have hgeom := r.geom
  rw [full_split2] at hgeom
  have hadj1 : up.addr = lo.addr + lo.size :=
    (List.chain'_cons.1 (List.chain'_split.1 hgeom).2).1.1
  have hR := r.R_le
  have htop := r.top
  have hbase := r.base_pos
  -- the headers of the two nodes
  have hdlo := (r.hdr lo (mem_full (by simp))).2
  have hdup := (r.hdr up (mem_full (by simp))).2
  -- the deleted node is on the free list
  have hy : y ∈ fl := by
    rw [r.fl_mem]
    rcases hk with ⟨h1, h2⟩ | ⟨h1, h2⟩
    · exact ⟨⟨up, by simp, hup, h2.symm⟩, by omega⟩
    · exact ⟨⟨lo, by simp, hlo, h2.symm⟩, by omega⟩
  have hsz : i32 (h.mem (lo.addr + 4) + h.mem (up.addr + 4)) = lo.size + up.size := by
    rw [hdlo, hdup]; exact i32_of_range (by omega) (by omega)
  obtain ⟨D1, hM0, hM4, hM4', hM8, hM8'⟩ :=
    @absorb_mem base lo.addr up.addr (up.addr + up.size) y h fl
      r.flist r.fl_nodup r.fl_al hy lo5 (by omega)
  rw [hsz] at hM4'
  have htl : (absorb lo.addr up.addr (up.addr + up.size) y h)._k_heapTail_ = base + R - 32 := by
    rw [absorb_tail]; exact r.tail
  have rhdr := r.hdr
  have rlink := r.link
  have rflm := r.fl_mem
  have rnd := r.fl_nodup
  clear hsz hdlo hdup r
  generalize absorb lo.addr up.addr (up.addr + up.size) y h = h' at *
  -- the node after `up`
  obtain ⟨z, F2, hz⟩ := tail_cons post ⟨base + R - 32, -1, false⟩
  rw [hz] at hgeom
  have hzaddr : z.addr = up.addr + up.size :=
    (List.chain'_cons.1 (List.chain'_cons.1 (List.chain'_split.1 hgeom).2).2).1.1
  have hF2 : ∀ b ∈ F2, up.addr + up.size + 32 ≤ b.addr ∧ (b.addr - base) % 32 = 0 := by
    intro b hb
    have h2 := (List.chain'_cons.1 (List.chain'_split.1 hgeom).2).2
    have h3 := chain_after (List.chain'_cons.1 h2).2 b hb
    omega
  refine
    { base_pos := hbase, top := htop, R_le := hR, tail := htl, geom := ?_, hdr := ?_,
      link := ?_, flist := D1, fl_mem := ?_, fl_nodup := rnd.erase _ }
  · rw [full_split, hz]
    rw [List.chain'_split] at hgeom ⊢
    refine ⟨chain_swap_last hgeom.1 rfl, ?_⟩
    rw [List.chain'_cons, List.chain'_cons] at hgeom
    rw [List.chain'_cons]
    refine ⟨⟨?_, ?_, ?_⟩, hgeom.2.2.2⟩
    · show z.addr = lo.addr + (lo.size + up.size); omega
    · show 32 ≤ lo.size + up.size; omega
    · show (lo.size + up.size) % 32 = 0; omega
  · intro b hb
    rw [full_split] at hb
    simp only [List.mem_append, List.mem_cons, List.not_mem_nil, or_false] at hb
    have old : ∀ b', b' ∈ full base R (pre ++ lo :: up :: post) → b'.addr ≠ lo.addr →
        b'.addr ≠ up.addr →
        ((b'.addr ≠ lo.addr → h'.mem b'.addr = markOf b'.free) ∧
        h'.mem (b'.addr + 4) = b'.size) := by
      intro b' hb' h1 h2
      have hal : (b'.addr - base) % 32 = 0 := by
        rw [full_split2, hz] at hb'
        simp only [List.mem_append, List.mem_cons] at hb'
        rcases hb' with (rfl | hb') | rfl | rfl | rfl | hb'
        · simp
        · exact (lo6 _ hb').2.2.2
        · exact lo5
        · exact up5
        · omega
        · exact (hF2 _ hb').2
      have := rhdr b' hb'
      rw [hM0 _ hal, hM4 _ hal h1]
      refine ⟨fun _ => this.1 ?_, this.2⟩
      rcases hk with ⟨e, _⟩ | ⟨e, _⟩ <;> omega
    rcases hb with (rfl | hb) | rfl | hb | rfl
    · exact old _ (by simp [full]) (by show base ≠ _; omega) (by show base ≠ _; omega)
    · have := lo6 b hb
      exact old b (mem_full (by simp [hb])) (by omega) (by omega)
    · exact ⟨fun hne => absurd rfl hne, hM4'⟩
    · have := up7 b hb
      exact old b (mem_full (by simp [hb])) (by omega) (by omega)
    · exact old _ (by simp [full]) (by show base + R - 32 ≠ _; omega)
        (by show base + R - 32 ≠ _; omega)
  · have hl := rlink
    rw [full_split2, hz] at hl
    rw [full_split, hz]
    simp only [List.map_append, List.map_cons] at hl ⊢
    refine link_remove hl (by rw [hzaddr]; exact hM8') ?_
    intro a ha
    simp only [List.mem_append, List.mem_cons, List.mem_map] at ha
    rcases ha with (rfl | ⟨b, hb, rfl⟩) | rfl | ⟨b, hb, rfl⟩
    · exact hM8 _ (by omega) (by omega)
    · have := lo6 b hb
      exact hM8 _ (by omega) (by omega)
    · exact hM8 _ lo5 (by omega)
    · have := hF2 b hb
      exact hM8 _ (by omega) (by omega)
  · intro a
    rw [List.Nodup.mem_erase_iff rnd, rflm]
    constructor
    · rintro ⟨hay, ⟨b, hb, hbf, hba⟩, hak⟩
      simp only [List.mem_append, List.mem_cons] at hb
      rcases hb with hb | rfl | rfl | hb
      · have := lo6 b hb
        exact ⟨⟨b, by simp [hb], hbf, hba⟩, by omega⟩
      · exfalso; rcases hk with ⟨e1, e2⟩ | ⟨e1, e2⟩ <;> omega
      · exfalso; rcases hk with ⟨e1, e2⟩ | ⟨e1, e2⟩ <;> omega
      · have := up7 b hb
        exact ⟨⟨b, by simp [hb], hbf, hba⟩, by omega⟩
    · rintro ⟨⟨b, hb, hbf, hba⟩, hal⟩
      simp only [List.mem_append, List.mem_cons] at hb
      rcases hb with hb | rfl | hb
      · have := lo6 b hb
        refine ⟨?_, ⟨b, by simp [hb], hbf, hba⟩, ?_⟩ <;>
          (rcases hk with ⟨e1, e2⟩ | ⟨e1, e2⟩ <;> omega)
      · exact absurd hba.symm hal
      · have := up7 b hb
        refine ⟨?_, ⟨b, by simp [hb], hbf, hba⟩, ?_⟩ <;>
          (rcases hk with ⟨e1, e2⟩ | ⟨e1, e2⟩ <;> omega)

/-! ### Start and end of a release, and handing out a node -/

theorem chain_swap_head {F : List Blk} {a a' : Blk} (h : List.Chain' Adj (a :: F))
    (e : a'.addr = a.addr) (e' : a'.size = a.size) : List.Chain' Adj (a' :: F) := by
  cases F with
  | nil => exact List.chain'_singleton _
  | cons z F =>
    rw [List.chain'_cons] at h ⊢
    refine ⟨?_, h.2⟩
    unfold Adj at *
    rw [e, e']; exact h.1

theorem chain_replace {F1 F2 : List Blk} {a a' : Blk} (h : List.Chain' Adj (F1 ++ a :: F2))
    (e : a'.addr = a.addr) (e' : a'.size = a.size) : List.Chain' Adj (F1 ++ a' :: F2) := by
  rw [List.chain'_split] at h ⊢
  exact ⟨chain_swap_last h.1 e, chain_swap_head h.2 e e'⟩

/-- Where a node of the chain sits with respect to the node `x`. -/
theorem full_cases {base R : Int} {pre post : List Blk} {x b : Blk}
    (h : List.Chain' Adj (full base R (pre ++ x :: post)))
    (hb : b ∈ full base R (pre ++ x :: post)) :
    b = x ∨ (b.addr + 32 ≤ x.addr ∧ (b.addr - base) % 32 = 0 ∧
        (b = ⟨base, 32, false⟩ ∨ b ∈ pre)) ∨
      (x.addr + x.size ≤ b.addr ∧ (b.addr - base) % 32 = 0 ∧
        (b ∈ post ∨ b = ⟨base + R - 32, -1, false⟩)) := by
  obtain ⟨x1, x2, x3, x4, x5, x6, x7⟩ := geom_node h
  have hal := (full_al h b hb).1
  rw [full_split] at hb
  simp only [List.mem_append, List.mem_cons, List.not_mem_nil, or_false] at hb
  rcases hb with (rfl | hb) | rfl | hb | rfl
  · right; left; exact ⟨by show base + 32 ≤ _; omega, hal, Or.inl rfl⟩
  · right; left
    have := x6 b hb
    exact ⟨by omega, hal, Or.inr hb⟩
  · left; rfl
  · right; right
    have := x7 b hb
    exact ⟨by omega, hal, Or.inl hb⟩
  · right; right
    exact ⟨by show _ ≤ base + R - 32; omega, hal, Or.inr rfl⟩

theorem mem_full_of_cases {base R : Int} {pre post : List Blk} {x b : Blk}
    (hb : (b = ⟨base, 32, false⟩ ∨ b ∈ pre) ∨ (b ∈ post ∨ b = ⟨base + R - 32, -1, false⟩)) :
    b ∈ full base R (pre ++ x :: post) := by
  rw [full_split]
  simp only [List.mem_append, List.mem_cons, List.not_mem_nil, or_false]
  tauto

theorem full_map_addr_replace (base R : Int) (pre post : List Blk) (x x' : Blk)
    (e : x'.addr = x.addr) :
    (full base R (pre ++ x' :: post)).map (·.addr) =
      (full base R (pre ++ x :: post)).map (·.addr) := by
  simp [full, e]

/-- Start of a release: the allocated node `x` becomes the node under release. -/
theorem RepP.begin_free {base R : Int} {h h' : Heap} {pre post : List Blk} {x : Blk}
    {fl : List Int}
    (r : RepP base R h (pre ++ x :: post) fl 0) (hx : x.free = false)
    (hm : h'.mem = h.mem) (hf : h'._k_heapFreeList = h._k_heapFreeList)
    (ht : h'._k_heapTail_ = h._k_heapTail_) :
    RepP base R h' (pre ++ ⟨x.addr, x.size, true⟩ :: post) fl x.addr := by
  obtain ⟨x1, x2, x3, x4, x5, x6, x7⟩ := geom_node r.geom
  have hbase := r.base_pos
  have hg : List.Chain' Adj (full base R (pre ++ ⟨x.addr, x.size, true⟩ :: post)) := by
    have := r.geom
    rw [full_split] at this ⊢
    exact chain_replace this rfl rfl
  refine
    { base_pos := r.base_pos, top := r.top, R_le := r.R_le, tail := by rw [ht]; exact r.tail,
      geom := hg, hdr := ?_, link := ?_, flist := by rw [hm, hf]; exact r.flist,
      fl_mem := ?_, fl_nodup := r.fl_nodup }
  · intro b hb
    rw [hm]
    have hge := (full_al hg b hb).2
    rcases full_cases hg hb with rfl | ⟨h1, h2, h3⟩ | ⟨h1, h2, h3⟩
    · exact ⟨fun hne => absurd rfl hne, (r.hdr x (mem_full (by simp))).2⟩
    · have := r.hdr b (mem_full_of_cases (Or.inl h3))
      exact ⟨fun _ => this.1 (by omega), this.2⟩
    · have := r.hdr b (mem_full_of_cases (Or.inr h3))
      exact ⟨fun _ => this.1 (by omega), this.2⟩
  · rw [hm, full_map_addr_replace base R pre post x ⟨x.addr, x.size, true⟩ rfl]; exact r.link
  · intro a
    rw [r.fl_mem]
    constructor
    · rintro ⟨⟨b, hb, hbf, hba⟩, _⟩
      simp only [List.mem_append, List.mem_cons] at hb
      rcases hb with hb | rfl | hb
      · have := x6 b hb
        exact ⟨⟨b, by simp [hb], hbf, hba⟩, by omega⟩
      · rw [hx] at hbf; exact absurd hbf (by decide)
      · have := x7 b hb
        exact ⟨⟨b, by simp [hb], hbf, hba⟩, by omega⟩
    · rintro ⟨⟨b, hb, hbf, hba⟩, hne⟩
      simp only [List.mem_append, List.mem_cons] at hb
      rcases hb with hb | rfl | hb
      · have := x6 b hb
        exact ⟨⟨b, by simp [hb], hbf, hba⟩, by omega⟩
      · exact absurd hba.symm hne
      · have := x7 b hb
        exact ⟨⟨b, by simp [hb], hbf, hba⟩, by omega⟩

/-- End of a release: the node under release is marked free and pushed on the free list. -/
theorem RepP.finish_free {base R : Int} {h : Heap} {pre post : List Blk} {x : Blk}
    {fl : List Int}
    (r : RepP base R h (pre ++ x :: post) fl x.addr) (hx : x.free = true) :
    RepP base R (HeapChainToFreeList x.addr { h with mem := store h.mem x.addr HEAP_NODE_FREE })
      (pre ++ x :: post) (x.addr :: fl) 0 := by
  obtain ⟨x1, x2, x3, x4, x5, x6, x7⟩ := geom_node r.geom
  have hbase := r.base_pos
  have hxfl : x.addr ∉ fl := by
    intro hm; exact ((r.fl_mem _).1 hm).2 rfl
  have hfl1 : FL (store h.mem x.addr HEAP_NODE_FREE) 0 h._k_heapFreeList fl :=
    FL_store_hdr (c := base) (by unfold IsHdr; omega) r.fl_al r.flist
  obtain ⟨C1, C2, C3, _⟩ := HeapChainToFreeList_spec
    (h := { h with mem := store h.mem x.addr HEAP_NODE_FREE }) (c := base) (x := x.addr)
    hfl1 r.fl_nodup r.fl_al hxfl (by omega) x5
  have rgeom := r.geom
  have rhdr := r.hdr
  have rlink := r.link
  have rflm := r.fl_mem
  have rnd := r.fl_nodup
  have rtail := r.tail
  have rtop := r.top
  have rR := r.R_le
  clear r hfl1
  generalize HeapChainToFreeList x.addr { h with mem := store h.mem x.addr HEAP_NODE_FREE }
    = h' at *
  refine
    { base_pos := hbase, top := rtop, R_le := rR, tail := by rw [C3]; exact rtail,
      geom := rgeom, hdr := ?_, link := ?_, flist := C1,
      fl_mem := ?_, fl_nodup := List.nodup_cons.2 ⟨hxfl, rnd⟩ }
  · intro b hb
    have hal := (full_al rgeom b hb).1
    rw [C2 _ (isHdr_of_al hal).1, C2 _ (isHdr_of_al hal).2.1]
    show (_ → store h.mem _ _ _ = _) ∧ store h.mem _ _ _ = _
    refine ⟨fun _ => ?_, ?_⟩
    · rcases full_cases rgeom hb with rfl | ⟨h1, h2, h3⟩ | ⟨h1, h2, h3⟩
      · rw [store_same, hx]; rfl
      · rw [store_ne _ _ (by omega)]; exact (rhdr b hb).1 (by omega)
      · rw [store_ne _ _ (by omega)]; exact (rhdr b hb).1 (by omega)
    · rw [store_ne _ _ (by omega)]; exact (rhdr b hb).2
  · refine link_frame rlink ?_
    intro a ha
    obtain ⟨b, hb, rfl⟩ := List.mem_map.1 ha
    have hal := (full_al rgeom b hb).1
    rw [C2 _ (isHdr_of_al hal).2.2]
    show store h.mem _ _ _ = _
    rw [store_ne _ _ (by omega)]
  · intro a
    rw [List.mem_cons, rflm]
    constructor
    · rintro (rfl | ⟨hb, _⟩)
      · exact ⟨⟨x, by simp, hx, rfl⟩, by omega⟩
      · obtain ⟨b, hb1, hb2, rfl⟩ := hb
        have := (full_al rgeom b (mem_full hb1)).2
        exact ⟨⟨b, hb1, hb2, rfl⟩, by omega⟩
    · rintro ⟨hb, _⟩
      by_cases e : a = x.addr
      · exact Or.inl e
      · exact Or.inr ⟨hb, e⟩

/-- Handing out: the free node `x` is marked allocated and taken off the free list. -/
theorem RepP.alloc {base R : Int} {h : Heap} {pre post : List Blk} {x : Blk} {fl : List Int}
    (r : RepP base R h (pre ++ x :: post) fl 0) (hx : x.free = true) :
    RepP base R
      (HeapDeleteFromFreeList x.addr { h with mem := store h.mem x.addr HEAP_NODE_ALLOCED })
      (pre ++ ⟨x.addr, x.size, false⟩ :: post) (fl.erase x.addr) 0 := by
  obtain ⟨x1, x2, x3, x4, x5, x6, x7⟩ := geom_node r.geom
  have hbase := r.base_pos
  have hxfl : x.addr ∈ fl := (r.fl_mem _).2 ⟨⟨x, by simp, hx, rfl⟩, by omega⟩
  have hfl1 : FL (store h.mem x.addr HEAP_NODE_ALLOCED) 0 h._k_heapFreeList fl :=
    FL_store_hdr (c := base) (by unfold IsHdr; omega) r.fl_al r.flist
  obtain ⟨D1, D2, D3, _⟩ := HeapDeleteFromFreeList_spec
    (h := { h with mem := store h.mem x.addr HEAP_NODE_ALLOCED }) (c := base) (x := x.addr)
    hfl1 r.fl_nodup r.fl_al hxfl
  have hg : List.Chain' Adj (full base R (pre ++ ⟨x.addr, x.size, false⟩ :: post)) := by
    have := r.geom
    rw [full_split] at this ⊢
    exact chain_replace this rfl rfl
  have rgeom := r.geom
  have rhdr := r.hdr
  have rlink := r.link
  have rflm := r.fl_mem
  have rnd := r.fl_nodup
  have rtail := r.tail
  have rtop := r.top
  have rR := r.R_le
  clear r hfl1
  generalize HeapDeleteFromFreeList x.addr { h with mem := store h.mem x.addr HEAP_NODE_ALLOCED }
    = h' at *
  refine
    { base_pos := hbase, top := rtop, R_le := rR, tail := by rw [D3]; exact rtail,
      geom := hg, hdr := ?_, link := ?_, flist := D1,
      fl_mem := ?_, fl_nodup := rnd.erase _ }
  · intro b hb
    have hal := (full_al hg b hb).1
    rw [D2 _ (isHdr_of_al hal).1, D2 _ (isHdr_of_al hal).2.1]
    show (_ → store h.mem _ _ _ = _) ∧ store h.mem _ _ _ = _
    rcases full_cases hg hb with rfl | ⟨h1, h2, h3⟩ | ⟨h1, h2, h3⟩
    · refine ⟨fun _ => by rw [store_same]; rfl, ?_⟩
      rw [store_ne _ _ (by show x.addr + 4 ≠ x.addr; omega)]
      exact (rhdr x (mem_full (by simp))).2
    · have := rhdr b (mem_full_of_cases (Or.inl h3))
      have h1' : b.addr + 32 ≤ x.addr := h1
      refine ⟨fun hne => ?_, ?_⟩
      · rw [store_ne _ _ (by omega)]; exact this.1 hne
      · rw [store_ne _ _ (by omega)]; exact this.2
    · have := rhdr b (mem_full_of_cases (Or.inr h3))
      have h1' : x.addr + x.size ≤ b.addr := h1
      refine ⟨fun hne => ?_, ?_⟩
      · rw [store_ne _ _ (by omega)]; exact this.1 hne
      · rw [store_ne _ _ (by omega)]; exact this.2
  · rw [full_map_addr_replace base R pre post x ⟨x.addr, x.size, false⟩ rfl]
    refine link_frame rlink ?_
    intro a ha
    obtain ⟨b, hb, rfl⟩ := List.mem_map.1 ha
    have hal : (b.addr - base) % 32 = 0 := (full_al rgeom b hb).1
    rw [D2 _ (isHdr_of_al hal).2.2]
    show store h.mem _ _ _ = _
    rw [store_ne _ _ (by omega)]
  · intro a
    rw [List.Nodup.mem_erase_iff rnd, rflm]
    constructor
    · rintro ⟨hne, ⟨b, hb, hbf, hba⟩, h0⟩
      simp only [List.mem_append, List.mem_cons] at hb
      rcases hb with hb | rfl | hb
      · exact ⟨⟨b, by simp [hb], hbf, hba⟩, h0⟩
      · exact absurd hba.symm hne
      · exact ⟨⟨b, by simp [hb], hbf, hba⟩, h0⟩
    · rintro ⟨⟨b, hb, hbf, hba⟩, h0⟩
      simp only [List.mem_append, List.mem_cons] at hb
      rcases hb with hb | rfl | hb
      · have := x6 b hb
        exact ⟨by omega, ⟨b, by simp [hb], hbf, hba⟩, h0⟩
      · exact absurd hbf (by simp)
      · have := x7 b hb
        exact ⟨by omega, ⟨b, by simp [hb], hbf, hba⟩, h0⟩

/-! ### Splitting a node -/

theorem full_split_two (base R : Int) (pre post : List Blk) (x y : Blk) :
    full base R (pre ++ x :: y :: post) =
      (⟨base, 32, false⟩ :: pre ++ [x]) ++ y :: (post ++ [⟨base + R - 32, -1, false⟩]) := by
  simp [full]

/-- Layout of the chain after the node `x` is cut at `sz` bytes. -/
theorem geom_split {base R sz : Int} {pre post : List Blk} {x : Blk} (f1 f2 : Bool)
    (h : List.Chain' Adj (full base R (pre ++ x :: post)))
    (hsz1 : 32 ≤ sz) (hsz2 : sz % 32 = 0) (hsz3 : sz + 32 ≤ x.size) :
    List.Chain' Adj (full base R
      (pre ++ ⟨x.addr, sz, f1⟩ :: ⟨x.addr + sz, x.size - sz, f2⟩ :: post)) := by
  obtain ⟨x1, x2, x3, x4, x5, x6, x7⟩ := geom_node h
  rw [full_split] at h
  rw [full_split2]
  obtain ⟨z, F2, hz⟩ := tail_cons post ⟨base + R - 32, -1, false⟩
  rw [hz] at h ⊢
  rw [List.chain'_split] at h ⊢
  refine ⟨chain_swap_last h.1 rfl, ?_⟩
  rw [List.chain'_cons] at h
  rw [List.chain'_cons, List.chain'_cons]
  obtain ⟨⟨a1, a2, a3⟩, h2⟩ := h.2
  refine ⟨⟨rfl, hsz1, hsz2⟩, ⟨?_, ?_, ?_⟩, h2⟩
  · show z.addr = x.addr + sz + (x.size - sz); omega
  · show 32 ≤ x.size - sz; omega
  · show (x.size - sz) % 32 = 0; omega

/-- A heap that agrees with `h` on the headers, but for the words a split writes, lays out
the chain with the node `x` cut at `sz` bytes. -/
theorem RepP.split_of_mem {base R sz : Int} {h h' : Heap} {pre post : List Blk} {x : Blk}
    {fl fl' : List Int} (f2 : Bool)
    (r : RepP base R h (pre ++ x :: post) fl 0)
    (hsz1 : 32 ≤ sz) (hsz2 : sz % 32 = 0) (hsz3 : sz + 32 ≤ x.size)
    (hM0 : ∀ a, (a - base) % 32 = 0 → a ≠ x.addr + sz → h'.mem a = h.mem a)
    (hM0' : h'.mem (x.addr + sz) = markOf f2)
    (hM4 : ∀ a, (a - base) % 32 = 0 → a ≠ x.addr → a ≠ x.addr + sz →
      h'.mem (a + 4) = h.mem (a + 4))
    (hM4a : h'.mem (x.addr + 4) = sz)
    (hM4b : h'.mem (x.addr + sz + 4) = x.size - sz)
    (hM8 : ∀ a, (a - base) % 32 = 0 → a ≠ x.addr + sz → a ≠ x.addr + x.size →
      h'.mem (a + 8) = h.mem (a + 8))
    (hM8a : h'.mem (x.addr + sz + 8) = x.addr)
    (hM8b : h'.mem (x.addr + x.size + 8) = x.addr + sz)
    (hfl : FL h'.mem 0 h'._k_heapFreeList fl')
    (hflm : ∀ a, a ∈ fl' ↔ (a ∈ fl ∨ (f2 = true ∧ a = x.addr + sz)))
    (hnd : fl'.Nodup)
    (ht : h'._k_heapTail_ = h._k_heapTail_) :
    RepP base R h' (pre ++ ⟨x.addr, sz, x.free⟩ :: ⟨x.addr + sz, x.size - sz, f2⟩ :: post)
      fl' 0 := by
  obtain ⟨x1, x2, x3, x4, x5, x6, x7⟩ := geom_node r.geom
  have hbase := r.base_pos
  have hg := geom_split x.free f2 r.geom hsz1 hsz2 hsz3
  have hdx := r.hdr x (mem_full (by simp))
  refine
    { base_pos := r.base_pos, top := r.top, R_le := r.R_le, tail := by rw [ht]; exact r.tail,
      geom := hg, hdr := ?_, link := ?_, flist := hfl, fl_mem := ?_, fl_nodup := hnd }
  · intro b hb
    rw [full_split2] at hb
    simp only [List.mem_append, List.mem_cons, List.not_mem_nil, or_false] at hb
    rcases hb with (rfl | hb) | rfl | rfl | hb | rfl
    · have := r.hdr _ (mem_full_of_cases (x := x) (Or.inl (Or.inl rfl)))
      simp only at this ⊢
      rw [hM0 _ (by omega) (by omega), hM4 _ (by omega) (by omega) (by omega)]
      exact this
    · have := r.hdr b (mem_full (by simp [hb]))
      have := x6 b hb
      rw [hM0 _ (by omega) (by omega), hM4 _ (by omega) (by omega) (by omega)]
      assumption
    · simp only
      rw [hM0 _ x5 (by omega)]
      exact ⟨hdx.1, hM4a⟩
    · simp only
      exact ⟨fun _ => hM0', hM4b⟩
    · have := r.hdr b (mem_full (by simp [hb]))
      have := x7 b hb
      rw [hM0 _ (by omega) (by omega), hM4 _ (by omega) (by omega) (by omega)]
      assumption
    · have := r.hdr _ (mem_full_of_cases (x := x) (Or.inr (Or.inr rfl)))
      have hal := (full_al r.geom _ (mem_full_of_cases (x := x) (Or.inr (Or.inr rfl)))).1
      simp only at this hal ⊢
      rw [hM0 _ hal (by omega), hM4 _ hal (by omega) (by omega)]
      exact this
  · have hl := r.link
    have rgeom := r.geom
    rw [full_split] at hl rgeom
    rw [full_split2]
    obtain ⟨z, F2, hz⟩ := tail_cons post ⟨base + R - 32, -1, false⟩
    rw [hz] at hl rgeom ⊢
    have hzaddr : z.addr = x.addr + x.size :=
      (List.chain'_cons.1 (List.chain'_split.1 rgeom).2).1.1
    have hF2 : ∀ b ∈ F2, x.addr + x.size + 32 ≤ b.addr ∧ (b.addr - base) % 32 = 0 := by
      intro b hb
      have h3 := chain_after (List.chain'_cons.1 (List.chain'_split.1 rgeom).2).2 b hb
      omega
    simp only [List.map_append, List.map_cons] at hl ⊢
    refine link_insert hl hM8a (by rw [hzaddr]; exact hM8b) ?_
    intro a ha
    simp only [List.mem_append, List.mem_cons, List.mem_map] at ha
    rcases ha with (rfl | ⟨b, hb, rfl⟩) | rfl | ⟨b, hb, rfl⟩
    · exact hM8 _ (by omega) (by omega) (by omega)
    · have := x6 b hb
      exact hM8 _ (by omega) (by omega) (by omega)
    · exact hM8 _ x5 (by omega) (by omega)
    · have := hF2 b hb
      exact hM8 _ (by omega) (by omega) (by omega)
  · intro a
    rw [hflm, r.fl_mem]
    constructor
    · rintro (⟨⟨b, hb, hbf, hba⟩, h0⟩ | ⟨hf, rfl⟩)
      · simp only [List.mem_append, List.mem_cons] at hb
        rcases hb with hb | rfl | hb
        · exact ⟨⟨b, by simp [hb], hbf, hba⟩, h0⟩
        · exact ⟨⟨⟨b.addr, sz, b.free⟩, by simp, hbf, hba⟩, h0⟩
        · exact ⟨⟨b, by simp [hb], hbf, hba⟩, h0⟩
      · exact ⟨⟨⟨x.addr + sz, x.size - sz, f2⟩, by simp, hf, rfl⟩, by omega⟩
    · rintro ⟨⟨b, hb, hbf, hba⟩, h0⟩
      simp only [List.mem_append, List.mem_cons] at hb
      rcases hb with hb | rfl | rfl | hb
      · exact Or.inl ⟨⟨b, by simp [hb], hbf, hba⟩, h0⟩
      · exact Or.inl ⟨⟨x, by simp, hbf, hba⟩, h0⟩
      · exact Or.inr ⟨hbf, hba.symm⟩
      · exact Or.inl ⟨⟨b, by simp [hb], hbf, hba⟩, h0⟩

theorem not_mem_fl_of_inner {base R k : Int} {h : Heap} {pre post : List Blk} {x : Blk}
    {fl : List Int} (r : RepP base R h (pre ++ x :: post) fl k) {a : Int}
    (h1 : x.addr < a) (h2 : a < x.addr + x.size) : a ∉ fl := by
  intro ha
  obtain ⟨⟨b, hb, _, hba⟩, _⟩ := (r.fl_mem a).1 ha
  obtain ⟨x1, x2, x3, x4, x5, x6, x7⟩ := geom_node r.geom
  simp only [List.mem_append, List.mem_cons] at hb
  rcases hb with hb | rfl | hb
  · have := x6 b hb; omega
  · omega
  · have := x7 b hb; omega

theorem splitNode_spec {base R sz : Int} {h : Heap} {pre post : List Blk} {x : Blk}
    {fl : List Int} (r : RepP base R h (pre ++ x :: post) fl 0)
    (hsz1 : 32 ≤ sz) (hsz2 : sz % 32 = 0) (hsz3 : sz + 32 ≤ x.size) :
    RepP base R (splitNode x.addr sz h)
      (pre ++ ⟨x.addr, sz, x.free⟩ :: ⟨x.addr + sz, x.size - sz, true⟩ :: post)
      ((x.addr + sz) :: fl) 0 ∧
    (splitNode x.addr sz h)._k_heap_available = h._k_heap_available ∧
    (splitNode x.addr sz h)._minimu_heap_avaiable = h._minimu_heap_avaiable ∧
    (splitNode x.addr sz h)._kernel_heap_total = h._kernel_heap_total := by
  obtain ⟨x1, x2, x3, x4, x5, x6, x7⟩ := geom_node r.geom
  have hbase := r.base_pos
  have htop := r.top
  have hR := r.R_le
  have hdx := (r.hdr x (mem_full (by simp))).2
  have e1 : u32 (x.addr + sz) = x.addr + sz := u32_of_range (by omega) (by omega)
  have e2 : i32 (h.mem (x.addr + 4) - sz) = x.size - sz := by
    rw [hdx]; exact i32_of_range (by omega) (by omega)
  have hnew : x.addr + sz ∉ fl := not_mem_fl_of_inner r (by omega) (by omega)
  have hfl4 : FL (store (store (store (store h.mem (x.addr + sz + 4) (x.size - sz))
      (x.addr + sz) HEAP_NODE_FREE) (x.addr + sz + 8) x.addr) (x.addr + 4) sz) 0
      h._k_heapFreeList fl := by
    refine FL_store_hdr (c := base) ?_ r.fl_al (FL_store_hdr (c := base) ?_ r.fl_al
      (FL_store_hdr (c := base) ?_ r.fl_al (FL_store_hdr (c := base) ?_ r.fl_al r.flist)))
    all_goals (unfold IsHdr; omega)
  obtain ⟨C1, C2, C3, C4, C5, C6⟩ := HeapChainToFreeList_spec
    (h := { h with mem := store (store (store (store h.mem (x.addr + sz + 4) (x.size - sz)) (x.addr + sz) HEAP_NODE_FREE) (x.addr + sz + 8) x.addr) (x.addr + 4) sz })
    (c := base) (x := x.addr + sz) hfl4 r.fl_nodup r.fl_al hnew (by omega) (by omega)
  have e3 : (HeapChainToFreeList (x.addr + sz) { h with mem := store (store (store (store h.mem (x.addr + sz + 4) (x.size - sz)) (x.addr + sz) HEAP_NODE_FREE) (x.addr + sz + 8) x.addr) (x.addr + 4) sz }).mem (x.addr + sz + 4) = x.size - sz := by
    rw [C2 _ (by unfold IsHdr; omega)]
    show store (store (store (store h.mem _ _) _ _) _ _) _ _ _ = _
    rw [store_ne _ _ (by omega), store_ne _ _ (by omega), store_ne _ _ (by omega), store_same]
  have e4 : u32 (x.addr + sz + (x.size - sz)) = x.addr + x.size := by
    rw [u32_of_range (by omega) (by omega)]; omega
  have heq : splitNode x.addr sz h =
      { (HeapChainToFreeList (x.addr + sz) { h with mem := store (store (store (store h.mem (x.addr + sz + 4) (x.size - sz)) (x.addr + sz) HEAP_NODE_FREE) (x.addr + sz + 8) x.addr) (x.addr + 4) sz }) with
        mem := store (HeapChainToFreeList (x.addr + sz) { h with mem := store (store (store (store h.mem (x.addr + sz + 4) (x.size - sz)) (x.addr + sz) HEAP_NODE_FREE) (x.addr + sz + 8) x.addr) (x.addr + 4) sz }).mem (x.addr + x.size + 8) (x.addr + sz) } := by
    unfold splitNode
    simp only [e1, e2, e3, e4]
  rw [heq]
  have C2' : ∀ y, IsHdr base y → (HeapChainToFreeList (x.addr + sz) { h with mem := store (store (store (store h.mem (x.addr + sz + 4) (x.size - sz)) (x.addr + sz) HEAP_NODE_FREE) (x.addr + sz + 8) x.addr) (x.addr + 4) sz }).mem y
      = store (store (store (store h.mem (x.addr + sz + 4) (x.size - sz)) (x.addr + sz) HEAP_NODE_FREE) (x.addr + sz + 8) x.addr) (x.addr + 4) sz y := C2
  have rfal := r.fl_al
  have rnd := r.fl_nodup
  clear e3 heq hfl4 C2
  generalize HeapChainToFreeList (x.addr + sz) { h with mem := store (store (store (store h.mem (x.addr + sz + 4) (x.size - sz)) (x.addr + sz) HEAP_NODE_FREE) (x.addr + sz + 8) x.addr) (x.addr + 4) sz } = P at *
  refine ⟨RepP.split_of_mem true r hsz1 hsz2 hsz3 ?_ ?_ ?_ ?_ ?_ ?_ ?_ ?_ ?_ ?_ ?_ C3, C4, C5, C6⟩
  · intro a ha hne
    show store P.mem _ _ a = _
    rw [store_ne _ _ (by omega), C2' _ (isHdr_of_al ha).1]
    rw [store_ne _ _ (by omega), store_ne _ _ (by omega), store_ne _ _ (by omega),
      store_ne _ _ (by omega)]
  · show store P.mem _ _ _ = _
    rw [store_ne _ _ (by omega), C2' _ (by unfold IsHdr; omega)]
    rw [store_ne _ _ (by omega), store_ne _ _ (by omega), store_same]; rfl
  · intro a ha hne1 hne2
    show store P.mem _ _ _ = _
    rw [store_ne _ _ (by omega), C2' _ (isHdr_of_al ha).2.1]
    rw [store_ne _ _ (by omega), store_ne _ _ (by omega), store_ne _ _ (by omega),
      store_ne _ _ (by omega)]
  · show store P.mem _ _ _ = _
    rw [store_ne _ _ (by omega), C2' _ (by unfold IsHdr; omega), store_same]
  · show store P.mem _ _ _ = _
    rw [store_ne _ _ (by omega), C2' _ (by unfold IsHdr; omega)]
    rw [store_ne _ _ (by omega), store_ne _ _ (by omega), store_ne _ _ (by omega), store_same]
  · intro a ha hne1 hne2
    show store P.mem _ _ _ = _
    rw [store_ne _ _ (by omega), C2' _ (isHdr_of_al ha).2.2]
    rw [store_ne _ _ (by omega), store_ne _ _ (by omega), store_ne _ _ (by omega),
      store_ne _ _ (by omega)]
  · show store P.mem _ _ _ = _
    rw [store_ne _ _ (by omega), C2' _ (by unfold IsHdr; omega)]
    rw [store_ne _ _ (by omega), store_same]
  · show store P.mem _ _ _ = _
    rw [store_same]
  · exact FL_store_hdr (c := base) (by unfold IsHdr; omega)
      (by intro a ha
          rcases List.mem_cons.1 ha with rfl | ha
          · omega
          · exact rfal a ha) C1
  · intro a
    simp only [List.mem_cons, true_and]
    tauto
  · exact List.nodup_cons.2 ⟨hnew, rnd⟩

/-! ### The invariant of the arena -/

theorem freeSum_append (l1 l2 : List Blk) : freeSum (l1 ++ l2) = freeSum l1 + freeSum l2 := by
  induction l1 with
  | nil => simp [freeSum]
  | cons b l1 ih =>
    show (if b.free then b.size else 0) + freeSum (l1 ++ l2) = _
    rw [ih]; simp only [freeSum]; omega

theorem allocSum_append (l1 l2 : List Blk) :
    allocSum (l1 ++ l2) = allocSum l1 + allocSum l2 := by
  induction l1 with
  | nil => simp [allocSum]
  | cons b l1 ih =>
    show (if b.free then 0 else b.size) + allocSum (l1 ++ l2) = _
    rw [ih]; simp only [allocSum]; omega

theorem chain_total : ∀ {l : List Blk} {x t : Blk}, List.Chain' Adj (x :: (l ++ [t])) →
    t.addr = x.addr + x.size + (freeSum l + allocSum l) ∧ 0 ≤ freeSum l ∧ 0 ≤ allocSum l := by
  intro l
  induction l with
  | nil =>
    intro x t h
    simp only [List.nil_append, List.chain'_cons] at h
    simp only [freeSum, allocSum]
    have := h.1.1
    omega
  | cons y l ih =>
    intro x t h
    simp only [List.cons_append, List.chain'_cons] at h
    have h2 : List.Chain' Adj (y :: (l ++ [t])) := h.2
    have := ih h2
    have h3 := h.1.1
    have hy : 32 ≤ y.size := by
      cases l with
      | nil => simp only [List.nil_append, List.chain'_cons] at h2; exact h2.1.2.1
      | cons z l => simp only [List.cons_append, List.chain'_cons] at h2; exact h2.1.2.1
    simp only [freeSum, allocSum]
    split <;> omega

theorem chain'_mid {α : Type} {Q : α → α → Prop} {A B : List α} {x : α} :
    List.Chain' Q (A ++ x :: B) ↔
      List.Chain' Q A ∧ List.Chain' Q B ∧ (∀ a ∈ A.getLast?, Q a x) ∧ (∀ b ∈ B.head?, Q x b) := by
  rw [List.chain'_append, List.chain'_cons']
  simp only [List.head?_cons, Option.mem_def, Option.some.injEq, forall_eq']
  tauto

theorem RepP.sums {base R k : Int} {h : Heap} {bs : List Blk} {fl : List Int}
    (r : RepP base R h bs fl k) :
    freeSum bs + allocSum bs = R - 64 ∧ 0 ≤ freeSum bs ∧ 0 ≤ allocSum bs := by
  have := chain_total (r.geom)
  simp only at this
  omega

/-- A heap whose memory agrees with `h` on the headers of the chain and on the links of
the free nodes represents the same arena. -/
theorem RepP.frame {base R k : Int} {h h' : Heap} {bs : List Blk} {fl : List Int}
    (r : RepP base R h bs fl k)
    (hh : ∀ b ∈ full base R bs, h'.mem b.addr = h.mem b.addr ∧
      h'.mem (b.addr + 4) = h.mem (b.addr + 4) ∧ h'.mem (b.addr + 8) = h.mem (b.addr + 8))
    (hl : ∀ a ∈ fl, h'.mem (a + 12) = h.mem (a + 12) ∧ h'.mem (a + 16) = h.mem (a + 16))
    (hf : h'._k_heapFreeList = h._k_heapFreeList)
    (ht : h'._k_heapTail_ = h._k_heapTail_) :
    RepP base R h' bs fl k := by
  refine
    { base_pos := r.base_pos, top := r.top, R_le := r.R_le, tail := by rw [ht]; exact r.tail,
      geom := r.geom, hdr := ?_, link := ?_, flist := ?_, fl_mem := r.fl_mem,
      fl_nodup := r.fl_nodup }
  · intro b hb
    rw [(hh b hb).1, (hh b hb).2.1]
    exact r.hdr b hb
  · refine link_frame r.link ?_
    intro a ha
    obtain ⟨b, hb, rfl⟩ := List.mem_map.1 ha
    exact (hh b hb).2.2
  · rw [hf]; exact FL_congr hl r.flist

/-! ### `_kfree` -/

theorem _kfree_eq (block : Int) (h : Heap) :
    _kfree block h =
      if block = 0 then (-1, h)
      else if h.mem (u32 (block - 12)) ≠ HEAP_NODE_ALLOCED ∨ h.mem (u32 (block - 12) + 4) ≤ 12
        then (-1, h)
        else (0, kfreeBody (u32 (block - 12)) h) := rfl

theorem markOf_eq_free (f : Bool) : markOf f = HEAP_NODE_FREE ↔ f = true := by
  cases f <;> simp [markOf, HEAP_NODE_FREE, HEAP_NODE_ALLOCED]

theorem markOf_eq_alloced (f : Bool) : markOf f = HEAP_NODE_ALLOCED ↔ f = false := by
  cases f <;> simp [markOf, HEAP_NODE_FREE, HEAP_NODE_ALLOCED]

theorem nil_or_snoc {α : Type} (l : List α) : l = [] ∨ ∃ L b, l = L ++ [b] := by
  rcases List.eq_nil_or_concat l with h | ⟨L, b, h⟩
  · exact Or.inl h
  · exact Or.inr ⟨L, b, by rw [h, List.concat_eq_append]⟩

theorem mergeLo_snoc (A : List Blk) (P N : Blk) :
    mergeLo (A ++ [P]) N =
      if P.free then (A, ⟨P.addr, P.size + N.size, true⟩)
      else (A ++ [P], ⟨N.addr, N.size, true⟩) := by
  simp [mergeLo]

theorem flLo_snoc (fl : List Int) (A : List Blk) (P : Blk) :
    flLo fl (A ++ [P]) = if P.free then fl.erase P.addr else fl := by
  simp [flLo]

/-- The `prevNode` word of a node of the chain holds the address of its predecessor. -/
theorem RepP.prev_snoc {base R k : Int} {h : Heap} {A post : List Blk} {P N : Blk}
    {fl : List Int} (r : RepP base R h (A ++ [P] ++ N :: post) fl k) :
    h.mem (N.addr + 8) = P.addr := by
  have hl := r.link
  rw [List.append_assoc, List.singleton_append, full_split2] at hl
  simp only [List.map_append, List.map_cons] at hl
  exact (List.chain'_cons.1 (List.chain'_split.1 hl).2).1

theorem RepP.prev_nil {base R k : Int} {h : Heap} {post : List Blk} {N : Blk}
    {fl : List Int} (r : RepP base R h (N :: post) fl k) :
    h.mem (N.addr + 8) = base := by
  have hl := r.link
  simp only [full, List.map_cons] at hl
  exact (List.chain'_cons.1 hl).1

/-- First stage of a release: the node takes in its predecessor when that one is free. -/
theorem kfree_lo {base R : Int} {h : Heap} {pre post : List Blk} {N : Blk} {fl : List Int}
    (r : RepP base R h (pre ++ N :: post) fl 0) (hN : N.free = false) :
    ∃ nh : Int × Heap, kfreeLo N.addr (N.addr + N.size) h = nh ∧
      nh.1 = (mergeLo pre N).2.addr ∧
      RepP base R nh.2 ((mergeLo pre N).1 ++ (mergeLo pre N).2 :: post) (flLo fl pre)
        (mergeLo pre N).2.addr ∧
      (mergeLo pre N).2.free = true ∧
      (mergeLo pre N).2.addr + (mergeLo pre N).2.size = N.addr + N.size ∧
      nh.2._k_heap_available = h._k_heap_available ∧
      nh.2._minimu_heap_avaiable = h._minimu_heap_avaiable ∧
      nh.2._kernel_heap_total = h._kernel_heap_total := by
  have hbase := r.base_pos
  unfold kfreeLo
  rcases nil_or_snoc pre with rfl | ⟨A, P, rfl⟩
  · -- the predecessor is the head sentinel
    have hp := r.prev_nil
    have hm := (r.hdr ⟨base, 32, false⟩ (by simp [full])).1 (by show base ≠ 0; omega)
    have hne : ¬ h.mem (h.mem (N.addr + 8)) = HEAP_NODE_FREE := by
      rw [hp]; simp only at hm; rw [hm]; decide
    rw [if_neg hne]
    refine ⟨_, rfl, rfl, ?_, rfl, rfl, rfl, rfl, rfl⟩
    exact @RepP.begin_free _ _ _ _ [] _ _ _ r hN rfl rfl rfl
  · have hp := r.prev_snoc
    have hPal := full_al r.geom P (mem_full (by simp))
    have hm := (r.hdr P (mem_full (by simp))).1 (by omega)
    have hc : h.mem (h.mem (N.addr + 8)) = HEAP_NODE_FREE ↔ P.free = true := by
      rw [hp, hm, markOf_eq_free]
    rw [mergeLo_snoc, flLo_snoc]
    by_cases hP : P.free = true
    · rw [if_pos (hc.2 hP), hp]
      simp only [hP, if_true]
      have r1 := @RepP.begin_free _ _ _ h _ _ _ _ r hN rfl rfl rfl
      rw [List.append_assoc, List.singleton_append] at r1
      have r2 := absorb_spec (y := P.addr) r1 hP rfl (Or.inr ⟨rfl, rfl⟩)
      have hadj : N.addr = P.addr + P.size := by
        have hg := r.geom
        rw [List.append_assoc, List.singleton_append, full_split2] at hg
        exact (List.chain'_cons.1 (List.chain'_split.1 hg).2).1.1
      refine ⟨_, rfl, by trivial, r2, by trivial, ?_, ?_, ?_, ?_⟩
      · show P.addr + (P.size + N.size) = _; omega
      · simp
      · simp
      · simp
    · rw [if_neg (fun e => hP (hc.1 e))]
      simp only [hP, if_false]
      refine ⟨_, rfl, rfl, ?_, rfl, rfl, rfl, rfl, rfl⟩
      exact RepP.begin_free r hN rfl rfl rfl

/-- Second stage of a release: the node takes in its successor when that one is free. -/
theorem kfree_hi {base R : Int} {h : Heap} {A post : List Blk} {B : Blk} {fl : List Int}
    (r : RepP base R h (A ++ B :: post) fl B.addr) (hB : B.free = true) :
    ∃ h2 : Heap, kfreeHi B.addr (B.addr + B.size) h = h2 ∧
      (mergeHi B post).1.addr = B.addr ∧
      RepP base R h2 (A ++ (mergeHi B post).1 :: (mergeHi B post).2) (flHi fl post) B.addr ∧
      (mergeHi B post).1.free = true ∧
      h2._k_heap_available = h._k_heap_available ∧
      h2._minimu_heap_avaiable = h._minimu_heap_avaiable ∧
      h2._kernel_heap_total = h._kernel_heap_total := by
  obtain ⟨x1, x2, x3, x4, x5, x6, x7⟩ := geom_node r.geom
  have hbase := r.base_pos
  have htop := r.top
  unfold kfreeHi
  cases post with
  | nil =>
    -- the successor is the tail sentinel
    have hg := r.geom
    rw [full_split] at hg
    have hadj : base + R - 32 = B.addr + B.size :=
      (List.chain'_cons.1 (List.chain'_split.1 hg).2).1.1
    have hm := (r.hdr ⟨base + R - 32, -1, false⟩ (by simp [full])).1
      (by show base + R - 32 ≠ B.addr; omega)
    have hne : ¬ h.mem (B.addr + B.size) = HEAP_NODE_FREE := by
      rw [← hadj]; simp only at hm; rw [hm]; decide
    rw [if_neg hne]
    exact ⟨_, rfl, rfl, r, hB, rfl, rfl, rfl⟩
  | cons X post =>
    have hg := r.geom
    rw [full_split2] at hg
    have hadj : X.addr = B.addr + B.size :=
      (List.chain'_cons.1 (List.chain'_split.1 hg).2).1.1
    have hX := r.hdr X (mem_full (by simp))
    obtain ⟨_, y2, y3, _, _, _, _⟩ := @geom_node base R (A ++ [B]) post X (by simpa using r.geom)
    have hc : h.mem (B.addr + B.size) = HEAP_NODE_FREE ↔ X.free = true := by
      rw [← hadj, hX.1 (by omega), markOf_eq_free]
    by_cases hXf : X.free = true
    · rw [if_pos (hc.2 hXf), ← hadj]
      have e1 : store h.mem (B.addr + 4) (i32 (h.mem (B.addr + 4) + h.mem (X.addr + 4)))
          (X.addr + 4) = X.size := by
        rw [store_ne _ _ (by omega)]; exact hX.2
      have e2 : u32 (X.addr + X.size) = X.addr + X.size := u32_of_range (by omega) (by omega)
      rw [e1, e2]
      have r2 := absorb_spec (y := X.addr) r hB hXf (Or.inl ⟨rfl, rfl⟩)
      simp only [mergeHi, flHi, hXf, if_true]
      exact ⟨_, rfl, by trivial, r2, by trivial, by simp, by simp, by simp⟩
    · rw [if_neg (fun e => hXf (hc.1 e))]
      simp only [mergeHi, flHi, hXf, if_false]
      exact ⟨_, rfl, rfl, r, hB, rfl, rfl, rfl⟩

theorem naf_freed {pre post : List Blk} {N : Blk} (h : NoAdjFree (pre ++ N :: post)) :
    NoAdjFree (freedList pre N post) := by
  unfold NoAdjFree at *
  rw [chain'_mid] at h
  obtain ⟨h1, h2, h3, h4⟩ := h
  rcases nil_or_snoc pre with rfl | ⟨A, P, rfl⟩
  · cases post with
    | nil => simp [freedList, mergeLo, mergeHi]
    | cons X post =>
      by_cases hX : X.free = true
      · simp only [freedList, mergeLo, mergeHi, hX, if_true, List.getLast?_nil, List.nil_append]
        rw [List.chain'_cons'] at h2 ⊢
        refine ⟨?_, h2.2⟩
        intro y hy
        have := h2.1 y hy
        simp only [hX, true_and] at this
        simp [this]
      · simp only [freedList, mergeLo, mergeHi, hX, List.getLast?_nil, List.nil_append]
        rw [List.chain'_cons']
        refine ⟨?_, h2⟩
        simp [hX]
  · rw [chain'_mid] at h1
    simp only [List.chain'_nil, List.head?_nil, Option.mem_def, reduceCtorEq, false_implies,
      implies_true, and_true, true_and] at h1
    obtain ⟨hA, hAP⟩ := h1
    unfold freedList
    rw [mergeLo_snoc]
    by_cases hP : P.free = true
    · simp only [hP, if_true]
      have hAP' : ∀ a ∈ A.getLast?, ¬ (a.free = true ∧ True) := by
        intro a ha
        have := hAP a ha
        simpa [hP] using this
      cases post with
      | nil =>
        simp only [mergeHi]
        rw [chain'_mid]
        refine ⟨hA, List.chain'_nil, ?_, by simp⟩
        intro a ha; simpa using hAP' a ha
      | cons X post =>
        by_cases hX : X.free = true
        · simp only [mergeHi, hX, if_true]
          rw [chain'_mid]
          rw [List.chain'_cons'] at h2
          refine ⟨hA, h2.2, ?_, ?_⟩
          · intro a ha; simpa using hAP' a ha
          · intro y hy
            have := h2.1 y hy
            simp only [hX, true_and] at this
            simp [this]
        · simp only [mergeHi, hX]
          rw [chain'_mid]
          refine ⟨hA, h2, ?_, ?_⟩
          · intro a ha; simpa using hAP' a ha
          · simp [hX]
    · simp only [hP]
      have hlast : ∀ a ∈ (A ++ [P]).getLast?, a.free = false := by
        intro a ha
        rw [List.getLast?_concat] at ha
        simp only [Option.mem_def, Option.some.injEq] at ha
        subst ha; simpa using hP
      have hAPc : List.Chain' (fun x y => ¬ (x.free = true ∧ y.free = true)) (A ++ [P]) := by
        rw [chain'_mid]
        exact ⟨hA, List.chain'_nil, hAP, by simp⟩
      cases post with
      | nil =>
        simp only [mergeHi]
        rw [chain'_mid]
        refine ⟨hAPc, List.chain'_nil, ?_, by simp⟩
        intro a ha; simp [hlast a ha]
      | cons X post =>
        by_cases hX : X.free = true
        · simp only [mergeHi, hX, if_true]
          rw [chain'_mid]
          rw [List.chain'_cons'] at h2
          refine ⟨hAPc, h2.2, ?_, ?_⟩
          · intro a ha; simp [hlast a ha]
          · intro y hy
            have := h2.1 y hy
            simp only [hX, true_and] at this
            simp [this]
        · simp only [mergeHi, hX]
          rw [chain'_mid]
          refine ⟨hAPc, h2, ?_, ?_⟩
          · intro a ha; simp [hlast a ha]
          · simp [hX]

theorem freeSum_freed {pre post : List Blk} {N : Blk} (hN : N.free = false) :
    freeSum (freedList pre N post) = freeSum (pre ++ N :: post) + N.size := by
  unfold freedList
  rcases nil_or_snoc pre with rfl | ⟨A, P, rfl⟩
  · cases post with
    | nil => simp [mergeLo, mergeHi, freeSum, hN]
    | cons X post =>
      by_cases hX : X.free = true
      · simp only [mergeLo, mergeHi, hX, if_true, List.getLast?_nil, List.nil_append, freeSum,
          hN, Bool.false_eq_true, if_false]
        omega
      · simp only [mergeLo, mergeHi, hX, List.getLast?_nil, List.nil_append, freeSum,
          hN, Bool.false_eq_true, if_false, if_true]
        omega
  · rw [mergeLo_snoc]
    by_cases hP : P.free = true
    · cases post with
      | nil =>
        simp only [hP, if_true, mergeHi, freeSum_append, freeSum, hN, Bool.false_eq_true,
          if_false]
        omega
      | cons X post =>
        by_cases hX : X.free = true
        · simp only [hP, if_true, mergeHi, hX, freeSum_append, freeSum, hN,
            Bool.false_eq_true, if_false]
          omega
        · simp only [hP, if_true, mergeHi, hX, freeSum_append, freeSum, hN,
            Bool.false_eq_true, if_false]
          omega
    · cases post with
      | nil =>
        simp only [hP, mergeHi, freeSum_append, freeSum, hN, Bool.false_eq_true,
          if_false, if_true]
        omega
      | cons X post =>
        by_cases hX : X.free = true
        · simp only [hP, mergeHi, hX, freeSum_append, freeSum, hN,
            Bool.false_eq_true, if_false, if_true]
          omega
        · simp only [hP, mergeHi, hX, freeSum_append, freeSum, hN,
            Bool.false_eq_true, if_false, if_true]
          omega


theorem sums_nonneg : ∀ l : List Blk, (∀ b ∈ l, 0 ≤ b.size) → 0 ≤ freeSum l ∧ 0 ≤ allocSum l
  | [], _ => by simp [freeSum, allocSum]
  | b :: l, h => by
    have := sums_nonneg l (fun c hc => h c (List.mem_cons_of_mem _ hc))
    have hb := h b (List.mem_cons_self _ _)
    simp only [freeSum, allocSum]
    split <;> omega

theorem geom_size {base R : Int} {bs : List Blk}
    (h : List.Chain' Adj (full base R bs)) : ∀ b ∈ bs, 32 ≤ b.size := by
  intro b hb
  obtain ⟨pre, post, rfl⟩ := List.append_of_mem hb
  exact (geom_node h).2.2.1

/-- The available bytes stay within the arena when an allocated node is given back. -/
theorem Rep.avail_bound {base R : Int} {h : Heap} {pre post : List Blk} {N : Blk}
    {fl : List Int} (r : Rep base R h (pre ++ N :: post) fl) (hN : N.free = false) :
    0 ≤ h._k_heap_available ∧ h._k_heap_available + N.size ≤ R - 64 := by
  have hs := r.rep.sums
  have hsz := geom_size r.rep.geom
  have h1 := sums_nonneg pre (fun b hb => by have := hsz b (by simp [hb]); omega)
  have h2 := sums_nonneg post (fun b hb => by have := hsz b (by simp [hb]); omega)
  rw [r.avail]
  rw [allocSum_append] at hs
  simp only [allocSum, hN, Bool.false_eq_true, if_false] at hs
  omega

theorem RepP.set_counters {base R k : Int} {h : Heap} {bs : List Blk} {fl : List Int}
    (r : RepP base R h bs fl k) (a b c : Int) :
    RepP base R
      { h with _k_heap_available := a, _minimu_heap_avaiable := b, _kernel_heap_total := c }
      bs fl k :=
  r.frame (fun _ _ => ⟨rfl, rfl, rfl⟩) (fun _ _ => ⟨rfl, rfl⟩) rfl rfl

/-- Effect of `_kfree` on an allocated node of the chain. -/
theorem kfree_spec {base R : Int} {h : Heap} {pre post : List Blk} {N : Blk} {fl : List Int}
    (r : Rep base R h (pre ++ N :: post) fl) (hN : N.free = false) :
    _kfree (N.addr + 12) h = (0, kfreeBody N.addr h) ∧
      Rep base R (kfreeBody N.addr h) (freedList pre N post) (freedFl fl pre N post) ∧
      (kfreeBody N.addr h)._k_heap_available = h._k_heap_available + N.size ∧
      (kfreeBody N.addr h)._minimu_heap_avaiable = h._minimu_heap_avaiable ∧
      (kfreeBody N.addr h)._kernel_heap_total = h._kernel_heap_total := by
  obtain ⟨x1, x2, x3, x4, x5, x6, x7⟩ := geom_node r.rep.geom
  have hbase := r.rep.base_pos
  have htop := r.rep.top
  have hR := r.rep.R_le
  have hd := r.rep.hdr N (mem_full (by simp))
  have hmark : h.mem N.addr = HEAP_NODE_ALLOCED := by
    rw [hd.1 (by omega), hN]; rfl
  have hsize := hd.2
  have hav := r.avail_bound hN
  have e0 : u32 (N.addr + 12 - 12) = N.addr := by
    rw [u32_of_range (by omega) (by omega)]; omega
  have e1 : u32 (N.addr + N.size) = N.addr + N.size := u32_of_range (by omega) (by omega)
  have e2 : u32 (h._k_heap_available + N.size) = h._k_heap_available + N.size :=
    u32_of_range (by omega) (by omega)
  have body : Rep base R (kfreeBody N.addr h) (freedList pre N post) (freedFl fl pre N post) ∧
      (kfreeBody N.addr h)._k_heap_available = h._k_heap_available + N.size ∧
      (kfreeBody N.addr h)._minimu_heap_avaiable = h._minimu_heap_avaiable ∧
      (kfreeBody N.addr h)._kernel_heap_total = h._kernel_heap_total := by
    unfold kfreeBody
    simp only [hsize, e1, e2]
    have r1 := r.rep.set_counters (h._k_heap_available + N.size) h._minimu_heap_avaiable
      h._kernel_heap_total
    obtain ⟨nh, hnh, hnh1, rA, hBf, hBend, a1, a2, a3⟩ := kfree_lo r1 hN
    rw [hnh, hnh1, ← hBend]
    obtain ⟨h2, hh2, hB', rB, hB'f, b1, b2, b3⟩ := kfree_hi rA hBf
    rw [hh2]
    rw [← hB'] at rB ⊢
    have rC := RepP.finish_free rB hB'f
    refine ⟨⟨?_, naf_freed r.naf, ?_⟩, ?_, ?_, ?_⟩
    · unfold freedList freedFl
      rw [← hB']
      exact rC
    · rw [HeapChainToFreeList_avail, freeSum_freed hN, ← r.avail]
      show h2._k_heap_available = _
      rw [b1, a1]
    · rw [HeapChainToFreeList_avail]
      show h2._k_heap_available = _
      rw [b1, a1]
    · rw [HeapChainToFreeList_min]
      show h2._minimu_heap_avaiable = _
      rw [b2, a2]
    · rw [HeapChainToFreeList_total]
      show h2._kernel_heap_total = _
      rw [b3, a3]
  refine ⟨?_, body⟩
  rw [_kfree_eq, if_neg (by omega), e0, if_neg]
  rw [hmark, hsize]
  intro hc
  rcases hc with hc | hc
  · exact hc rfl
  · omega

/-! ### The best-fit scan -/

theorem bestFit_eq {m : Mem} {size : Int} : ∀ {l : List Int} {fuel : Nat} {prev cur fit : Int},
    FL m prev cur l → l.length < fuel →
    bestFit m size fuel cur fit = some (pick m size l fit) := by
  intro l
  induction l with
  | nil =>
    intro fuel prev cur fit h hl
    cases fuel with
    | zero => simp at hl
    | succ f =>
      have : cur = 0 := h
      simp [bestFit, pick, this]
  | cons a rest ih =>
    intro fuel prev cur fit h hl
    obtain ⟨h1, h2, _, h4⟩ := h
    cases fuel with
    | zero => simp at hl
    | succ f =>
      have hl' : rest.length < f := by simpa using hl
      subst h1
      unfold bestFit pick
      rw [if_neg h2]
      by_cases c1 : m (cur + 4) ≥ size
      · rw [if_pos c1, if_pos c1]
        by_cases c2 : m (cur + 4) = size
        · rw [if_pos c2, if_pos c2]
        · rw [if_neg c2, if_neg c2]
          exact ih h4 hl'
      · rw [if_neg c1, if_neg c1]
        exact ih h4 hl'

theorem length_lt_fuel {l : List Int} (hnd : l.Nodup)
    (hr : ∀ a ∈ l, 0 ≤ a ∧ a < 4294967296) : l.length < FUEL := by
  have h1 : l.toFinset ⊆ Finset.Ico (0 : Int) 4294967296 := by
    intro a ha
    rw [List.mem_toFinset] at ha
    rw [Finset.mem_Ico]
    exact hr a ha
  have h2 := Finset.card_le_card h1
  rw [List.toFinset_card_of_nodup hnd, Int.card_Ico] at h2
  unfold FUEL
  omega

/-- What the scan returns, from a candidate that fits (or none). -/
theorem pick_spec {m : Mem} {size : Int} : ∀ (l : List Int) (fit : Int),
    (∀ a ∈ l, a ≠ 0) → (fit = 0 ∨ size ≤ m (fit + 4)) →
    (pick m size l fit = fit ∨ pick m size l fit ∈ l) ∧
    (pick m size l fit ≠ 0 → size ≤ m (pick m size l fit + 4)) ∧
    (∀ b, (b ∈ l ∨ (b = fit ∧ fit ≠ 0)) → size ≤ m (b + 4) →
      pick m size l fit ≠ 0 ∧ m (pick m size l fit + 4) ≤ m (b + 4)) := by
  intro l
  induction l with
  | nil =>
    intro fit _ hfit
    simp only [pick, List.not_mem_nil, false_or, true_or, true_and]
    refine ⟨?_, ?_⟩
    · intro h0
      rcases hfit with h | h
      · exact absurd h h0
      · exact h
    · rintro b ⟨rfl, h0⟩ hb
      exact ⟨h0, le_refl _⟩
  | cons a rest ih =>
    intro fit hnz hfit
    have ha0 : a ≠ 0 := hnz a (List.mem_cons_self _ _)
    have hnz' : ∀ c ∈ rest, c ≠ 0 := fun c hc => hnz c (List.mem_cons_of_mem _ hc)
    unfold pick
    by_cases c1 : m (a + 4) ≥ size
    · rw [if_pos c1]
      by_cases c2 : m (a + 4) = size
      · rw [if_pos c2]
        refine ⟨Or.inr (List.mem_cons_self _ _), fun _ => by omega, ?_⟩
        intro b _ hb
        exact ⟨ha0, by omega⟩
      · rw [if_neg c2]
        by_cases f0 : fit = 0
        · simp only [f0, ne_eq, not_true_eq_false, if_false]
          obtain ⟨i1, i2, i3⟩ := ih a hnz' (Or.inr c1)
          refine ⟨?_, i2, ?_⟩
          · rcases i1 with h | h
            · exact Or.inr (by rw [h]; exact List.mem_cons_self _ _)
            · exact Or.inr (List.mem_cons_of_mem _ h)
          · intro b hb hbs
            rcases hb with hb | ⟨_, hb⟩
            · rcases List.mem_cons.1 hb with rfl | hb
              · exact i3 b (Or.inr ⟨rfl, ha0⟩) hbs
              · exact i3 b (Or.inl hb) hbs
            · exact hb.elim
        · have hfs : size ≤ m (fit + 4) := by
            rcases hfit with h | h
            · exact absurd h f0
            · exact h
          simp only [ne_eq, f0, not_false_eq_true, if_true]
          by_cases c3 : m (a + 4) < m (fit + 4)
          · rw [if_pos c3]
            obtain ⟨i1, i2, i3⟩ := ih a hnz' (Or.inr c1)
            refine ⟨?_, i2, ?_⟩
            · rcases i1 with h | h
              · exact Or.inr (by rw [h]; exact List.mem_cons_self _ _)
              · exact Or.inr (List.mem_cons_of_mem _ h)
            · intro b hb hbs
              have ia := i3 a (Or.inr ⟨rfl, ha0⟩) c1
              rcases hb with hb | ⟨rfl, _⟩
              · rcases List.mem_cons.1 hb with rfl | hb
                · exact ia
                · exact i3 b (Or.inl hb) hbs
              · exact ⟨ia.1, by omega⟩
          · rw [if_neg c3]
            obtain ⟨i1, i2, i3⟩ := ih fit hnz' (Or.inr hfs)
            refine ⟨?_, i2, ?_⟩
            · rcases i1 with h | h
              · exact Or.inl h
              · exact Or.inr (List.mem_cons_of_mem _ h)
            · intro b hb hbs
              have ifit := i3 fit (Or.inr ⟨rfl, f0⟩) hfs
              rcases hb with hb | ⟨rfl, _⟩
              · rcases List.mem_cons.1 hb with rfl | hb
                · exact ⟨ifit.1, by omega⟩
                · exact i3 b (Or.inl hb) hbs
              · exact ifit
    · rw [if_neg c1]
      obtain ⟨i1, i2, i3⟩ := ih fit hnz' hfit
      refine ⟨?_, i2, ?_⟩
      · rcases i1 with h | h
        · exact Or.inl h
        · exact Or.inr (List.mem_cons_of_mem _ h)
      · intro b hb hbs
        rcases hb with hb | hb
        · rcases List.mem_cons.1 hb with rfl | hb
          · exact absurd hbs c1
          · exact i3 b (Or.inl hb) hbs
        · exact i3 b (Or.inr hb) hbs

/-- An exact match stops the scan: the first node of the list whose size is the requested
one is returned. -/
theorem pick_exact {m : Mem} {size : Int} {a0 : Int} {l2 : List Int} :
    ∀ (l1 : List Int) (fit : Int), m (a0 + 4) = size → (∀ b ∈ l1, m (b + 4) ≠ size) →
    pick m size (l1 ++ a0 :: l2) fit = a0 := by
  intro l1
  induction l1 with
  | nil =>
    intro fit h _
    simp only [List.nil_append, pick]
    rw [if_pos (by omega), if_pos h]
  | cons c l1 ih =>
    intro fit h hne
    have hc := hne c (List.mem_cons_self _ _)
    have hne' : ∀ b ∈ l1, m (b + 4) ≠ size := fun b hb => hne b (List.mem_cons_of_mem _ hb)
    simp only [List.cons_append, pick]
    by_cases c1 : m (c + 4) ≥ size
    · rw [if_pos c1, if_neg hc]
      exact ih _ h hne'
    · rw [if_neg c1]
      exact ih _ h hne'

/-! ### `_k_allock_node` and `_kmalloc` -/

theorem _k_allock_node_eq (node size : Int) (h : Heap) :
    _k_allock_node node size h =
      allocStep node (if h.mem (node + 4) ≥ i32 (size + 32) then splitNode node size h
        else h) := rfl

theorem naf_alloc {pre post : List Blk} {F : Blk} (sz : Int)
    (h : NoAdjFree (pre ++ F :: post)) (hF : F.free = true) :
    NoAdjFree (allocList pre F post sz) := by
  unfold NoAdjFree at *
  rw [chain'_mid] at h
  obtain ⟨h1, h2, h3, h4⟩ := h
  unfold allocList
  split
  · rw [chain'_mid]
    refine ⟨h1, ?_, by simp, by simp⟩
    rw [List.chain'_cons']
    refine ⟨?_, h2⟩
    intro y hy
    have := h4 y hy
    simp only [hF, true_and] at this
    simp [this]
  · rw [chain'_mid]
    exact ⟨h1, h2, by simp, by simp⟩

theorem freeSum_alloc {pre post : List Blk} {F : Blk} (sz : Int) (hF : F.free = true) :
    freeSum (allocList pre F post sz) =
      freeSum (pre ++ F :: post) - (if sz + 32 ≤ F.size then sz else F.size) := by
  unfold allocList
  split
  · simp only [freeSum_append, freeSum, hF, Bool.false_eq_true, if_false, if_true]
    omega
  · simp only [freeSum_append, freeSum, hF, Bool.false_eq_true, if_false, if_true]
    omega

/-- Effect of `_k_allock_node` on a free node of the chain that can hold `sz` bytes. -/
theorem k_allock_node_spec {base R sz : Int} {h : Heap} {pre post : List Blk} {F : Blk}
    {fl : List Int} (r : Rep base R h (pre ++ F :: post) fl) (hF : F.free = true)
    (hsz1 : 32 ≤ sz) (hsz2 : sz % 32 = 0) (hsz3 : sz ≤ F.size) :
    (_k_allock_node F.addr sz h).1 = F.addr + 12 ∧
      Rep base R (_k_allock_node F.addr sz h).2 (allocList pre F post sz) (allocFl fl F sz) ∧
      (_k_allock_node F.addr sz h).2._k_heap_available =
        h._k_heap_available - (if sz + 32 ≤ F.size then sz else F.size) ∧
      (_k_allock_node F.addr sz h).2._kernel_heap_total = h._kernel_heap_total := by
  obtain ⟨x1, x2, x3, x4, x5, x6, x7⟩ := geom_node r.rep.geom
  have hbase := r.rep.base_pos
  have htop := r.rep.top
  have hR := r.rep.R_le
  have hd := (r.rep.hdr F (mem_full (by simp))).2
  have hfs : F.size ≤ h._k_heap_available := by
    have hsz := geom_size r.rep.geom
    have h1 := sums_nonneg pre (fun b hb => by have := hsz b (by simp [hb]); omega)
    have h2 := sums_nonneg post (fun b hb => by have := hsz b (by simp [hb]); omega)
    rw [r.avail, freeSum_append]
    simp only [freeSum, hF, if_true]
    omega
  have hub : h._k_heap_available ≤ R - 64 := by
    have := r.rep.sums
    rw [r.avail]; omega
  have e0 : u32 (F.addr + 12) = F.addr + 12 := u32_of_range (by omega) (by omega)
  have e1 : i32 (sz + 32) = sz + 32 := i32_of_range (by omega) (by omega)
  rw [_k_allock_node_eq, hd, e1]
  -- the heap after the optional split
  have key : ∃ h1 : Heap, (if F.size ≥ sz + 32 then splitNode F.addr sz h else h) = h1 ∧
      ∃ post1 fl1 s1, RepP base R h1 (pre ++ ⟨F.addr, s1, true⟩ :: post1) fl1 0 ∧
        pre ++ ⟨F.addr, s1, false⟩ :: post1 = allocList pre F post sz ∧
        fl1.erase F.addr = allocFl fl F sz ∧
        s1 = (if sz + 32 ≤ F.size then sz else F.size) ∧
        h1._k_heap_available = h._k_heap_available ∧
        h1._kernel_heap_total = h._kernel_heap_total := by
    by_cases c : sz + 32 ≤ F.size
    · rw [if_pos (by omega)]
      obtain ⟨s1, s2, _, s4⟩ := splitNode_spec r.rep hsz1 hsz2 c
      rw [hF] at s1
      refine ⟨_, rfl, _, _, sz, s1, ?_, ?_, ?_, s2, s4⟩
      · unfold allocList; rw [if_pos c]
      · unfold allocFl
        rw [if_pos c, List.erase_cons_tail]
        simp only [beq_iff_eq]
        omega
      · rw [if_pos c]
    · rw [if_neg (by omega)]
      have hF' : F = ⟨F.addr, F.size, true⟩ := by
        cases F; simp only at hF; simp [hF]
      refine ⟨_, rfl, post, fl, F.size, ?_, ?_, ?_, ?_, rfl, rfl⟩
      · rw [← hF']; exact r.rep
      · unfold allocList; rw [if_neg c]
      · unfold allocFl; rw [if_neg c]
      · rw [if_neg c]
  obtain ⟨h1, hh1, post1, fl1, s1, r1, el, ef, es, ea, et⟩ := key
  rw [hh1]
  have r2 := RepP.alloc r1 rfl
  have hsz' := (r2.hdr ⟨F.addr, s1, false⟩ (mem_full (by simp))).2
  have hDa : (HeapDeleteFromFreeList F.addr
      { h1 with mem := store h1.mem F.addr HEAP_NODE_ALLOCED })._k_heap_available =
      h._k_heap_available := by
    rw [HeapDeleteFromFreeList_avail]; exact ea
  have hDt : (HeapDeleteFromFreeList F.addr
      { h1 with mem := store h1.mem F.addr HEAP_NODE_ALLOCED })._kernel_heap_total =
      h._kernel_heap_total := by
    rw [HeapDeleteFromFreeList_total]; exact et
  have hs1 : s1 ≤ F.size ∧ 0 ≤ s1 := by
    rw [es]; split <;> omega
  have e2 : u32 (h._k_heap_available - s1) = h._k_heap_available - s1 :=
    u32_of_range (by omega) (by omega)
  have hstep : allocStep F.addr h1 = (u32 (F.addr + 12),
      { (HeapDeleteFromFreeList F.addr { h1 with mem := store h1.mem F.addr HEAP_NODE_ALLOCED }) with
        _k_heap_available := u32 ((HeapDeleteFromFreeList F.addr { h1 with mem := store h1.mem F.addr HEAP_NODE_ALLOCED })._k_heap_available - (HeapDeleteFromFreeList F.addr { h1 with mem := store h1.mem F.addr HEAP_NODE_ALLOCED }).mem (F.addr + 4))
        _minimu_heap_avaiable := if (HeapDeleteFromFreeList F.addr { h1 with mem := store h1.mem F.addr HEAP_NODE_ALLOCED })._minimu_heap_avaiable > u32 ((HeapDeleteFromFreeList F.addr { h1 with mem := store h1.mem F.addr HEAP_NODE_ALLOCED })._k_heap_available - (HeapDeleteFromFreeList F.addr { h1 with mem := store h1.mem F.addr HEAP_NODE_ALLOCED }).mem (F.addr + 4)) then u32 ((HeapDeleteFromFreeList F.addr { h1 with mem := store h1.mem F.addr HEAP_NODE_ALLOCED })._k_heap_available - (HeapDeleteFromFreeList F.addr { h1 with mem := store h1.mem F.addr HEAP_NODE_ALLOCED }).mem (F.addr + 4)) else (HeapDeleteFromFreeList F.addr { h1 with mem := store h1.mem F.addr HEAP_NODE_ALLOCED })._minimu_heap_avaiable }) := rfl
  rw [hstep]
  simp only at hsz'
  generalize HeapDeleteFromFreeList F.addr { h1 with mem := store h1.mem F.addr HEAP_NODE_ALLOCED } = D at *
  rw [hsz', hDa, e2, e0]
  refine ⟨rfl, ⟨?_, naf_alloc sz r.naf hF, ?_⟩, ?_, hDt⟩
  · rw [← el, ← ef]
    exact r2.set_counters _ _ _
  · show h._k_heap_available - s1 = _
    rw [freeSum_alloc sz hF, ← r.avail, es]
  · show h._k_heap_available - s1 = _
    rw [es]

/-- Without overflow the adjusted size is the request plus the header offset, rounded up to
the page size. -/
theorem adjustSize_spec {n : Int} (h0 : 0 < n) (h1 : n ≤ 2147483604) :
    32 ≤ adjustSize n ∧ adjustSize n % 32 = 0 ∧ n + 12 ≤ adjustSize n ∧
      adjustSize n < n + 44 := by
  unfold adjustSize i32
  simp only [ALLOC_OFFSET, ALLOC_PAGE_SIZE]
  split <;> omega

theorem Rep.fl_range {base R k : Int} {h : Heap} {bs : List Blk} {fl : List Int}
    (r : RepP base R h bs fl k) : ∀ a ∈ fl, 0 ≤ a ∧ a < 4294967296 := by
  intro a ha
  obtain ⟨⟨b, hb, _, rfl⟩, _⟩ := (r.fl_mem a).1 ha
  obtain ⟨pre, post, rfl⟩ := List.append_of_mem hb
  obtain ⟨x1, x2, x3, _⟩ := geom_node r.geom
  have := r.base_pos
  have := r.top
  omega

/-- On a well-formed heap `_kmalloc` runs the scan to its end and hands out the node the
scan picked. -/
theorem kmalloc_eq {base R k n : Int} {h : Heap} {bs : List Blk} {fl : List Int}
    (r : RepP base R h bs fl k) (hn : 0 < n) :
    _kmalloc n h =
      if pick h.mem (adjustSize n) fl 0 ≠ 0 ∧
          h.mem (pick h.mem (adjustSize n) fl 0 + 4) ≥ adjustSize n
      then some (_k_allock_node (pick h.mem (adjustSize n) fl 0) (adjustSize n) h)
      else some (0, h) := by
  unfold _kmalloc
  rw [if_neg (by omega), bestFit_eq r.flist (length_lt_fuel r.fl_nodup (Rep.fl_range r))]

/-- A free node of the chain, found from its address on the free list. -/
theorem RepP.block_of_fl {base R : Int} {h : Heap} {bs : List Blk} {fl : List Int}
    (r : RepP base R h bs fl 0) {a : Int} (ha : a ∈ fl) :
    ∃ pre F post, bs = pre ++ F :: post ∧ F.free = true ∧ F.addr = a ∧ h.mem (a + 4) = F.size := by
  obtain ⟨⟨b, hb, hf, rfl⟩, _⟩ := (r.fl_mem a).1 ha
  obtain ⟨pre, post, rfl⟩ := List.append_of_mem hb
  exact ⟨pre, b, post, rfl, hf, rfl, (r.hdr b (mem_full (by simp))).2⟩

/-! ### `_krealloc` -/

theorem shrinkSplit_spec {base R sz : Int} {h : Heap} {pre post : List Blk} {x : Blk}
    {fl : List Int} (r : RepP base R h (pre ++ x :: post) fl 0)
    (hsz1 : 32 ≤ sz) (hsz2 : sz % 32 = 0) (hsz3 : sz + 32 ≤ x.size) :
    RepP base R (shrinkSplit x.addr sz h)
      (pre ++ ⟨x.addr, sz, x.free⟩ :: ⟨x.addr + sz, x.size - sz, false⟩ :: post) fl 0 := by
  obtain ⟨x1, x2, x3, x4, x5, x6, x7⟩ := geom_node r.geom
  have hbase := r.base_pos
  have htop := r.top
  have hR := r.R_le
  have hdx := (r.hdr x (mem_full (by simp))).2
  have e1 : u32 (x.addr + sz) = x.addr + sz := u32_of_range (by omega) (by omega)
  have e2 : store (store h.mem (x.addr + sz + 8) x.addr) (x.addr + sz) HEAP_NODE_ALLOCED
      (x.addr + 4) = x.size := by
    rw [store_ne _ _ (by omega), store_ne _ _ (by omega)]; exact hdx
  have e3 : i32 (x.size - sz) = x.size - sz := i32_of_range (by omega) (by omega)
  have e4 : store (store (store h.mem (x.addr + sz + 8) x.addr) (x.addr + sz)
      HEAP_NODE_ALLOCED) (x.addr + sz + 4) (x.size - sz) (x.addr + 4) = x.size := by
    rw [store_ne _ _ (by omega)]; exact e2
  have e5 : u32 (x.addr + x.size) = x.addr + x.size := u32_of_range (by omega) (by omega)
  have heq : shrinkSplit x.addr sz h = { h with mem := store (store (store (store (store h.mem (x.addr + sz + 8) x.addr) (x.addr + sz) HEAP_NODE_ALLOCED) (x.addr + sz + 4) (x.size - sz)) (x.addr + x.size + 8) (x.addr + sz)) (x.addr + 4) sz } := by
    unfold shrinkSplit
    simp only [e1, e2, e3, e4, e5]
  rw [heq]
  have rfal := r.fl_al
  refine RepP.split_of_mem false r hsz1 hsz2 hsz3 ?_ ?_ ?_ ?_ ?_ ?_ ?_ ?_ ?_ ?_ r.fl_nodup rfl
  · intro a ha hne
    show store (store (store (store (store h.mem _ _) _ _) _ _) _ _) _ _ a = _
    rw [store_ne _ _ (by omega), store_ne _ _ (by omega), store_ne _ _ (by omega),
      store_ne _ _ (by omega), store_ne _ _ (by omega)]
  · show store (store (store (store (store h.mem _ _) _ _) _ _) _ _) _ _ _ = _
    rw [store_ne _ _ (by omega), store_ne _ _ (by omega), store_ne _ _ (by omega),
      store_same]; rfl
  · intro a ha hne1 hne2
    show store (store (store (store (store h.mem _ _) _ _) _ _) _ _) _ _ _ = _
    rw [store_ne _ _ (by omega), store_ne _ _ (by omega), store_ne _ _ (by omega),
      store_ne _ _ (by omega), store_ne _ _ (by omega)]
  · show store (store (store (store (store h.mem _ _) _ _) _ _) _ _) _ _ _ = _
    rw [store_same]
  · show store (store (store (store (store h.mem _ _) _ _) _ _) _ _) _ _ _ = _
    rw [store_ne _ _ (by omega), store_ne _ _ (by omega), store_same]
  · intro a ha hne1 hne2
    show store (store (store (store (store h.mem _ _) _ _) _ _) _ _) _ _ _ = _
    rw [store_ne _ _ (by omega), store_ne _ _ (by omega), store_ne _ _ (by omega),
      store_ne _ _ (by omega), store_ne _ _ (by omega)]
  · show store (store (store (store (store h.mem _ _) _ _) _ _) _ _) _ _ _ = _
    rw [store_ne _ _ (by omega), store_ne _ _ (by omega), store_ne _ _ (by omega),
      store_ne _ _ (by omega), store_same]
  · show store (store (store (store (store h.mem _ _) _ _) _ _) _ _) _ _ _ = _
    rw [store_ne _ _ (by omega), store_same]
  · show FL (store (store (store (store (store h.mem _ _) _ _) _ _) _ _) _ _) _ _ _
    refine FL_store_hdr (c := base) ?_ rfal (FL_store_hdr (c := base) ?_ rfal
      (FL_store_hdr (c := base) ?_ rfal (FL_store_hdr (c := base) ?_ rfal
      (FL_store_hdr (c := base) ?_ rfal r.flist))))
    all_goals (unfold IsHdr; omega)
  · intro a
    simp

/-! ### The blocks handed out -/

theorem freed_alloc_mem {pre post : List Blk} {N b : Blk} (hb : b.free = false) :
    b ∈ freedList pre N post ↔ (b ∈ pre ∨ b ∈ post) := by
  have key : ∀ a s, b ≠ ⟨a, s, true⟩ := by
    intro a s e; rw [e] at hb; simp at hb
  have key2 : ∀ Y : Blk, Y.free = true → b ≠ Y := by
    intro Y hY e; rw [e, hY] at hb; simp at hb
  unfold freedList
  rcases nil_or_snoc pre with rfl | ⟨A, P, rfl⟩
  · cases post with
    | nil => simp [mergeLo, mergeHi, key]
    | cons X post =>
      cases hX : X.free with
      | true => simp [mergeLo, mergeHi, hX, key, key2 X hX]
      | false => simp [mergeLo, mergeHi, hX, key]
  · rw [mergeLo_snoc]
    cases hP : P.free with
    | true =>
      cases post with
      | nil => simp [mergeHi, key, key2 P hP]
      | cons X post =>
        cases hX : X.free with
        | true => simp [mergeHi, hX, key, key2 X hX, key2 P hP]
        | false => simp [mergeHi, hX, key, key2 P hP]
    | false =>
      cases post with
      | nil => simp [mergeHi, key]
      | cons X post =>
        cases hX : X.free with
        | true => simp [mergeHi, hX, key, key2 X hX, or_assoc]
        | false => simp [mergeHi, hX, key, or_assoc]

theorem alloc_alloc_mem {pre post : List Blk} {F b : Blk} (sz : Int) (hF : F.free = true)
    (hb : b.free = false) :
    b ∈ allocList pre F post sz ↔
      ((b ∈ pre ∨ b ∈ post) ∨ b = ⟨F.addr, if sz + 32 ≤ F.size then sz else F.size, false⟩) := by
  unfold allocList
  split
  · simp only [List.mem_append, List.mem_cons]
    constructor
    · rintro (h | e | e | h)
      · exact Or.inl (Or.inl h)
      · exact Or.inr e
      · rw [e] at hb; simp at hb
      · exact Or.inl (Or.inr h)
    · rintro ((h | h) | e)
      · exact Or.inl h
      · exact Or.inr (Or.inr (Or.inr h))
      · exact Or.inr (Or.inl e)
  · simp only [List.mem_append, List.mem_cons]
    tauto

/-- Writes into the payload of an allocated node do not disturb the arena. -/
theorem Rep.payload_frame {base R : Int} {h : Heap} {pre post : List Blk} {x : Blk}
    {fl : List Int} (r : Rep base R h (pre ++ x :: post) fl) (hx : x.free = false)
    (m' : Mem) (hm : ∀ y, (y < x.addr + 12 ∨ x.addr + x.size ≤ y) → m' y = h.mem y) :
    Rep base R { h with mem := m' } (pre ++ x :: post) fl := by
  obtain ⟨x1, x2, x3, x4, x5, x6, x7⟩ := geom_node r.rep.geom
  refine ⟨r.rep.frame ?_ ?_ rfl rfl, r.naf, r.avail⟩
  · intro b hb
    show m' _ = _ ∧ m' _ = _ ∧ m' _ = _
    rcases full_cases r.rep.geom hb with rfl | ⟨h1, _, _⟩ | ⟨h1, _, _⟩
    · exact ⟨hm _ (by omega), hm _ (by omega), hm _ (by omega)⟩
    · exact ⟨hm _ (by omega), hm _ (by omega), hm _ (by omega)⟩
    · exact ⟨hm _ (by omega), hm _ (by omega), hm _ (by omega)⟩
  · intro a ha
    show m' _ = _ ∧ m' _ = _
    obtain ⟨⟨b, hb, hbf, rfl⟩, _⟩ := (r.rep.fl_mem a).1 ha
    simp only [List.mem_append, List.mem_cons] at hb
    rcases hb with hb | rfl | hb
    · have := x6 b hb
      exact ⟨hm _ (by omega), hm _ (by omega)⟩
    · rw [hx] at hbf; simp at hbf
    · have := x7 b hb
      exact ⟨hm _ (by omega), hm _ (by omega)⟩

/-! ### Registration of the arena -/

theorem init_facts {addr size : Int} (ok : InitOK addr size) :
    0 < arenaBase addr ∧ arenaBase addr + arenaSize size ≤ 4294967300 ∧
      arenaSize size ≤ 2147483616 ∧ 96 ≤ arenaSize size ∧ arenaSize size % 32 = 0 := by
  have h1 := ok.addr_nonneg
  have h2 := ok.size_le
  have h3 := ok.fits
  have h4 := ok.pages
  unfold arenaBase arenaSize u32 at *
  split <;> omega

theorem uffs_InitHeapMemory_eq {addr size : Int} (h : Heap) (ok : InitOK addr size) :
    uffs_InitHeapMemory addr size h =
      { mem := initMem h.mem (arenaBase addr) (arenaSize size)
        _k_heapFreeList := arenaBase addr + 32
        _k_heapTail_ := arenaBase addr + arenaSize size - 32
        _k_heap_available := arenaSize size - 64
        _minimu_heap_avaiable := arenaSize size - 64
        _kernel_heap_total := u32 (h._kernel_heap_total + arenaSize size) } := by
  obtain ⟨f1, f2, f3, f4, f5⟩ := init_facts ok
  have hp' : ¬ (size - size % 32 < ALLOC_PAGE_SIZE * 3) := by
    unfold arenaSize at f4; simp only [ALLOC_PAGE_SIZE]; omega
  have e1 : u32 (arenaBase addr + arenaSize size - 32) = arenaBase addr + arenaSize size - 32 :=
    u32_of_range (by omega) (by omega)
  have e2 : u32 (arenaBase addr + 32) = arenaBase addr + 32 :=
    u32_of_range (by omega) (by omega)
  have e3 : i32 (arenaSize size - 2 * 32) = arenaSize size - 64 := by
    rw [i32_of_range (by omega) (by omega)]; omega
  have e4 : u32 (arenaSize size - 64) = arenaSize size - 64 :=
    u32_of_range (by omega) (by omega)
  have raw : uffs_InitHeapMemory addr size h =
      { mem := store (store (store (store (store (store (store (store (store (store (store h.mem (arenaBase addr + 4) 32) (arenaBase addr) HEAP_NODE_ALLOCED) (arenaBase addr + 8) 0) (u32 (arenaBase addr + arenaSize size - 32)) HEAP_NODE_ALLOCED) (u32 (arenaBase addr + arenaSize size - 32) + 4) (-1)) (u32 (arenaBase addr + arenaSize size - 32) + 8) (u32 (arenaBase addr + 32))) (u32 (arenaBase addr + 32)) HEAP_NODE_FREE) (u32 (arenaBase addr + 32) + 8) (arenaBase addr)) (u32 (arenaBase addr + 32) + 4) (i32 (arenaSize size - 2 * 32))) (u32 (arenaBase addr + 32) + 16) 0) (u32 (arenaBase addr + 32) + 12) 0
        _k_heapFreeList := u32 (arenaBase addr + 32)
        _k_heapTail_ := u32 (arenaBase addr + arenaSize size - 32)
        _k_heap_available := u32 ((store (store (store (store (store (store (store (store (store (store (store h.mem (arenaBase addr + 4) 32) (arenaBase addr) HEAP_NODE_ALLOCED) (arenaBase addr + 8) 0) (u32 (arenaBase addr + arenaSize size - 32)) HEAP_NODE_ALLOCED) (u32 (arenaBase addr + arenaSize size - 32) + 4) (-1)) (u32 (arenaBase addr + arenaSize size - 32) + 8) (u32 (arenaBase addr + 32))) (u32 (arenaBase addr + 32)) HEAP_NODE_FREE) (u32 (arenaBase addr + 32) + 8) (arenaBase addr)) (u32 (arenaBase addr + 32) + 4) (i32 (arenaSize size - 2 * 32))) (u32 (arenaBase addr + 32) + 16) 0) (u32 (arenaBase addr + 32) + 12) 0) (u32 (arenaBase addr + 32) + 4))
        _minimu_heap_avaiable := u32 ((store (store (store (store (store (store (store (store (store (store (store h.mem (arenaBase addr + 4) 32) (arenaBase addr) HEAP_NODE_ALLOCED) (arenaBase addr + 8) 0) (u32 (arenaBase addr + arenaSize size - 32)) HEAP_NODE_ALLOCED) (u32 (arenaBase addr + arenaSize size - 32) + 4) (-1)) (u32 (arenaBase addr + arenaSize size - 32) + 8) (u32 (arenaBase addr + 32))) (u32 (arenaBase addr + 32)) HEAP_NODE_FREE) (u32 (arenaBase addr + 32) + 8) (arenaBase addr)) (u32 (arenaBase addr + 32) + 4) (i32 (arenaSize size - 2 * 32))) (u32 (arenaBase addr + 32) + 16) 0) (u32 (arenaBase addr + 32) + 12) 0) (u32 (arenaBase addr + 32) + 4))
        _kernel_heap_total := u32 (h._kernel_heap_total + arenaSize size) } := by
    unfold uffs_InitHeapMemory
    simp only [if_neg hp']
    rfl
  rw [raw, e1, e2, e3]
  have e5 : store (store (store (store (store (store (store (store (store (store (store h.mem (arenaBase addr + 4) 32) (arenaBase addr) HEAP_NODE_ALLOCED) (arenaBase addr + 8) 0) (arenaBase addr + arenaSize size - 32) HEAP_NODE_ALLOCED) (arenaBase addr + arenaSize size - 32 + 4) (-1)) (arenaBase addr + arenaSize size - 32 + 8) (arenaBase addr + 32)) (arenaBase addr + 32) HEAP_NODE_FREE) (arenaBase addr + 32 + 8) (arenaBase addr)) (arenaBase addr + 32 + 4) (arenaSize size - 64)) (arenaBase addr + 32 + 16) 0) (arenaBase addr + 32 + 12) 0 (arenaBase addr + 32 + 4) = arenaSize size - 64 := by
    rw [store_ne _ _ (by omega), store_ne _ _ (by omega), store_same]
  rw [e5, e4]
  rfl

/-- A successful `uffs_InitHeapMemory` sets up the arena: one free node between the
sentinels. -/
theorem init_rep {addr size : Int} (h : Heap) (ok : InitOK addr size) :
    Rep (arenaBase addr) (arenaSize size) (uffs_InitHeapMemory addr size h)
      [⟨arenaBase addr + 32, arenaSize size - 64, true⟩] [arenaBase addr + 32] := by
  obtain ⟨f1, f2, f3, f4, f5⟩ := init_facts ok
  rw [uffs_InitHeapMemory_eq h ok]
  generalize arenaBase addr = B at *
  generalize arenaSize size = R at *
  have m0 : initMem h.mem B R B = HEAP_NODE_ALLOCED := by
    unfold initMem
    rw [store_ne _ _ (by omega), store_ne _ _ (by omega), store_ne _ _ (by omega),
      store_ne _ _ (by omega), store_ne _ _ (by omega), store_ne _ _ (by omega),
      store_ne _ _ (by omega), store_ne _ _ (by omega), store_ne _ _ (by omega), store_same]
  have m1 : initMem h.mem B R (B + 4) = 32 := by
    unfold initMem
    rw [store_ne _ _ (by omega), store_ne _ _ (by omega), store_ne _ _ (by omega),
      store_ne _ _ (by omega), store_ne _ _ (by omega), store_ne _ _ (by omega),
      store_ne _ _ (by omega), store_ne _ _ (by omega), store_ne _ _ (by omega),
      store_ne _ _ (by omega), store_same]
  have m2 : initMem h.mem B R (B + R - 32) = HEAP_NODE_ALLOCED := by
    unfold initMem
    rw [store_ne _ _ (by omega), store_ne _ _ (by omega), store_ne _ _ (by omega),
      store_ne _ _ (by omega), store_ne _ _ (by omega), store_ne _ _ (by omega),
      store_ne _ _ (by omega), store_same]
  have m3 : initMem h.mem B R (B + R - 32 + 4) = -1 := by
    unfold initMem
    rw [store_ne _ _ (by omega), store_ne _ _ (by omega), store_ne _ _ (by omega),
      store_ne _ _ (by omega), store_ne _ _ (by omega), store_ne _ _ (by omega), store_same]
  have m4 : initMem h.mem B R (B + R - 32 + 8) = B + 32 := by
    unfold initMem
    rw [store_ne _ _ (by omega), store_ne _ _ (by omega), store_ne _ _ (by omega),
      store_ne _ _ (by omega), store_ne _ _ (by omega), store_same]
  have m5 : initMem h.mem B R (B + 32) = HEAP_NODE_FREE := by
    unfold initMem
    rw [store_ne _ _ (by omega), store_ne _ _ (by omega), store_ne _ _ (by omega),
      store_ne _ _ (by omega), store_same]
  have m6 : initMem h.mem B R (B + 32 + 8) = B := by
    unfold initMem
    rw [store_ne _ _ (by omega), store_ne _ _ (by omega), store_ne _ _ (by omega), store_same]
  have m7 : initMem h.mem B R (B + 32 + 4) = R - 64 := by
    unfold initMem
    rw [store_ne _ _ (by omega), store_ne _ _ (by omega), store_same]
  have m8 : initMem h.mem B R (B + 32 + 16) = 0 := by
    unfold initMem
    rw [store_ne _ _ (by omega), store_same]
  have m9 : initMem h.mem B R (B + 32 + 12) = 0 := by
    unfold initMem
    rw [store_same]
  generalize initMem h.mem B R = M at *
  refine ⟨?_, ?_, ?_⟩
  · refine
      { base_pos := f1, top := f2, R_le := f3, tail := rfl, geom := ?_, hdr := ?_, link := ?_,
        flist := ?_, fl_mem := ?_, fl_nodup := List.nodup_singleton _ }
    · simp only [full, List.singleton_append, List.chain'_cons, List.chain'_singleton, and_true]
      refine ⟨⟨rfl, le_refl _, by norm_num⟩, ⟨?_, ?_, ?_⟩⟩
      · show B + R - 32 = B + 32 + (R - 64); omega
      · show 32 ≤ R - 64; omega
      · show (R - 64) % 32 = 0; omega
    · intro b hb
      simp only [full, List.singleton_append, List.mem_cons, List.not_mem_nil, or_false] at hb
      rcases hb with rfl | rfl | rfl
      · exact ⟨fun _ => m0, m1⟩
      · exact ⟨fun _ => m5, m7⟩
      · exact ⟨fun _ => m2, m3⟩
    · simp only [full, List.singleton_append, List.map_cons, List.map_nil, List.chain'_cons,
        List.chain'_singleton, and_true]
      exact ⟨m6, m4⟩
    · exact ⟨rfl, by omega, m9, m8⟩
    · intro a
      simp only [List.mem_singleton, exists_eq_left, true_and]
      constructor
      · intro e; subst e; exact ⟨rfl, by omega⟩
      · intro e; exact e.1.symm
  · unfold NoAdjFree; exact List.chain'_singleton _
  · simp [freeSum]

/-! ### The invariant along the calls -/

/-- The node behind a block that is handed out. -/
theorem Live.block {base R : Int} {h : Heap} {bs : List Blk} {fl : List Int} {L : List Int}
    (r : Rep base R h bs fl) (hl : Live bs L) {p : Int} (hp : p ∈ L) :
    ∃ pre N post, bs = pre ++ N :: post ∧ N.free = false ∧ p = N.addr + 12 := by
  obtain ⟨b, hb, hf, rfl⟩ := (hl.2 p).1 hp
  obtain ⟨pre, post, rfl⟩ := List.append_of_mem hb
  exact ⟨pre, b, post, rfl, hf, rfl⟩

/-- The blocks handed out, once the node `N` is given back. -/
theorem Live.erase {base R : Int} {pre post : List Blk} {N : Blk} {L : List Int} {bs' : List Blk}
    (hg : List.Chain' Adj (full base R (pre ++ N :: post)))
    (hl : Live (pre ++ N :: post) L) (hN : N.free = false)
    (hbs : ∀ b : Blk, b.free = false → (b ∈ bs' ↔ (b ∈ pre ∨ b ∈ post))) :
    Live bs' (L.erase (N.addr + 12)) := by
  obtain ⟨x1, x2, x3, x4, x5, x6, x7⟩ := geom_node hg
  refine ⟨hl.1.erase _, ?_⟩
  intro q
  rw [List.Nodup.mem_erase_iff hl.1, hl.2]
  constructor
  · rintro ⟨hne, b, hb, hf, rfl⟩
    simp only [List.mem_append, List.mem_cons] at hb
    rcases hb with hb | rfl | hb
    · exact ⟨b, (hbs b hf).2 (Or.inl hb), hf, rfl⟩
    · exact absurd rfl hne
    · exact ⟨b, (hbs b hf).2 (Or.inr hb), hf, rfl⟩
  · rintro ⟨b, hb, hf, rfl⟩
    rcases (hbs b hf).1 hb with hb | hb
    · have := x6 b hb
      exact ⟨by omega, b, by simp [hb], hf, rfl⟩
    · have := x7 b hb
      exact ⟨by omega, b, by simp [hb], hf, rfl⟩

/-- The blocks handed out, once a node at the address of the free node `F` is handed out. -/
theorem Live.insert {base R : Int} {pre post : List Blk} {F : Blk} {L : List Int}
    {bs' : List Blk} (s1 : Int)
    (hg : List.Chain' Adj (full base R (pre ++ F :: post)))
    (hl : Live (pre ++ F :: post) L) (hF : F.free = true)
    (hbs : ∀ b : Blk, b.free = false →
      (b ∈ bs' ↔ ((b ∈ pre ∨ b ∈ post) ∨ b = ⟨F.addr, s1, false⟩))) :
    Live bs' ((F.addr + 12) :: L) := by
  obtain ⟨x1, x2, x3, x4, x5, x6, x7⟩ := geom_node hg
  have hnot : F.addr + 12 ∉ L := by
    intro hm
    obtain ⟨b, hb, hf, e⟩ := (hl.2 _).1 hm
    simp only [List.mem_append, List.mem_cons] at hb
    rcases hb with hb | rfl | hb
    · have := x6 b hb; omega
    · rw [hF] at hf; simp at hf
    · have := x7 b hb; omega
  refine ⟨List.nodup_cons.2 ⟨hnot, hl.1⟩, ?_⟩
  intro q
  rw [List.mem_cons, hl.2]
  constructor
  · rintro (rfl | ⟨b, hb, hf, rfl⟩)
    · exact ⟨⟨F.addr, s1, false⟩, (hbs _ rfl).2 (Or.inr rfl), rfl, rfl⟩
    · simp only [List.mem_append, List.mem_cons] at hb
      rcases hb with hb | rfl | hb
      · exact ⟨b, (hbs b hf).2 (Or.inl (Or.inl hb)), hf, rfl⟩
      · rw [hF] at hf; simp at hf
      · exact ⟨b, (hbs b hf).2 (Or.inl (Or.inr hb)), hf, rfl⟩
  · rintro ⟨b, hb, hf, rfl⟩
    rcases (hbs b hf).1 hb with (hb | hb) | rfl
    · exact Or.inr ⟨b, by simp [hb], hf, rfl⟩
    · exact Or.inr ⟨b, by simp [hb], hf, rfl⟩
    · exact Or.inl rfl

/-- The `_kfree` of a block that is handed out succeeds and keeps the invariant. -/
theorem inv_kfree {base R : Int} {h : Heap} {L : List Int} {p : Int}
    (hI : Inv base R h L) (hp : p ∈ L) :
    (_kfree p h).1 = 0 ∧ Inv base R (_kfree p h).2 (L.erase p) := by
  obtain ⟨bs, fl, r, hl⟩ := hI
  obtain ⟨pre, N, post, rfl, hN, rfl⟩ := hl.block r hp
  obtain ⟨k1, k2, _⟩ := kfree_spec r hN
  rw [k1]
  exact ⟨rfl, _, _, k2, Live.erase r.rep.geom hl hN (fun b hb => freed_alloc_mem hb)⟩

/-- The outcome of `_kmalloc` on a heap that satisfies the invariant: either nothing fits
and the heap is unchanged, or the node the scan picked is handed out. -/
theorem kmalloc_cases {base R n : Int} {h : Heap} {bs : List Blk} {fl : List Int}
    (r : Rep base R h bs fl) (hn0 : 0 < n) :
    (_kmalloc n h = some (0, h) ∧ ∀ a ∈ fl, h.mem (a + 4) < adjustSize n) ∨
    (∃ pre F post, bs = pre ++ F :: post ∧ F.free = true ∧
      F.addr = pick h.mem (adjustSize n) fl 0 ∧ adjustSize n ≤ F.size ∧
      _kmalloc n h = some (_k_allock_node F.addr (adjustSize n) h)) := by
  rw [kmalloc_eq r.rep hn0]
  obtain ⟨p1, p2, p3⟩ := @pick_spec h.mem (adjustSize n) fl 0
    r.rep.fl_ne_zero (Or.inl rfl)
  by_cases c : pick h.mem (adjustSize n) fl 0 ≠ 0 ∧
      h.mem (pick h.mem (adjustSize n) fl 0 + 4) ≥ adjustSize n
  · rw [if_pos c]
    right
    have hmem : pick h.mem (adjustSize n) fl 0 ∈ fl := by
      rcases p1 with e | e
      · exact absurd e c.1
      · exact e
    obtain ⟨pre, F, post, rfl, hF, hFa, hFs⟩ := r.rep.block_of_fl hmem
    refine ⟨pre, F, post, rfl, hF, hFa, ?_, by rw [hFa]⟩
    rw [← hFs]; exact c.2
  · rw [if_neg c]
    left
    refine ⟨rfl, ?_⟩
    intro a ha
    by_contra hge
    have := p3 a (Or.inl ha) (by omega)
    exact c ⟨this.1, p2 this.1⟩

/-- The header words and the range of a node of the chain. -/
theorem Rep.node {base R : Int} {h : Heap} {pre post : List Blk} {x : Blk} {fl : List Int}
    (r : Rep base R h (pre ++ x :: post) fl) :
    h.mem x.addr = markOf x.free ∧ h.mem (x.addr + 4) = x.size ∧
      0 < x.addr ∧ x.addr + x.size ≤ 4294967268 ∧ 32 ≤ x.size ∧ x.size % 32 = 0 ∧
      x.size ≤ R - 64 := by
  obtain ⟨x1, x2, x3, x4, x5, x6, x7⟩ := geom_node r.rep.geom
  have hb := r.rep.base_pos
  have ht := r.rep.top
  have hh := r.rep.hdr x (mem_full (by simp))
  exact ⟨hh.1 (by omega), hh.2, by omega, by omega, x3, x4, by omega⟩

/-- Unfolding of `_krealloc` along its branches. -/
theorem _krealloc_eq (block size : Int) (h : Heap) :
    _krealloc block size h =
      if block = 0 then _kmalloc size h
      else if size = 0 then some (0, (_kfree block h).2)
      else if h.mem (u32 (block - 12)) ≠ HEAP_NODE_ALLOCED ∨
          i32 (h.mem (u32 (block - 12) + 4) - 12) ≤ 0 then some (0, h)
      else if i32 (h.mem (u32 (block - 12) + 4) - 12) < size then
        match _kmalloc size h with
        | none => none
        | some (p, h1) =>
          if p = 0 then some (0, h1)
          else some (p, (_kfree block { h1 with mem := memcpy h1.mem p block (i32 (h.mem (u32 (block - 12) + 4) - 12)) }).2)
      else if i32 (h.mem (u32 (block - 12) + 4) - adjustSize size) < 32 then some (block, h)
      else some (block, (_kfree (u32 (u32 (u32 (block - 12) + adjustSize size) + 12))
        (shrinkSplit (u32 (block - 12)) (adjustSize size) h)).2) := rfl

/-- The blocks handed out, when the node `N` is replaced by a node at the same address. -/
theorem Live.replace {base R : Int} {pre post : List Blk} {N : Blk} {L : List Int}
    {bs' : List Blk} (s1 : Int)
    (hg : List.Chain' Adj (full base R (pre ++ N :: post)))
    (hl : Live (pre ++ N :: post) L) (hN : N.free = false)
    (hbs : ∀ b : Blk, b.free = false →
      (b ∈ bs' ↔ ((b ∈ pre ∨ b ∈ post) ∨ b = ⟨N.addr, s1, false⟩))) :
    Live bs' ((N.addr + 12) :: L.erase (N.addr + 12)) := by
  obtain ⟨x1, x2, x3, x4, x5, x6, x7⟩ := geom_node hg
  have hnot : N.addr + 12 ∉ L.erase (N.addr + 12) := by
    rw [List.Nodup.mem_erase_iff hl.1]
    exact fun hc => hc.1 rfl
  refine ⟨List.nodup_cons.2 ⟨hnot, hl.1.erase _⟩, ?_⟩
  intro q
  rw [List.mem_cons, List.Nodup.mem_erase_iff hl.1, hl.2]
  constructor
  · rintro (rfl | ⟨hne, b, hb, hf, rfl⟩)
    · exact ⟨⟨N.addr, s1, false⟩, (hbs _ rfl).2 (Or.inr rfl), rfl, rfl⟩
    · simp only [List.mem_append, List.mem_cons] at hb
      rcases hb with hb | rfl | hb
      · exact ⟨b, (hbs b hf).2 (Or.inl (Or.inl hb)), hf, rfl⟩
      · exact absurd rfl hne
      · exact ⟨b, (hbs b hf).2 (Or.inl (Or.inr hb)), hf, rfl⟩
  · rintro ⟨b, hb, hf, rfl⟩
    rcases (hbs b hf).1 hb with (hb | hb) | rfl
    · have := x6 b hb
      exact Or.inr ⟨by omega, b, by simp [hb], hf, rfl⟩
    · have := x7 b hb
      exact Or.inr ⟨by omega, b, by simp [hb], hf, rfl⟩
    · exact Or.inl rfl

/-- A successful `_kmalloc` on a heap that satisfies the invariant: the node handed out and
the new representation. -/
theorem kmalloc_alloc {base R n : Int} {h : Heap} {pre post : List Blk} {F : Blk}
    {fl L : List Int} (r : Rep base R h (pre ++ F :: post) fl) (hl : Live (pre ++ F :: post) L)
    (hF : F.free = true) (hn0 : 0 < n) (hn : n ≤ 2147483604) (hfit : adjustSize n ≤ F.size) :
    (_k_allock_node F.addr (adjustSize n) h).1 = F.addr + 12 ∧
      Rep base R (_k_allock_node F.addr (adjustSize n) h).2
        (allocList pre F post (adjustSize n)) (allocFl fl F (adjustSize n)) ∧
      Live (allocList pre F post (adjustSize n)) ((F.addr + 12) :: L) ∧
      (_k_allock_node F.addr (adjustSize n) h).2._k_heap_available =
        h._k_heap_available - (if adjustSize n + 32 ≤ F.size then adjustSize n else F.size) := by
  obtain ⟨a1, a2, a3, a4⟩ := adjustSize_spec hn0 hn
  obtain ⟨k1, k2, k3, k4⟩ := k_allock_node_spec r hF a1 a2 hfit
  exact ⟨k1, k2, Live.insert _ r.rep.geom hl hF (fun b hb => alloc_alloc_mem _ hF hb), k3⟩

/-- The routine `_kmalloc` returns and keeps the invariant; a block it hands out joins the live ones. -/
theorem inv_kmalloc {base R n : Int} {h : Heap} {L : List Int}
    (hI : Inv base R h L) (hn : n ≤ 2147483604) :
    ∃ r, _kmalloc n h = some r ∧ Inv base R r.2 (if r.1 = 0 then L else r.1 :: L) := by
  by_cases hn0 : n ≤ 0
  · refine ⟨(0, h), ?_, ?_⟩
    · unfold _kmalloc; rw [if_pos hn0]
    · simpa using hI
  · obtain ⟨bs, fl, r, hl⟩ := hI
    rcases kmalloc_cases r (by omega : 0 < n) with ⟨e, _⟩ | ⟨pre, F, post, rfl, hF, _, hfit, e⟩
    · exact ⟨(0, h), e, by simpa using ⟨bs, fl, r, hl⟩⟩
    · obtain ⟨k1, k2, k3, _⟩ := kmalloc_alloc r hl hF (by omega) hn hfit
      refine ⟨_, e, ?_⟩
      have hne : (_k_allock_node F.addr (adjustSize n) h).1 ≠ 0 := by
        rw [k1]; have := (Rep.node r).2.2.1; omega
      rw [if_neg hne, k1]
      exact ⟨_, _, k2, k3⟩

/-- The split form of an allocation list around the node handed out. -/
theorem allocList_split (pre post : List Blk) (F : Blk) (sz : Int) :
    ∃ post', allocList pre F post sz =
      pre ++ ⟨F.addr, if sz + 32 ≤ F.size then sz else F.size, false⟩ :: post' := by
  unfold allocList
  split
  · exact ⟨_, rfl⟩
  · exact ⟨_, rfl⟩

/-- Representation after the in-place split of `_krealloc`. -/
theorem shrink_rep {base R sz : Int} {h : Heap} {pre post : List Blk} {N : Blk}
    {fl : List Int} (r : Rep base R h (pre ++ N :: post) fl) (hN : N.free = false)
    (hsz1 : 32 ≤ sz) (hsz2 : sz % 32 = 0) (hsz3 : sz + 32 ≤ N.size) :
    Rep base R (shrinkSplit N.addr sz h)
      ((pre ++ [⟨N.addr, sz, false⟩]) ++ ⟨N.addr + sz, N.size - sz, false⟩ :: post) fl := by
  have r1 := shrinkSplit_spec r.rep hsz1 hsz2 hsz3
  rw [hN] at r1
  have e : (pre ++ [(⟨N.addr, sz, false⟩ : Blk)]) ++ ⟨N.addr + sz, N.size - sz, false⟩ :: post =
      pre ++ ⟨N.addr, sz, false⟩ :: ⟨N.addr + sz, N.size - sz, false⟩ :: post := by simp
  rw [e]
  refine ⟨r1, ?_, ?_⟩
  · have hn := r.naf
    unfold NoAdjFree at hn ⊢
    rw [chain'_mid] at hn ⊢
    obtain ⟨c1, c2, c3, c4⟩ := hn
    refine ⟨c1, ?_, ?_, ?_⟩
    · rw [List.chain'_cons']
      exact ⟨fun b hb => by simp, c2⟩
    · intro a ha; simp
    · intro b hb; simp
  · have ha := r.avail
    have : (shrinkSplit N.addr sz h)._k_heap_available = h._k_heap_available := rfl
    rw [this, ha]
    simp only [freeSum_append, freeSum, hN]
    simp

/-- The `_krealloc` of a live block with a positive size returns and keeps the invariant. -/
theorem inv_krealloc {base R n p : Int} {h : Heap} {L : List Int}
    (hI : Inv base R h L) (hp : p ∈ L) (hn0 : 0 < n) (hn : n ≤ 2147483604) :
    ∃ r, _krealloc p n h = some r ∧
      Inv base R r.2 (if r.1 = 0 then L else r.1 :: L.erase p) := by
  obtain ⟨bs, fl, r, hl⟩ := hI
  obtain ⟨pre, N, post, rfl, hN, rfl⟩ := hl.block r hp
  obtain ⟨n1, n2, n3, n4, n5, n6, n7⟩ := Rep.node r
  have hu : u32 (N.addr + 12 - 12) = N.addr := by
    rw [show N.addr + 12 - 12 = N.addr by ring]; exact u32_of_range (by omega) (by omega)
  have hR := r.rep.R_le
  rw [_krealloc_eq, hu, n1, n2, hN]
  have hold : i32 (N.size - 12) = N.size - 12 := i32_of_range (by omega) (by omega)
  rw [if_neg (by omega : ¬ N.addr + 12 = 0), if_neg (by omega : ¬ n = 0), hold,
    if_neg (by simp [markOf, HEAP_NODE_ALLOCED]; omega)]
  by_cases hg : N.size - 12 < n
  · -- the block grows
    rw [if_pos hg]
    rcases kmalloc_cases r hn0 with ⟨e, _⟩ | ⟨pre', F, post', ebs, hF, _, hfit, e⟩
    · rw [e]
      exact ⟨(0, h), by simp, by simpa using ⟨_, fl, r, hl⟩⟩
    · rw [e]
      have r' := r
      have hl' := hl
      rw [ebs] at r' hl'
      obtain ⟨k1, k2, k3, _⟩ := kmalloc_alloc r' hl' hF hn0 hn hfit
      obtain ⟨a1, a2, a3, a4⟩ := adjustSize_spec hn0 hn
      have hFn := (Rep.node r').2.2.1
      obtain ⟨post'', el⟩ := allocList_split pre' post' F (adjustSize n)
      generalize _k_allock_node F.addr (adjustSize n) h = res at k1 k2 k3 ⊢
      obtain ⟨q, h1⟩ := res
      simp only at k1 k2 k3 ⊢
      subst k1
      rw [if_neg (by omega : ¬ F.addr + 12 = 0)]
      rw [el] at k2
      have k2' := Rep.payload_frame k2 rfl
        (memcpy h1.mem (F.addr + 12) (N.addr + 12) (N.size - 12))
        (by
          intro y hy
          unfold memcpy
          rw [if_neg]
          simp only at hy
          split at hy <;> omega)
      rw [← el] at k2'
      have hI2 : Inv base R _ ((F.addr + 12) :: L) := ⟨_, _, k2', k3⟩
      have hfin := (inv_kfree hI2 (List.mem_cons_of_mem _ hp)).2
      have hpne : F.addr + 12 ≠ N.addr + 12 := by
        intro hc
        have := k3.1
        rw [List.nodup_cons] at this
        rw [hc] at this
        exact this.1 hp
      rw [List.erase_cons_tail (by simpa using hpne)] at hfin
      refine ⟨_, rfl, ?_⟩
      simp only
      rw [if_neg (by omega : ¬ F.addr + 12 = 0)]
      exact hfin
  · -- the block shrinks or stays
    rw [if_neg hg]
    have hn' : n ≤ 2147483604 := by omega
    obtain ⟨a1, a2, a3, a4⟩ := adjustSize_spec hn0 hn'
    have hle : adjustSize n ≤ N.size := by omega
    have hi : i32 (N.size - adjustSize n) = N.size - adjustSize n :=
      i32_of_range (by omega) (by omega)
    rw [hi]
    by_cases hs : N.size - adjustSize n < 32
    · rw [if_pos hs]
      refine ⟨_, rfl, ?_⟩
      simp only
      rw [if_neg (by omega)]
      refine ⟨_, fl, r, Live.replace N.size r.rep.geom hl hN ?_⟩
      intro b hb
      have eN : (⟨N.addr, N.size, false⟩ : Blk) = N := by
        cases N; simp only at hN; subst hN; rfl
      rw [eN]
      simp only [List.mem_append, List.mem_cons]
      tauto
    · rw [if_neg hs]
      refine ⟨_, rfl, ?_⟩
      simp only
      rw [if_neg (by omega)]
      have r1 := shrink_rep r hN a1 a2 (by omega)
      have hu1 : u32 (N.addr + adjustSize n) = N.addr + adjustSize n :=
        u32_of_range (by omega) (by omega)
      have hu2 : u32 (N.addr + adjustSize n + 12) = N.addr + adjustSize n + 12 :=
        u32_of_range (by omega) (by omega)
      rw [hu1, hu2]
      obtain ⟨k1, k2, _⟩ := kfree_spec r1 rfl
      simp only at k1
      rw [k1]
      refine ⟨_, _, k2, Live.replace (adjustSize n) r.rep.geom hl hN ?_⟩
      intro b hb
      rw [freed_alloc_mem hb]
      simp only [List.mem_append, List.mem_singleton]
      tauto

/-! ### Reachable states -/

/-- A rejected `_kfree` leaves the state as it was. -/
theorem kfree_rejected (p : Int) (h : Heap) (hr : (_kfree p h).1 = -1) : (_kfree p h).2 = h := by
  rw [_kfree_eq] at hr ⊢
  split
  · rfl
  · split
    · rfl
    · rename_i h1 h2
      rw [if_neg h1, if_neg h2] at hr
      simp at hr

/-- Every reachable state satisfies the invariant. -/
theorem reach_inv {addr size : Int} {h0 h : Heap} {L : List Int} (ok : InitOK addr size)
    (hr : Reach addr size h0 h L) : Inv (arenaBase addr) (arenaSize size) h L := by
  induction hr with
  | init =>
    refine ⟨_, _, init_rep h0 ok, List.nodup_nil, ?_⟩
    intro p
    simp
  | malloc n r _ hn e ih =>
    obtain ⟨r', e', hI⟩ := inv_kmalloc ih hn
    rw [e] at e'
    cases e'
    exact hI
  | free p _ hp ih => exact (inv_kfree ih hp).2
  | free_rejected p _ hrej ih =>
    rw [kfree_rejected p _ hrej]
    exact ih
  | realloc p n r _ hp hn0 hn e ih =>
    obtain ⟨r', e', hI⟩ := inv_krealloc ih hp hn0 hn
    rw [e] at e'
    cases e'
    exact hI
  | realloc_null n r _ hn e ih =>
    rw [_krealloc_eq, if_pos rfl] at e
    obtain ⟨r', e', hI⟩ := inv_kmalloc ih hn
    rw [e] at e'
    cases e'
    exact hI
  | realloc_zero p r _ hp e ih =>
    have hp0 : p ≠ 0 := by
      obtain ⟨bs, fl, rr, hl⟩ := ih
      obtain ⟨pre, N, post, rfl, hN, rfl⟩ := hl.block rr hp
      have := (Rep.node rr).2.2.1
      omega
    rw [_krealloc_eq, if_neg hp0, if_pos rfl] at e
    cases e
    exact (inv_kfree ih hp).2
  | write p a v _ hp h1 h2 ih =>
    obtain ⟨bs, fl, rr, hl⟩ := ih
    obtain ⟨pre, N, post, rfl, hN, rfl⟩ := hl.block rr hp
    have n2 := (Rep.node rr).2.1
    rw [show N.addr + 12 - 8 = N.addr + 4 by ring, n2] at h2
    refine ⟨_, _, Rep.payload_frame rr hN _ ?_, hl⟩
    intro y hy
    unfold store
    rw [if_neg (by omega)]

/-! ### Observation of the heap through memory -/

/-- The walk along `nextFree` yields the free list. -/
theorem freeWalk_of_FL {m : Mem} : ∀ {l : List Int} {fuel : Nat} {prev cur : Int},
    FL m prev cur l → l.length < fuel → freeWalk m fuel cur = some l := by
  intro l
  induction l with
  | nil =>
    intro fuel prev cur hfl hlen
    cases fuel with
    | zero => simp at hlen
    | succ f =>
      simp only [FL] at hfl
      simp [freeWalk, hfl]
  | cons a rest ih =>
    intro fuel prev cur hfl hlen
    cases fuel with
    | zero => simp at hlen
    | succ f =>
      simp only [FL] at hfl
      obtain ⟨rfl, hne, _, hrest⟩ := hfl
      simp only [freeWalk, if_neg hne]
      rw [ih hrest (by simpa using hlen)]
      rfl

/-- The free list of a heap that satisfies the invariant, read from memory. -/
theorem Rep.freeNodes_eq {base R : Int} {h : Heap} {bs : List Blk} {fl : List Int}
    (r : Rep base R h bs fl) : freeNodes h = some fl :=
  freeWalk_of_FL r.rep.flist (length_lt_fuel r.rep.fl_nodup (Rep.fl_range r.rep))

/-- The walk over the nodes yields the chain. -/
theorem physWalk_of_chain {m : Mem} {T : Blk} : ∀ {bs : List Blk} {fuel : Nat} {a : Int},
    List.Chain' Adj (bs ++ [T]) → ((bs ++ [T]).map (·.addr)).head? = some a →
    (∀ b ∈ bs, m (b.addr + 4) = b.size ∧ b.addr < T.addr ∧ 0 ≤ b.addr ∧
      b.addr + b.size < 4294967296) →
    bs.length < fuel → physWalk m T.addr fuel a = some (bs.map (·.addr)) := by
  intro bs
  induction bs with
  | nil =>
    intro fuel a hc ha hb hlen
    cases fuel with
    | zero => simp at hlen
    | succ f =>
      simp only [List.nil_append, List.map_cons, List.map_nil, List.head?_cons,
        Option.some.injEq] at ha
      simp [physWalk, ha]
  | cons x rest ih =>
    intro fuel a hc ha hb hlen
    cases fuel with
    | zero => simp at hlen
    | succ f =>
      simp only [List.cons_append, List.map_cons, List.head?_cons, Option.some.injEq] at ha
      subst ha
      obtain ⟨h1, h2, h3, h4⟩ := hb x (List.mem_cons_self _ _)
      rw [List.cons_append, List.chain'_cons'] at hc
      obtain ⟨hadj, hc'⟩ := hc
      have hx : 32 ≤ x.size := by
        cases hrt : (rest ++ [T]) with
        | nil => simp at hrt
        | cons y ys =>
          have := hadj y (by rw [hrt]; simp)
          exact this.2.1
      simp only [physWalk, if_neg (by omega : ¬ x.addr = T.addr), h1,
        if_neg (by omega : ¬ x.size ≤ 0)]
      rw [u32_of_range (by omega) (by omega)]
      rw [ih hc' ?_ (fun b hb' => hb b (List.mem_cons_of_mem _ hb')) (by simpa using hlen)]
      · rfl
      · cases hrt : (rest ++ [T]) with
        | nil => simp at hrt
        | cons y ys =>
          have := hadj y (by rw [hrt]; simp)
          simp [this.1]

/-- A chain of nodes of at least a page each is no longer than its bytes. -/
theorem length_le_sums : ∀ l : List Blk, (∀ b ∈ l, 32 ≤ b.size) →
    32 * (l.length : Int) ≤ freeSum l + allocSum l
  | [], _ => by simp [freeSum, allocSum]
  | b :: l, h => by
    have := length_le_sums l (fun c hc => h c (List.mem_cons_of_mem _ hc))
    have hb := h b (List.mem_cons_self _ _)
    simp only [freeSum, allocSum, List.length_cons, Nat.cast_add, Nat.cast_one]
    split <;> omega

/-- The nodes between the sentinels of a heap that satisfies the invariant. -/
theorem Rep.physNodes_eq {base R : Int} {h : Heap} {bs : List Blk} {fl : List Int}
    (r : Rep base R h bs fl) : physNodes base h = some (bs.map (·.addr)) := by
  unfold Uffs.physNodes
  rw [r.rep.tail]
  have hg := r.rep.geom
  unfold full at hg
  rw [List.chain'_cons'] at hg
  have hlen : bs.length < FUEL := by
    have h1 := length_le_sums bs (geom_size r.rep.geom)
    have h2 := r.rep.sums
    have h3 := r.rep.R_le
    unfold FUEL
    omega
  have hb := r.rep.base_pos
  have ht := r.rep.top
  refine @physWalk_of_chain h.mem ⟨base + R - 32, -1, false⟩ bs FUEL (base + 32) hg.2 ?_ ?_ hlen
  · cases hrt : (bs ++ [(⟨base + R - 32, -1, false⟩ : Blk)]) with
    | nil => simp at hrt
    | cons y ys =>
      have := hg.1 y (by rw [hrt]; simp)
      simp [this.1]
  · intro b hb'
    obtain ⟨pre, post, rfl⟩ := List.append_of_mem hb'
    obtain ⟨x1, x2, x3, x4, x5, x6, x7⟩ := geom_node r.rep.geom
    have := (r.rep.hdr b (mem_full hb')).2
    exact ⟨this, by simp only; omega, by omega, by omega⟩

/-- The bytes of the allocated nodes, read from memory. -/
theorem allocBytes_eq {m : Mem} : ∀ l : List Blk,
    (∀ b ∈ l, m b.addr = markOf b.free ∧ m (b.addr + 4) = b.size) →
    allocBytes m (l.map (·.addr)) = allocSum l
  | [], _ => by simp [allocBytes, allocSum]
  | b :: l, h => by
    have ih := allocBytes_eq l (fun c hc => h c (List.mem_cons_of_mem _ hc))
    obtain ⟨h1, h2⟩ := h b (List.mem_cons_self _ _)
    unfold allocBytes at ih ⊢
    simp only [List.map_cons, List.sum_cons, allocSum, ih, h1, h2, markOf_eq_alloced]
    cases b.free <;> simp

/-- The header words of every node of a heap that satisfies the invariant. -/
theorem Rep.hdrs {base R : Int} {h : Heap} {bs : List Blk} {fl : List Int}
    (r : Rep base R h bs fl) :
    ∀ b ∈ bs, h.mem b.addr = markOf b.free ∧ h.mem (b.addr + 4) = b.size := by
  intro b hb
  obtain ⟨pre, post, rfl⟩ := List.append_of_mem hb
  exact ⟨(Rep.node r).1, (Rep.node r).2.1⟩

/-- Conservation holds in a heap that satisfies the invariant. -/
theorem Rep.conserved {base R : Int} {h : Heap} {bs : List Blk} {fl : List Int}
    (r : Rep base R h bs fl) : Conserved base R h := by
  refine ⟨_, r.physNodes_eq, ?_⟩
  rw [allocBytes_eq bs r.hdrs, r.avail]
  exact r.rep.sums.1

/-- No two adjacent nodes are free in a heap that satisfies the invariant. -/
theorem Rep.noAdjacentFree {base R : Int} {h : Heap} {bs : List Blk} {fl : List Int}
    (r : Rep base R h bs fl) : NoAdjacentFree base h := by
  refine ⟨_, r.physNodes_eq, ?_⟩
  intro a ha
  rw [List.mem_map] at ha
  obtain ⟨x, hx, rfl⟩ := ha
  obtain ⟨pre, post, rfl⟩ := List.append_of_mem hx
  obtain ⟨n1, n2, n3, n4, n5, n6, n7⟩ := Rep.node r
  rw [n1, n2, u32_of_range (by omega) (by omega), markOf_eq_free]
  rintro ⟨hxf, hnx⟩
  have hg := r.rep.geom
  rw [full_split, List.chain'_split] at hg
  have hg2 := hg.2
  have hb := r.rep.base_pos
  cases post with
  | nil =>
    simp only [List.nil_append, List.chain'_cons, List.chain'_singleton, and_true] at hg2
    have hm := (r.rep.hdr ⟨base + R - 32, -1, false⟩ (by simp [full])).1
      (by simp only; omega)
    simp only at hm
    have e : x.addr + x.size = base + R - 32 := hg2.1.symm
    rw [e, hm] at hnx
    simp [markOf, HEAP_NODE_FREE, HEAP_NODE_ALLOCED] at hnx
  | cons y post' =>
    rw [List.cons_append, List.chain'_cons] at hg2
    have e : x.addr + x.size = y.addr := hg2.1.1.symm
    have hy := (r.hdrs y (by simp)).1
    rw [e, hy, markOf_eq_free] at hnx
    have hn := r.naf
    unfold NoAdjFree at hn
    rw [chain'_mid] at hn
    exact hn.2.2.2 y (by simp) ⟨hxf, hnx⟩

/-! ### Concrete runs -/

/-- An option that is `some` is `some` of its value. -/
theorem some_getD {α : Type} (o : Option α) (d : α) (h : o.isSome = true) :
    o = some (o.getD d) := by
  cases o with
  | none => simp at h
  | some x => rfl

/-- Change of the list of live blocks along an equation. -/
theorem Reach.cast {addr size : Int} {h0 h : Heap} {L L' : List Int}
    (r : Reach addr size h0 h L) (e : L = L') : Reach addr size h0 h L' := e ▸ r

/-- The region of the concrete runs is registered with success. -/
theorem initOK_A : InitOK 4092 160 := ⟨by decide, by decide, by decide, by decide⟩

/-- The run A is a run of calls that respect the interface. -/
theorem reach_runA2 : Reach 4092 160 bootHeap runA2.2 [4172, 4140] :=
  ((Reach.malloc 1 runA1 Reach.init (by decide) (some_getD _ _ (by decide))).cast
    (by decide : (if runA1.1 = 0 then [] else runA1.1 :: []) = [4140])
    |>.malloc 1 runA2 (by decide) (some_getD _ _ (by decide))).cast
    (by decide : (if runA2.1 = 0 then [4140] else runA2.1 :: [4140]) = [4172, 4140])

/-- The run A up to the release of the first block. -/
theorem reach_runA3 : Reach 4092 160 bootHeap runA3 [4172] :=
  (Reach.free 4140 reach_runA2 (by decide)).cast (by decide)

/-- Claim C1 (conservation, for calls that respect the interface).  In every state reached
from a successful `uffs_InitHeapMemory` by `_kmalloc`, `_kfree` and `_krealloc` calls in which
every pointer passed in is a block handed out and not yet given back (or the `_kfree` is
rejected) and every requested size has an adjusted size that fits an `int`, the nodes
between the sentinels can be walked, and `_k_heap_available` plus the sizes of the nodes
marked allocated equals the rounded arena size minus the two sentinel pages, which is the
size of the initial free node. -/
theorem conservation_valid_calls {addr size : Int} {h0 h : Heap} {L : List Int}
    (ok : InitOK addr size) (hr : Reach addr size h0 h L) :
    Conserved (arenaBase addr) (arenaSize size) h ∧
      (uffs_InitHeapMemory addr size h0).mem (arenaBase addr + 32 + 4) = arenaSize size - 64 := by
  obtain ⟨bs, fl, r, _⟩ := reach_inv ok hr
  refine ⟨r.conserved, ?_⟩
  have r0 := init_rep h0 ok
  exact (r0.hdrs _ (List.mem_singleton.2 rfl)).2

/-- Conservation in the run A after two allocations and one release. -/
theorem conservation_valid_calls_witness :
    InitOK 4092 160 ∧ Reach 4092 160 bootHeap runA3 [4172] ∧
      (Conserved (arenaBase 4092) (arenaSize 160) runA3 ∧
        (uffs_InitHeapMemory 4092 160 bootHeap).mem (arenaBase 4092 + 32 + 4) =
          arenaSize 160 - 64) :=
  ⟨initOK_A, reach_runA3, conservation_valid_calls initOK_A reach_runA3⟩

/-- Claim C1 as stated fails.  A `_kfree` on an address that was never handed out, where
memory reads as an allocated header, is accepted: `_k_heap_available` becomes 128 in an
arena whose nodes hold 96 bytes, none of them allocated. -/
theorem conservation_any_calls_counterexample :
    InitOK 4092 160 ∧ ReachAny 4092 160 strayHeap runStray ∧
      ¬ Conserved (arenaBase 4092) (arenaSize 160) runStray := by
  refine ⟨initOK_A, ReachAny.free 4172 ReachAny.init, ?_⟩
  rintro ⟨l, h1, h2⟩
  have e : physNodes (arenaBase 4092) runStray = some [4128] := by decide
  rw [e] at h1
  cases h1
  revert h2
  decide

/-- Claim C2 (no adjacent free nodes, for calls that respect the interface).  In every state
reached from a successful `uffs_InitHeapMemory` by `_kmalloc`, `_kfree` and `_krealloc` calls
in which every pointer passed in is a block handed out and not yet given back (or the
`_kfree` is rejected) and every requested size has an adjusted size that fits an `int`, the
nodes between the sentinels can be walked and none of them is marked free together with the
node that starts at its address plus its size. -/
theorem no_adjacent_free_valid_calls {addr size : Int} {h0 h : Heap} {L : List Int}
    (ok : InitOK addr size) (hr : Reach addr size h0 h L) :
    NoAdjacentFree (arenaBase addr) h := by
  obtain ⟨bs, fl, r, _⟩ := reach_inv ok hr
  exact r.noAdjacentFree

/-- No adjacent free nodes in the run A after two allocations and one release. -/
theorem no_adjacent_free_valid_calls_witness :
    InitOK 4092 160 ∧ Reach 4092 160 bootHeap runA3 [4172] ∧
      NoAdjacentFree (arenaBase 4092) runA3 :=
  ⟨initOK_A, reach_runA3, no_adjacent_free_valid_calls initOK_A reach_runA3⟩

/-- Claim C2 as stated fails.  After the release of a block of 64 bytes at `4128`, a `_kfree`
on an address inside it, where memory reads as an allocated header of 32 bytes, is accepted
and grows the free node at `4128` to 96 bytes over the allocated node at `4192`: the free
node at `4128` then ends at the free node at `4224`. -/
theorem no_adjacent_free_any_calls_counterexample :
    InitOK 4092 192 ∧ ReachAny 4092 192 strayHeap2 runB3 ∧
      ¬ NoAdjacentFree (arenaBase 4092) runB3 := by
  refine ⟨⟨by decide, by decide, by decide, by decide⟩, ?_, ?_⟩
  · exact ReachAny.free 4172 (ReachAny.free 4140
      (ReachAny.malloc 1 runB2 (ReachAny.malloc 40 runB1 ReachAny.init
        (some_getD _ _ (by decide))) (some_getD _ _ (by decide))))
  · rintro ⟨l, h1, h2⟩
    have e : physNodes (arenaBase 4092) runB3 = some [4128, 4224] := by decide
    rw [e] at h1
    cases h1
    exact h2 4128 (by decide) (by decide)

/-! ### Best fit and failing allocations -/

/-- Without overflow the routine computes the adjusted size of the specification. -/
theorem adjustSize_eq_spec {n : Int} (h0 : 0 < n) (h1 : n ≤ 2147483604) :
    adjustSize n = specAdjusted n := by
  obtain ⟨a1, a2, a3, a4⟩ := adjustSize_spec h0 h1
  unfold specAdjusted
  split <;> omega

/-- The adjusted size of the specification is at least the request plus the header. -/
theorem specAdjusted_ge (n : Int) : n + 12 ≤ specAdjusted n := by
  unfold specAdjusted
  split <;> omega

/-- The scan keeps its candidate when no node of the walk fits. -/
theorem bestFit_no_fit {m : Mem} {s : Int} : ∀ (fuel : Nat) (a fit : Int) (l : List Int),
    freeWalk m fuel a = some l → (∀ x ∈ l, m (x + 4) < s) → bestFit m s fuel a fit = some fit := by
  intro fuel
  induction fuel with
  | zero => intro a fit l hw; simp [freeWalk] at hw
  | succ f ih =>
    intro a fit l hw hl
    unfold freeWalk at hw
    unfold bestFit
    by_cases ha : a = 0
    · rw [if_pos ha]
    · rw [if_neg ha] at hw ⊢
      cases hrest : freeWalk m f (m (a + 16)) with
      | none => rw [hrest] at hw; simp at hw
      | some l' =>
        rw [hrest] at hw
        simp only [Option.map_some', Option.some.injEq] at hw
        subst hw
        have hlt := hl a (List.mem_cons_self _ _)
        rw [if_neg (by omega)]
        exact ih _ _ l' hrest (fun x hx => hl x (List.mem_cons_of_mem _ hx))

/-- The region of the run W is registered with success. -/
theorem initOK_W : InitOK 4092 352 := ⟨by decide, by decide, by decide, by decide⟩

/-- The first three allocations of the run W. -/
theorem reach_runW3 : Reach 4092 352 bootHeap runW3.2 [4204, 4172, 4140] :=
  (((Reach.malloc 1 runW1 Reach.init (by decide) (some_getD _ _ (by decide))).cast
    (by decide : (if runW1.1 = 0 then [] else runW1.1 :: []) = [4140])
    |>.malloc 1 runW2 (by decide) (some_getD _ _ (by decide))).cast
    (by decide : (if runW2.1 = 0 then [4140] else runW2.1 :: [4140]) = [4172, 4140])
    |>.malloc 40 runW3 (by decide) (some_getD _ _ (by decide))).cast
    (by decide : (if runW3.1 = 0 then [4172, 4140] else runW3.1 :: [4172, 4140]) =
      [4204, 4172, 4140])

/-- The six allocations of the run W. -/
theorem reach_runW6 :
    Reach 4092 352 bootHeap runW6.2 [4396, 4300, 4268, 4204, 4172, 4140] :=
  (((Reach.malloc 1 runW4 reach_runW3 (by decide) (some_getD _ _ (by decide))).cast
    (by decide : (if runW4.1 = 0 then [4204, 4172, 4140] else runW4.1 :: [4204, 4172, 4140]) =
      [4268, 4204, 4172, 4140])
    |>.malloc 80 runW5 (by decide) (some_getD _ _ (by decide))).cast
    (by decide : (if runW5.1 = 0 then [4268, 4204, 4172, 4140]
      else runW5.1 :: [4268, 4204, 4172, 4140]) = [4300, 4268, 4204, 4172, 4140])
    |>.malloc 1 runW6 (by decide) (some_getD _ _ (by decide))).cast
    (by decide : (if runW6.1 = 0 then [4300, 4268, 4204, 4172, 4140]
      else runW6.1 :: [4300, 4268, 4204, 4172, 4140]) = [4396, 4300, 4268, 4204, 4172, 4140])

/-- The run W: six allocations, then the release of every other block. -/
theorem reach_runW9 : Reach 4092 352 bootHeap runW9 [4396, 4268, 4172] :=
  (((Reach.free 4140 reach_runW6 (by decide)).cast
    (by decide : ([4396, 4300, 4268, 4204, 4172, 4140] : List Int).erase 4140 =
      [4396, 4300, 4268, 4204, 4172])
    |>.free 4204 (by decide)).cast
    (by decide : ([4396, 4300, 4268, 4204, 4172] : List Int).erase 4204 =
      [4396, 4300, 4268, 4172])
    |>.free 4300 (by decide)).cast
    (by decide : ([4396, 4300, 4268, 4172] : List Int).erase 4300 = [4396, 4268, 4172])

/-- Claim C3 (double free), evaluated on the code.  In the run A the block `b = 4172` is live
and its physical predecessor at `4128` is free.  The first `_kfree(b)` returns 0; the second
`_kfree(b)` returns 0 as well instead of -1 and raises `_k_heap_available` from 96 to 128,
more than the 96 bytes of the arena. -/
theorem double_free_after_merge_accepted :
    Reach 4092 160 bootHeap runA3 [4172] ∧
      runA3.mem (runA3.mem (4172 - 12 + 8)) = HEAP_NODE_FREE ∧
      (_kfree 4172 runA3).1 = 0 ∧
      (_kfree 4172 runA3).2._k_heap_available = 96 ∧
      (_kfree 4172 (_kfree 4172 runA3).2).1 = 0 ∧
      (_kfree 4172 (_kfree 4172 runA3).2).2._k_heap_available = 128 :=
  ⟨reach_runA3, by decide, by decide, by decide, by decide, by decide⟩

/-- Claim C4 (best fit).  In a reachable state, for a request `n > 0` whose adjusted size
`s` (`n + 12` rounded up to a multiple of 32) is fitted by a node of the free list,
`_kmalloc n` returns the block of a free-list node, marks that node allocated, the node has
size at least `s`, no free-list node of size at least `s` is smaller, and when a free-list
node has size exactly `s` the node is the first such node in free-list order. -/
theorem best_fit_minimal {addr size n : Int} {h0 h : Heap} {L fl : List Int}
    (ok : InitOK addr size) (hr : Reach addr size h0 h L) (hn : 0 < n)
    (hfl : freeNodes h = some fl) (hfit : ∃ a ∈ fl, specAdjusted n ≤ h.mem (a + 4)) :
    ∃ p h', _kmalloc n h = some (p, h') ∧ p ≠ 0 ∧ p - 12 ∈ fl ∧
      h'.mem (p - 12) = HEAP_NODE_ALLOCED ∧
      specAdjusted n ≤ h.mem (p - 12 + 4) ∧
      (∀ a ∈ fl, specAdjusted n ≤ h.mem (a + 4) → h.mem (p - 12 + 4) ≤ h.mem (a + 4)) ∧
      (∀ l1 a l2, fl = l1 ++ a :: l2 → h.mem (a + 4) = specAdjusted n →
        (∀ b ∈ l1, h.mem (b + 4) ≠ specAdjusted n) → p - 12 = a) := by
  obtain ⟨bs, fl', r, hl⟩ := reach_inv ok hr
  have e := r.freeNodes_eq
  rw [hfl] at e
  cases e
  obtain ⟨a, ha, hsa⟩ := hfit
  -- the request does not overflow, since a node of the arena fits it
  have hn1 : n ≤ 2147483604 := by
    obtain ⟨pre, F, post, rfl, hF, hFa, hFs⟩ := r.rep.block_of_fl ha
    have := (Rep.node r).2.2.2.2.2.2
    have := r.rep.R_le
    have := specAdjusted_ge n
    omega
  have hs := adjustSize_eq_spec hn hn1
  rw [← hs] at hsa ⊢
  rcases kmalloc_cases r hn with ⟨_, hno⟩ | ⟨pre, F, post, rfl, hF, hpick, hfitF, e⟩
  · have := hno a ha
    omega
  · obtain ⟨k1, k2, k3, _⟩ := kmalloc_alloc r hl hF hn hn1 hfitF
    obtain ⟨post', el⟩ := allocList_split pre post F (adjustSize n)
    obtain ⟨p1, p2, p3⟩ := @pick_spec h.mem (adjustSize n) fl 0 r.rep.fl_ne_zero (Or.inl rfl)
    have hFn := Rep.node r
    have hFfl : F.addr ∈ fl := (r.rep.fl_mem F.addr).2 ⟨⟨F, by simp, hF, rfl⟩, by omega⟩
    refine ⟨F.addr + 12, (_k_allock_node F.addr (adjustSize n) h).2, ?_, by omega, ?_, ?_, ?_, ?_, ?_⟩
    · rw [e, ← k1]
    · rw [show F.addr + 12 - 12 = F.addr by ring]; exact hFfl
    · rw [show F.addr + 12 - 12 = F.addr by ring]
      rw [el] at k2
      exact (Rep.node k2).1
    · rw [show F.addr + 12 - 12 = F.addr by ring, hFn.2.1]; exact hfitF
    · intro b hb hsb
      rw [show F.addr + 12 - 12 = F.addr by ring, hpick]
      exact (p3 b (Or.inl hb) hsb).2
    · intro l1 b l2 efl hb hl1
      rw [show F.addr + 12 - 12 = F.addr by ring, hpick, efl]
      exact pick_exact l1 0 hb hl1

/-- The witness of the claim: with free nodes of 96, 64 and 32 bytes on the free list (in
this order) the request `n = 40`, whose adjusted size is 64, is served from the node of 64
bytes at `4192`. -/
theorem best_fit_minimal_witness :
    InitOK 4092 352 ∧ Reach 4092 352 bootHeap runW9 [4396, 4268, 4172] ∧ (0 : Int) < 40 ∧
      freeNodes runW9 = some [4288, 4192, 4128] ∧
      [4288, 4192, 4128].map (fun a => runW9.mem (a + 4)) = [96, 64, 32] ∧
      specAdjusted 40 = 64 ∧
      (_kmalloc 40 runW9).map Prod.fst = some (4192 + 12) ∧
      (∃ p h', _kmalloc 40 runW9 = some (p, h') ∧ p ≠ 0 ∧ p - 12 ∈ [4288, 4192, 4128] ∧
        h'.mem (p - 12) = HEAP_NODE_ALLOCED ∧
        specAdjusted 40 ≤ runW9.mem (p - 12 + 4) ∧
        (∀ a ∈ [4288, 4192, 4128], specAdjusted 40 ≤ runW9.mem (a + 4) →
          runW9.mem (p - 12 + 4) ≤ runW9.mem (a + 4)) ∧
        (∀ l1 a l2, [4288, 4192, 4128] = l1 ++ a :: l2 → runW9.mem (a + 4) = specAdjusted 40 →
          (∀ b ∈ l1, runW9.mem (b + 4) ≠ specAdjusted 40) → p - 12 = a)) :=
  ⟨initOK_W, reach_runW9, by decide, by decide, by decide, by decide, by decide,
    best_fit_minimal initOK_W reach_runW9 (by decide) (by decide)
      ⟨4192, by decide, by decide⟩⟩

/-- Claim C5 (allocate fails without effect).  `_kmalloc n` returns `NULL` and the unchanged
state when `n ≤ 0`, and also when the walk of the free list ends and no node on it has a
size of at least the adjusted size that the routine computes.  Conversely, in a reachable
state and for `n > 0`, when a free-list node has a size of at least the adjusted size
`_kmalloc n` returns a pointer that is not `NULL` (with or without overflow in the
adjustment). -/
theorem kmalloc_fails_without_effect :
    (∀ (h : Heap) (n : Int), n ≤ 0 → _kmalloc n h = some (0, h)) ∧
    (∀ (h : Heap) (n : Int) (fl : List Int), 0 < n → freeNodes h = some fl →
      (∀ a ∈ fl, h.mem (a + 4) < adjustSize n) → _kmalloc n h = some (0, h)) ∧
    (∀ (addr size n : Int) (h0 h : Heap) (L fl : List Int), InitOK addr size →
      Reach addr size h0 h L → 0 < n → freeNodes h = some fl →
      (∃ a ∈ fl, adjustSize n ≤ h.mem (a + 4)) →
      ∃ p h', _kmalloc n h = some (p, h') ∧ p ≠ 0) := by
  refine ⟨?_, ?_, ?_⟩
  · intro h n hn
    unfold _kmalloc
    rw [if_pos hn]
  · intro h n fl hn hfl hno
    unfold _kmalloc
    rw [if_neg (by omega)]
    rw [bestFit_no_fit FUEL _ 0 fl hfl hno]
    simp
  · intro addr size n h0 h L fl ok hr hn hfl ⟨a, ha, hsa⟩
    obtain ⟨bs, fl', r, hl⟩ := reach_inv ok hr
    have e := r.freeNodes_eq
    rw [hfl] at e
    cases e
    rcases kmalloc_cases r hn with ⟨_, hno⟩ | ⟨pre, F, post, rfl, hF, hpick, hfitF, e⟩
    · have := hno a ha
      omega
    · refine ⟨(_k_allock_node F.addr (adjustSize n) h).1,
        (_k_allock_node F.addr (adjustSize n) h).2, e, ?_⟩
      have hFn := Rep.node r
      have : (_k_allock_node F.addr (adjustSize n) h).1 = u32 (F.addr + 12) := rfl
      rw [this, u32_of_range (by omega) (by omega)]
      omega

/-- The three parts of C5 on the fresh arena of the run A: a request of `-5` bytes and a
request of 100 bytes (adjusted to 128, more than the 96 bytes of the free node) fail and
leave the state as it was; a request of 1 byte succeeds. -/
theorem kmalloc_fails_without_effect_witness :
    _kmalloc (-5) runA0 = some (0, runA0) ∧ _kmalloc 100 runA0 = some (0, runA0) ∧
      (∃ p h', _kmalloc 1 runA0 = some (p, h') ∧ p ≠ 0) :=
  ⟨kmalloc_fails_without_effect.1 runA0 (-5) (by decide),
    kmalloc_fails_without_effect.2.1 runA0 100 [4128] (by decide) (by decide) (by decide),
    kmalloc_fails_without_effect.2.2 4092 160 1 bootHeap runA0 [] [4128] initOK_A Reach.init
      (by decide) (by decide) ⟨4128, by decide, by decide⟩⟩

/-! ### Splitting, rejected releases, failing reallocation -/

/-- The node that follows a node of the chain points back to it. -/
theorem Rep.next_prev {base R : Int} {h : Heap} {pre post : List Blk} {x : Blk} {fl : List Int}
    (r : Rep base R h (pre ++ x :: post) fl) : h.mem (x.addr + x.size + 8) = x.addr := by
  have hg := r.rep.geom
  have hk := r.rep.link
  rw [full_split] at hg hk
  rw [List.chain'_split] at hg
  rw [List.map_append, List.map_cons, List.map_cons, List.chain'_split] at hk
  have hg2 := hg.2
  have hk2 := hk.2
  cases post with
  | nil =>
    simp only [List.nil_append, List.chain'_cons, List.map_cons] at hg2 hk2
    rw [← hg2.1.1]
    exact hk2.1
  | cons y post' =>
    simp only [List.cons_append, List.chain'_cons, List.map_cons] at hg2 hk2
    rw [← hg2.1.1]
    exact hk2.1

/-- The routine `_kmalloc` returns `NULL` and the unchanged state when the walk of the free list ends
and no node on it has the adjusted size. -/
theorem kmalloc_no_fit {h : Heap} {n : Int} {fl : List Int} (hn : 0 < n)
    (hfl : freeNodes h = some fl) (hno : ∀ a ∈ fl, h.mem (a + 4) < adjustSize n) :
    _kmalloc n h = some (0, h) := by
  unfold _kmalloc
  rw [if_neg (by omega)]
  rw [bestFit_no_fit FUEL _ 0 fl hfl hno]
  simp

/-- Claim C6 (split threshold).  Let `_kmalloc n`, `n > 0`, in a reachable state hand out the
block `p` of a free node of size `S` that fits the adjusted size `s` (`n + 12` rounded up
to a multiple of 32).  (a) When `S - s < 32` the node keeps its size `S` and is marked
allocated, the free list is the old one without the node and the chain of nodes is the old
one: no node is created.  (b) When `S - s ≥ 32` the node is marked allocated with size
exactly `s`, at its start plus `s` there is a node marked free of size `S - s`, the two sizes
sum to `S`, the new node is the head of the free list, in front of the old list without the
node handed out, it follows the node in the chain, its `prevNode` is the node, and the
`prevNode` of the node that starts at its end is the new node. -/
theorem split_threshold {addr size n p : Int} {h0 h h' : Heap} {L fl : List Int}
    (ok : InitOK addr size) (hr : Reach addr size h0 h L) (hn : 0 < n)
    (hfl : freeNodes h = some fl) (hm : _kmalloc n h = some (p, h')) (hp : p ≠ 0)
    (hS : specAdjusted n ≤ h.mem (p - 12 + 4)) :
    p - 12 ∈ fl ∧ h.mem (p - 12) = HEAP_NODE_FREE ∧
    (h.mem (p - 12 + 4) - specAdjusted n < 32 →
      h'.mem (p - 12) = HEAP_NODE_ALLOCED ∧ h'.mem (p - 12 + 4) = h.mem (p - 12 + 4) ∧
      freeNodes h' = some (fl.erase (p - 12)) ∧
      physNodes (arenaBase addr) h' = physNodes (arenaBase addr) h) ∧
    (32 ≤ h.mem (p - 12 + 4) - specAdjusted n →
      h'.mem (p - 12) = HEAP_NODE_ALLOCED ∧ h'.mem (p - 12 + 4) = specAdjusted n ∧
      h'.mem (p - 12 + specAdjusted n) = HEAP_NODE_FREE ∧
      h'.mem (p - 12 + specAdjusted n + 4) = h.mem (p - 12 + 4) - specAdjusted n ∧
      h'.mem (p - 12 + 4) + h'.mem (p - 12 + specAdjusted n + 4) = h.mem (p - 12 + 4) ∧
      freeNodes h' = some ((p - 12 + specAdjusted n) :: fl.erase (p - 12)) ∧
      h'.mem (p - 12 + specAdjusted n + 8) = p - 12 ∧
      h'.mem (p - 12 + h.mem (p - 12 + 4) + 8) = p - 12 + specAdjusted n ∧
      ∃ l1 l2, physNodes (arenaBase addr) h = some (l1 ++ (p - 12) :: l2) ∧
        physNodes (arenaBase addr) h' =
          some (l1 ++ (p - 12) :: (p - 12 + specAdjusted n) :: l2)) := by
  obtain ⟨bs, fl', r, hl⟩ := reach_inv ok hr
  have e := r.freeNodes_eq
  rw [hfl] at e
  cases e
  rcases kmalloc_cases r hn with ⟨e0, _⟩ | ⟨pre, F, post, rfl, hF, hpick, hfitF, e⟩
  · rw [hm] at e0
    cases e0
    exact absurd rfl hp
  · have hFn := Rep.node r
    have e1 : (_k_allock_node F.addr (adjustSize n) h).1 = u32 (F.addr + 12) := rfl
    rw [hm] at e
    have ep : p = F.addr + 12 := by
      have := congrArg (fun o => o.map Prod.fst) e
      simp only [Option.map_some', Option.some.injEq] at this
      rw [this, e1, u32_of_range (by omega) (by omega)]
    have eh : h' = (_k_allock_node F.addr (adjustSize n) h).2 := by
      have := congrArg (fun o => o.map Prod.snd) e
      simpa using this
    subst ep
    rw [show F.addr + 12 - 12 = F.addr by ring] at hS ⊢
    rw [hFn.2.1] at hS ⊢
    have hn1 : n ≤ 2147483604 := by
      have := r.rep.R_le
      have := specAdjusted_ge n
      omega
    have hs := adjustSize_eq_spec hn hn1
    obtain ⟨a1, a2, a3, a4⟩ := adjustSize_spec hn hn1
    obtain ⟨k1, k2, k3, _⟩ := kmalloc_alloc r hl hF hn hn1 hfitF
    rw [← eh] at k2
    rw [← hs]
    have hFfl : F.addr ∈ fl := (r.rep.fl_mem F.addr).2 ⟨⟨F, by simp, hF, rfl⟩, by omega⟩
    refine ⟨hFfl, by rw [hFn.1, hF]; rfl, ?_, ?_⟩
    · intro hlt
      have hc : ¬ adjustSize n + 32 ≤ F.size := by omega
      unfold allocList allocFl at k2
      rw [if_neg hc, if_neg hc] at k2
      have hk := Rep.node k2
      refine ⟨hk.1, hk.2.1, k2.freeNodes_eq, ?_⟩
      rw [k2.physNodes_eq, r.physNodes_eq]
      simp
    · intro hge
      have hc : adjustSize n + 32 ≤ F.size := by omega
      unfold allocList allocFl at k2
      rw [if_pos hc, if_pos hc] at k2
      have hk := Rep.node k2
      have k2' : Rep (arenaBase addr) (arenaSize size) h'
          ((pre ++ [⟨F.addr, adjustSize n, false⟩]) ++
            ⟨F.addr + adjustSize n, F.size - adjustSize n, true⟩ :: post)
          ((F.addr + adjustSize n) :: fl.erase F.addr) := by
        rw [List.append_assoc, List.singleton_append]; exact k2
      have hk' := Rep.node k2'
      have hnp := Rep.next_prev k2'
      have hpv := k2'.rep.prev_snoc
      simp only at hk hk' hnp hpv
      refine ⟨hk.1, hk.2.1, hk'.1, hk'.2.1, by rw [hk.2.1, hk'.2.1]; ring, k2.freeNodes_eq,
        hpv, ?_, pre.map (·.addr), post.map (·.addr), ?_, ?_⟩
      · rw [show F.addr + F.size + 8 = F.addr + adjustSize n + (F.size - adjustSize n) + 8 by
          ring]
        exact hnp
      · rw [r.physNodes_eq]; simp
      · rw [k2.physNodes_eq]; simp

/-- The split of C6 in the run A: the first `_kmalloc(1)` takes 32 bytes of the free node of
96 bytes at `4128` and leaves a free node of 64 bytes at `4160`. -/
theorem split_threshold_witness :
    InitOK 4092 160 ∧ Reach 4092 160 bootHeap runA0 [] ∧ (0 : Int) < 1 ∧
      freeNodes runA0 = some [4128] ∧ _kmalloc 1 runA0 = some (runA1.1, runA1.2) ∧
      runA1.1 ≠ 0 ∧ specAdjusted 1 ≤ runA0.mem (runA1.1 - 12 + 4) ∧
      runA1.2.mem (4128 + 32 + 4) = 64 ∧
      (runA1.1 - 12 ∈ [4128] ∧ runA0.mem (runA1.1 - 12) = HEAP_NODE_FREE ∧
      (runA0.mem (runA1.1 - 12 + 4) - specAdjusted 1 < 32 →
        runA1.2.mem (runA1.1 - 12) = HEAP_NODE_ALLOCED ∧
        runA1.2.mem (runA1.1 - 12 + 4) = runA0.mem (runA1.1 - 12 + 4) ∧
        freeNodes runA1.2 = some ([4128].erase (runA1.1 - 12)) ∧
        physNodes (arenaBase 4092) runA1.2 = physNodes (arenaBase 4092) runA0) ∧
      (32 ≤ runA0.mem (runA1.1 - 12 + 4) - specAdjusted 1 →
        runA1.2.mem (runA1.1 - 12) = HEAP_NODE_ALLOCED ∧
        runA1.2.mem (runA1.1 - 12 + 4) = specAdjusted 1 ∧
        runA1.2.mem (runA1.1 - 12 + specAdjusted 1) = HEAP_NODE_FREE ∧
        runA1.2.mem (runA1.1 - 12 + specAdjusted 1 + 4) =
          runA0.mem (runA1.1 - 12 + 4) - specAdjusted 1 ∧
        runA1.2.mem (runA1.1 - 12 + 4) + runA1.2.mem (runA1.1 - 12 + specAdjusted 1 + 4) =
          runA0.mem (runA1.1 - 12 + 4) ∧
        freeNodes runA1.2 = some ((runA1.1 - 12 + specAdjusted 1) :: [4128].erase (runA1.1 - 12)) ∧
        runA1.2.mem (runA1.1 - 12 + specAdjusted 1 + 8) = runA1.1 - 12 ∧
        runA1.2.mem (runA1.1 - 12 + runA0.mem (runA1.1 - 12 + 4) + 8) =
          runA1.1 - 12 + specAdjusted 1 ∧
        ∃ l1 l2, physNodes (arenaBase 4092) runA0 = some (l1 ++ (runA1.1 - 12) :: l2) ∧
          physNodes (arenaBase 4092) runA1.2 =
            some (l1 ++ (runA1.1 - 12) :: (runA1.1 - 12 + specAdjusted 1) :: l2))) :=
  ⟨initOK_A, Reach.init, by decide, by decide,
    some_getD (_kmalloc 1 runA0) (0, runA0) (by decide), by decide, by decide, by decide,
    split_threshold initOK_A Reach.init (by decide)
      (by decide : freeNodes runA0 = some [4128])
      (some_getD (_kmalloc 1 runA0) (0, runA0) (by decide) : _kmalloc 1 runA0 = some runA1)
      (by decide) (by decide)⟩

/-- Claim C7 (allocate/free round trip), evaluated on the code.  On the fresh arena of the
run A the request `n = 2147483647` has the adjusted size `-2147483616` after the overflow
of `n + 12`; `_kmalloc` returns the block `4140` of the node at `4128`, whose size field
then reads `-2147483616`, and the `_kfree` of that block that follows at once returns -1. -/
theorem round_trip_overflow_fails :
    Reach 4092 160 bootHeap runA0 [] ∧ adjustSize 2147483647 = -2147483616 ∧
      (_kmalloc 2147483647 runA0).map Prod.fst = some 4140 ∧
      (_kmalloc 2147483647 runA0).map (fun r => r.2.mem (4128 + 4)) = some (-2147483616) ∧
      (_kmalloc 2147483647 runA0).map (fun r => (_kfree r.1 r.2).1) = some (-1) :=
  ⟨Reach.init, by decide, by decide, by decide, by decide⟩

/-- Claim C8 (free rejects invalid input without effect).  `_kfree p` returns -1 exactly when
`p` is `NULL`, or the node at `p - 12` does not carry the mark `HEAP_NODE_ALLOCED`, or the
size of that node is at most 12; when it returns -1 the whole state (memory, free list,
counters) is unchanged; in all other cases it returns 0. -/
theorem kfree_rejects_invalid (h : Heap) (p : Int) :
    ((_kfree p h).1 = -1 ↔
      (p = 0 ∨ h.mem (u32 (p - 12)) ≠ HEAP_NODE_ALLOCED ∨ h.mem (u32 (p - 12) + 4) ≤ 12)) ∧
    ((_kfree p h).1 = -1 → (_kfree p h).2 = h) ∧
    ((_kfree p h).1 ≠ -1 → (_kfree p h).1 = 0) := by
  refine ⟨?_, kfree_rejected p h, ?_⟩
  · rw [_kfree_eq]
    by_cases h1 : p = 0
    · simp [h1]
    · by_cases h2 : h.mem (u32 (p - 12)) ≠ HEAP_NODE_ALLOCED ∨ h.mem (u32 (p - 12) + 4) ≤ 12
      · rw [if_neg h1, if_pos h2]
        simp only [true_iff]
        exact Or.inr h2
      · rw [if_neg h1, if_neg h2]
        simp only [h1, false_or]
        constructor
        · intro hc; simp at hc
        · intro hc; exact absurd hc h2
  · rw [_kfree_eq]
    split
    · simp
    · split
      · simp
      · simp

/-- Claim C10 (reallocate grow failure is atomic).  In a reachable state, for a block `p`
that is handed out and a new size `n` above its payload (node size minus 12), when no node
of the free list has the adjusted size that the routine computes for `n`, `_krealloc p n`
returns `NULL` and the unchanged state; the node of `p` carries the mark
`HEAP_NODE_ALLOCED`. -/
theorem krealloc_grow_failure_atomic {addr size n p : Int} {h0 h : Heap} {L fl : List Int}
    (ok : InitOK addr size) (hr : Reach addr size h0 h L) (hp : p ∈ L)
    (hgrow : h.mem (p - 12 + 4) - 12 < n) (hfl : freeNodes h = some fl)
    (hno : ∀ a ∈ fl, h.mem (a + 4) < adjustSize n) :
    _krealloc p n h = some (0, h) ∧ h.mem (p - 12) = HEAP_NODE_ALLOCED := by
  obtain ⟨bs, fl', r, hl⟩ := reach_inv ok hr
  obtain ⟨pre, N, post, rfl, hN, rfl⟩ := hl.block r hp
  obtain ⟨n1, n2, n3, n4, n5, n6, n7⟩ := Rep.node r
  have hR := r.rep.R_le
  have e12 : N.addr + 12 - 12 = N.addr := by ring
  rw [e12] at hgrow ⊢
  rw [n2] at hgrow
  have hu : u32 (N.addr + 12 - 12) = N.addr := by
    rw [e12]; exact u32_of_range (by omega) (by omega)
  have hold : i32 (N.size - 12) = N.size - 12 := i32_of_range (by omega) (by omega)
  have hmk : h.mem N.addr = HEAP_NODE_ALLOCED := by rw [n1, hN]; rfl
  refine ⟨?_, hmk⟩
  rw [_krealloc_eq, hu, n2, hold, if_neg (by omega : ¬ N.addr + 12 = 0),
    if_neg (by omega : ¬ n = 0), if_neg (by rw [hmk]; simp; omega), if_pos hgrow,
    kmalloc_no_fit (by omega) hfl hno]
  simp

/-- The failing growth of C10 in the run A: with the two free nodes of 32 bytes, growing
the block `4172` to 100 bytes (adjusted 128) fails and leaves the state as it was. -/
theorem krealloc_grow_failure_atomic_witness :
    InitOK 4092 160 ∧ Reach 4092 160 bootHeap runA3 [4172] ∧
      runA3.mem (4172 - 12 + 4) - 12 < 100 ∧ freeNodes runA3 = some [4128, 4192] ∧
      (∀ a ∈ ([4128, 4192] : List Int), runA3.mem (a + 4) < adjustSize 100) ∧
      (_krealloc 4172 100 runA3 = some (0, runA3) ∧
        runA3.mem (4172 - 12) = HEAP_NODE_ALLOCED) :=
  ⟨initOK_A, reach_runA3, by decide, by decide, by decide,
    krealloc_grow_failure_atomic initOK_A reach_runA3 (by decide) (by decide)
      (by decide : freeNodes runA3 = some [4128, 4192]) (by decide)⟩

/-! ### Coalescing on release -/

/-- The lower merge in terms of the words of memory. -/
theorem lo_shape {base R : Int} {h : Heap} {pre post : List Blk} {N : Blk} {fl : List Int}
    (r : Rep base R h (pre ++ N :: post) fl) :
    h.mem (N.addr + 8) = ((pre.map (·.addr)).getLast?).getD base ∧
    (mergeLo pre N).2.free = true ∧
    (mergeLo pre N).2.addr =
      (if h.mem (h.mem (N.addr + 8)) = HEAP_NODE_FREE then h.mem (N.addr + 8) else N.addr) ∧
    (mergeLo pre N).2.size = N.size +
      (if h.mem (h.mem (N.addr + 8)) = HEAP_NODE_FREE then h.mem (h.mem (N.addr + 8) + 4)
        else 0) ∧
    flLo fl pre =
      (if h.mem (h.mem (N.addr + 8)) = HEAP_NODE_FREE then fl.erase (h.mem (N.addr + 8))
        else fl) ∧
    (mergeLo pre N).1.map (·.addr) =
      (if h.mem (h.mem (N.addr + 8)) = HEAP_NODE_FREE then (pre.map (·.addr)).dropLast
        else pre.map (·.addr)) ∧
    (mergeLo pre N).2.addr < N.addr + N.size := by
  have hb := r.rep.base_pos
  have hnn := Rep.node r
  rcases nil_or_snoc pre with rfl | ⟨A, P, rfl⟩
  · have hp : h.mem (N.addr + 8) = base := r.rep.prev_nil
    have hm := (r.rep.hdr ⟨base, 32, false⟩ (by simp [full])).1 (by show base ≠ 0; omega)
    simp only at hm
    have hne : ¬ h.mem base = HEAP_NODE_FREE := by rw [hm]; decide
    rw [hp]
    simp only [if_neg hne]
    simp [mergeLo, flLo]
    omega
  · have hp : h.mem (N.addr + 8) = P.addr := r.rep.prev_snoc
    obtain ⟨hm, hs⟩ := r.hdrs P (by simp)
    have hadj : N.addr = P.addr + P.size := by
      have hg := r.rep.geom
      rw [List.append_assoc, List.singleton_append, full_split2] at hg
      exact (List.chain'_cons.1 (List.chain'_split.1 hg).2).1.1
    have hPs : 32 ≤ P.size := geom_size r.rep.geom P (by simp)
    simp only [hp, hm, hs, mergeLo_snoc, flLo_snoc]
    cases hP : P.free
    · simp [markOf, HEAP_NODE_FREE, HEAP_NODE_ALLOCED]
      omega
    · simp [markOf, HEAP_NODE_FREE, HEAP_NODE_ALLOCED, add_comm]
      omega

/-- The upper merge in terms of the words of memory. -/
theorem hi_shape {base R : Int} {h : Heap} {pre post : List Blk} {N : Blk} {fl : List Int}
    (r : Rep base R h (pre ++ N :: post) fl) (B : Blk) (fl' : List Int) :
    N.addr + N.size = ((post.map (·.addr)).head?).getD (base + R - 32) ∧
    (mergeHi B post).1.addr = B.addr ∧
    (B.free = true → (mergeHi B post).1.free = true) ∧
    (mergeHi B post).1.size = B.size +
      (if h.mem (N.addr + N.size) = HEAP_NODE_FREE then h.mem (N.addr + N.size + 4) else 0) ∧
    flHi fl' post =
      (if h.mem (N.addr + N.size) = HEAP_NODE_FREE then fl'.erase (N.addr + N.size) else fl') ∧
    (mergeHi B post).2.map (·.addr) =
      (if h.mem (N.addr + N.size) = HEAP_NODE_FREE then (post.map (·.addr)).tail
        else post.map (·.addr)) := by
  have hb := r.rep.base_pos
  have hg := r.rep.geom
  rw [full_split, List.chain'_split] at hg
  have hg2 := hg.2
  cases post with
  | nil =>
    simp only [List.nil_append, List.chain'_cons, List.chain'_singleton, and_true] at hg2
    have e : N.addr + N.size = base + R - 32 := hg2.1.symm
    have hnn := Rep.node r
    have hm := (r.rep.hdr ⟨base + R - 32, -1, false⟩ (by simp [full])).1
      (by simp only; omega)
    simp only at hm
    have hne : ¬ h.mem (base + R - 32) = HEAP_NODE_FREE := by rw [hm]; decide
    rw [e]
    simp only [if_neg hne]
    simp [mergeHi, flHi]
  | cons X post' =>
    rw [List.cons_append, List.chain'_cons] at hg2
    have e : N.addr + N.size = X.addr := hg2.1.1.symm
    obtain ⟨hm, hs⟩ := r.hdrs X (by simp)
    simp only [e, hm, hs]
    cases hX : X.free
    · simp [mergeHi, flHi, hX, markOf, HEAP_NODE_FREE, HEAP_NODE_ALLOCED]
    · simp [mergeHi, flHi, hX, markOf, HEAP_NODE_FREE, HEAP_NODE_ALLOCED]

/-- Claim C9 (free coalesces eagerly).  In a reachable state the `_kfree` of a block `p` that
is handed out, with node `N = p - 12` of size `s`, returns 0 and adds exactly `s` to
`_k_heap_available`.  The head of the free list is then a node marked free that starts at
the physical predecessor of `N` when that was marked free and at `N` otherwise, and whose
size is `s` plus the sizes of the predecessor and of the successor of `N`, each counted when
it was marked free.  The rest of the free list is the old list without these neighbours;
the merged node is not on it a second time and an absorbed successor is not on the new list.
The `prevNode` of the node that starts at the end of the merged span is the merged node, and
in the chain of nodes the span is the one node in place of `N` and the absorbed neighbours.
Here the predecessor of `N`, read from its `prevNode` field, is the node before `N` in the
chain (the head sentinel for the first node), and the successor is the node after it (the
tail sentinel for the last). -/
theorem kfree_coalesces {addr size p : Int} {h0 h : Heap} {L fl : List Int}
    (ok : InitOK addr size) (hr : Reach addr size h0 h L) (hp : p ∈ L)
    (hfl : freeNodes h = some fl) :
    (_kfree p h).1 = 0 ∧ h.mem (p - 12) = HEAP_NODE_ALLOCED ∧
    (_kfree p h).2._k_heap_available = h._k_heap_available + h.mem (p - 12 + 4) ∧
    (_kfree p h).2._k_heapFreeList = mergedStart h p ∧
    (_kfree p h).2.mem (mergedStart h p) = HEAP_NODE_FREE ∧
    (_kfree p h).2.mem (mergedStart h p + 4) = mergedSize h p ∧
    freeNodes (_kfree p h).2 = some (mergedStart h p :: restFree h p fl) ∧
    mergedStart h p ∉ restFree h p fl ∧
    (h.mem (physNext h p) = HEAP_NODE_FREE →
      physNext h p ∉ mergedStart h p :: restFree h p fl) ∧
    (_kfree p h).2.mem (mergedStart h p + mergedSize h p + 8) = mergedStart h p ∧
    ∃ l1 l2, physNodes (arenaBase addr) h = some (l1 ++ (p - 12) :: l2) ∧
      physPred h p = (l1.getLast?).getD (arenaBase addr) ∧
      physNext h p = (l2.head?).getD (arenaBase addr + arenaSize size - 32) ∧
      physNodes (arenaBase addr) (_kfree p h).2 =
        some ((if h.mem (physPred h p) = HEAP_NODE_FREE then l1.dropLast else l1) ++
          mergedStart h p ::
          (if h.mem (physNext h p) = HEAP_NODE_FREE then l2.tail else l2)) := by
  obtain ⟨bs, fl', r, hl⟩ := reach_inv ok hr
  have e := r.freeNodes_eq
  rw [hfl] at e
  cases e
  obtain ⟨pre, N, post, rfl, hN, rfl⟩ := hl.block r hp
  obtain ⟨n1, n2, n3, n4, n5, n6, n7⟩ := Rep.node r
  obtain ⟨k1, k2, k3, _⟩ := kfree_spec r hN
  obtain ⟨a1, a2, a3, a4, a5, a6, a7⟩ := lo_shape r
  obtain ⟨b1, b2, b3, b4, b5, b6⟩ := hi_shape r (mergeLo pre N).2 (flLo fl pre)
  have e12 : N.addr + 12 - 12 = N.addr := by ring
  unfold mergedStart mergedSize restFree physPred physNext
  rw [k1, e12, n2]
  simp only
  unfold freedList freedFl at k2
  have hk := Rep.node k2
  have hnp := Rep.next_prev k2
  have hfn := k2.freeNodes_eq
  have hph := k2.physNodes_eq
  have hhd := k2.rep.flist.1
  have hnd := k2.rep.fl_nodup
  rw [b2, b4, a3, a4] at hnp
  rw [b2, a3] at hk
  rw [a3, b5, a5] at hfn hnd
  rw [a3] at hhd
  rw [b4, a4] at hk
  have hfree : (mergeHi (mergeLo pre N).2 post).1.free = true := b3 a2
  rw [hfree] at hk
  rw [List.nodup_cons] at hnd
  rw [a3] at a7
  refine ⟨trivial, by rw [n1, hN]; rfl, k3, hhd, hk.1, hk.2.1, hfn, hnd.1, ?_, ?_, ?_⟩
  · intro hnf
    rw [if_pos hnf] at hnd ⊢
    rw [List.mem_cons, not_or]
    constructor
    · omega
    · have : (if h.mem (h.mem (N.addr + 8)) = HEAP_NODE_FREE
          then fl.erase (h.mem (N.addr + 8)) else fl).Nodup := by
        split
        · exact r.rep.fl_nodup.erase _
        · exact r.rep.fl_nodup
      rw [List.Nodup.mem_erase_iff this]
      exact fun hc => hc.1 rfl
  · exact hnp
  · refine ⟨pre.map (·.addr), post.map (·.addr), ?_, a1, b1, ?_⟩
    · rw [r.physNodes_eq]; simp
    · rw [hph, List.map_append, List.map_cons, a6, b6, b2, a3]

/-- The coalescing of C9 in the run A: the release of the block `4172`, whose node of 32
bytes at `4160` lies between the free nodes at `4128` and `4192`, leaves one free node of 96
bytes at `4128`. -/
theorem kfree_coalesces_witness :
    InitOK 4092 160 ∧ Reach 4092 160 bootHeap runA3 [4172] ∧ (4172 : Int) ∈ [(4172 : Int)] ∧
      freeNodes runA3 = some [4128, 4192] ∧
      mergedStart runA3 4172 = 4128 ∧ mergedSize runA3 4172 = 96 ∧
      restFree runA3 4172 [4128, 4192] = [] ∧
      ((_kfree 4172 runA3).1 = 0 ∧ runA3.mem (4172 - 12) = HEAP_NODE_ALLOCED ∧
      (_kfree 4172 runA3).2._k_heap_available =
        runA3._k_heap_available + runA3.mem (4172 - 12 + 4) ∧
      (_kfree 4172 runA3).2._k_heapFreeList = mergedStart runA3 4172 ∧
      (_kfree 4172 runA3).2.mem (mergedStart runA3 4172) = HEAP_NODE_FREE ∧
      (_kfree 4172 runA3).2.mem (mergedStart runA3 4172 + 4) = mergedSize runA3 4172 ∧
      freeNodes (_kfree 4172 runA3).2 =
        some (mergedStart runA3 4172 :: restFree runA3 4172 [4128, 4192]) ∧
      mergedStart runA3 4172 ∉ restFree runA3 4172 [4128, 4192] ∧
      (runA3.mem (physNext runA3 4172) = HEAP_NODE_FREE →
        physNext runA3 4172 ∉ mergedStart runA3 4172 :: restFree runA3 4172 [4128, 4192]) ∧
      (_kfree 4172 runA3).2.mem (mergedStart runA3 4172 + mergedSize runA3 4172 + 8) =
        mergedStart runA3 4172 ∧
      ∃ l1 l2, physNodes (arenaBase 4092) runA3 = some (l1 ++ (4172 - 12) :: l2) ∧
        physPred runA3 4172 = (l1.getLast?).getD (arenaBase 4092) ∧
        physNext runA3 4172 = (l2.head?).getD (arenaBase 4092 + arenaSize 160 - 32) ∧
        physNodes (arenaBase 4092) (_kfree 4172 runA3).2 =
          some ((if runA3.mem (physPred runA3 4172) = HEAP_NODE_FREE then l1.dropLast else l1) ++
            mergedStart runA3 4172 ::
            (if runA3.mem (physNext runA3 4172) = HEAP_NODE_FREE then l2.tail else l2))) :=
  ⟨initOK_A, reach_runA3, by decide, by decide, by decide, by decide, by decide,
    kfree_coalesces initOK_A reach_runA3 (by decide)
      (by decide : freeNodes runA3 = some [4128, 4192])⟩

/-! ### Shrinking in place -/

/-- Claim C11 (reallocate shrink).  In a reachable state, for a block `p` that is handed
out, with node `p - 12` of size `S`, and a new size `n` with `0 < n ≤ S - 12`, let `s` be
the adjusted size (`n + 12` rounded up to a multiple of 32).  When `S - s < 32` the call
`_krealloc p n` returns `p` and the unchanged state.  Otherwise it returns `p`, the node of
`p` stays marked allocated with size exactly `s`, `_k_heap_available` grows by exactly
`S - s`, and the head of the free list is a node marked free that starts at the end of the
shrunk node and whose size is `S - s` plus the size of the node that followed `p`'s node
when that was marked free; the rest of the free list is the old list without that
follower, and the `prevNode` of the new free node is the node of `p`. -/
theorem krealloc_shrink {addr size n p : Int} {h0 h : Heap} {L fl : List Int}
    (ok : InitOK addr size) (hr : Reach addr size h0 h L) (hp : p ∈ L)
    (hn0 : 0 < n) (hn : n ≤ h.mem (p - 12 + 4) - 12) (hfl : freeNodes h = some fl) :
    (h.mem (p - 12 + 4) - specAdjusted n < 32 → _krealloc p n h = some (p, h)) ∧
    (32 ≤ h.mem (p - 12 + 4) - specAdjusted n →
      ∃ h', _krealloc p n h = some (p, h') ∧
        h'.mem (p - 12) = HEAP_NODE_ALLOCED ∧ h'.mem (p - 12 + 4) = specAdjusted n ∧
        h'._k_heap_available = h._k_heap_available + (h.mem (p - 12 + 4) - specAdjusted n) ∧
        h'._k_heapFreeList = p - 12 + specAdjusted n ∧
        h'.mem (p - 12 + specAdjusted n) = HEAP_NODE_FREE ∧
        h'.mem (p - 12 + specAdjusted n + 4) = h.mem (p - 12 + 4) - specAdjusted n +
          (if h.mem (physNext h p) = HEAP_NODE_FREE then h.mem (physNext h p + 4) else 0) ∧
        h'.mem (p - 12 + specAdjusted n + 8) = p - 12 ∧
        freeNodes h' = some ((p - 12 + specAdjusted n) ::
          (if h.mem (physNext h p) = HEAP_NODE_FREE then fl.erase (physNext h p) else fl))) := by
  obtain ⟨bs, fl', r, hl⟩ := reach_inv ok hr
  have e := r.freeNodes_eq
  rw [hfl] at e
  cases e
  obtain ⟨pre, N, post, rfl, hN, rfl⟩ := hl.block r hp
  obtain ⟨n1, n2, n3, n4, n5, n6, n7⟩ := Rep.node r
  have hR := r.rep.R_le
  have e12 : N.addr + 12 - 12 = N.addr := by ring
  unfold physNext
  rw [e12] at hn ⊢
  rw [n2] at hn ⊢
  have hu : u32 (N.addr + 12 - 12) = N.addr := by
    rw [e12]; exact u32_of_range (by omega) (by omega)
  have hold : i32 (N.size - 12) = N.size - 12 := i32_of_range (by omega) (by omega)
  have hmk : h.mem N.addr = HEAP_NODE_ALLOCED := by rw [n1, hN]; rfl
  have hn' : n ≤ 2147483604 := by omega
  have hs := adjustSize_eq_spec hn0 hn'
  obtain ⟨a1, a2, a3, a4⟩ := adjustSize_spec hn0 hn'
  rw [← hs]
  have hle : adjustSize n ≤ N.size := by omega
  have hi : i32 (N.size - adjustSize n) = N.size - adjustSize n :=
    i32_of_range (by omega) (by omega)
  have hk : _krealloc (N.addr + 12) n h =
      if N.size - adjustSize n < 32 then some (N.addr + 12, h)
      else some (N.addr + 12, (_kfree (u32 (u32 (N.addr + adjustSize n) + 12))
        (shrinkSplit N.addr (adjustSize n) h)).2) := by
    rw [_krealloc_eq, hu, n2, hold, if_neg (by omega : ¬ N.addr + 12 = 0),
      if_neg (by omega : ¬ n = 0), if_neg (by rw [hmk]; simp; omega),
      if_neg (by omega : ¬ N.size - 12 < n), hi]
  refine ⟨fun hlt => by rw [hk, if_pos hlt], fun hge => ?_⟩
  rw [hk, if_neg (by omega)]
  have r1 := shrink_rep r hN a1 a2 (by omega)
  have hu1 : u32 (N.addr + adjustSize n) = N.addr + adjustSize n :=
    u32_of_range (by omega) (by omega)
  have hu2 : u32 (N.addr + adjustSize n + 12) = N.addr + adjustSize n + 12 :=
    u32_of_range (by omega) (by omega)
  rw [hu1, hu2]
  obtain ⟨k1, k2, k3, _⟩ := kfree_spec r1 rfl
  simp only at k1 k3
  rw [k1]
  have hav : (shrinkSplit N.addr (adjustSize n) h)._k_heap_available = h._k_heap_available :=
    rfl
  rw [hav] at k3
  unfold freedList freedFl at k2
  rw [mergeLo_snoc, flLo_snoc] at k2
  simp only [Bool.false_eq_true, if_false] at k2
  refine ⟨_, rfl, ?_⟩
  have hb := r.rep.base_pos
  have hg := r.rep.geom
  rw [full_split, List.chain'_split] at hg
  have hg2 := hg.2
  cases post with
  | nil =>
    simp only [List.nil_append, List.chain'_cons, List.chain'_singleton, and_true] at hg2
    have e : N.addr + N.size = arenaBase addr + arenaSize size - 32 := hg2.1.symm
    have hm := (r.rep.hdr ⟨arenaBase addr + arenaSize size - 32, -1, false⟩
      (by simp [full])).1 (by simp only; omega)
    simp only at hm
    have hne : ¬ h.mem (N.addr + N.size) = HEAP_NODE_FREE := by rw [e, hm]; decide
    simp only [if_neg hne, mergeHi, flHi] at k2 ⊢
    have k2' : Rep (arenaBase addr) (arenaSize size) (kfreeBody (N.addr + adjustSize n)
        (shrinkSplit N.addr (adjustSize n) h))
        (pre ++ ⟨N.addr, adjustSize n, false⟩ ::
          [⟨N.addr + adjustSize n, N.size - adjustSize n, true⟩])
        ((N.addr + adjustSize n) :: fl) := by
      rw [List.append_assoc, List.singleton_append] at k2; exact k2
    have q1 := Rep.node k2'
    have q2 := Rep.node k2
    have q3 := k2.rep.prev_snoc
    have q4 := k2.rep.flist.1
    simp only at q1 q2 q3 q4
    exact ⟨q1.1, q1.2.1, k3, q4, q2.1, by rw [q2.2.1]; ring, q3, k2.freeNodes_eq⟩
  | cons X post' =>
    rw [List.cons_append, List.chain'_cons] at hg2
    have e : N.addr + N.size = X.addr := hg2.1.1.symm
    obtain ⟨hm, hsz⟩ := r.hdrs X (by simp)
    rw [e, hm, hsz]
    cases hX : X.free
    · have hne : ¬ markOf false = HEAP_NODE_FREE := by decide
      simp only [if_neg hne, mergeHi, flHi, hX, Bool.false_eq_true, if_false] at k2 ⊢
      have k2' : Rep (arenaBase addr) (arenaSize size) (kfreeBody (N.addr + adjustSize n)
          (shrinkSplit N.addr (adjustSize n) h))
          (pre ++ ⟨N.addr, adjustSize n, false⟩ ::
            ⟨N.addr + adjustSize n, N.size - adjustSize n, true⟩ :: X :: post')
          ((N.addr + adjustSize n) :: fl) := by
        rw [List.append_assoc, List.singleton_append] at k2; exact k2
      have q1 := Rep.node k2'
      have q2 := Rep.node k2
      have q3 := k2.rep.prev_snoc
      have q4 := k2.rep.flist.1
      simp only at q1 q2 q3 q4
      exact ⟨q1.1, q1.2.1, k3, q4, q2.1, by rw [q2.2.1]; ring, q3, k2.freeNodes_eq⟩
    · have hye : markOf true = HEAP_NODE_FREE := by decide
      simp only [if_pos hye, mergeHi, flHi, hX, if_true] at k2 ⊢
      have k2' : Rep (arenaBase addr) (arenaSize size) (kfreeBody (N.addr + adjustSize n)
          (shrinkSplit N.addr (adjustSize n) h))
          (pre ++ ⟨N.addr, adjustSize n, false⟩ ::
            ⟨N.addr + adjustSize n, N.size - adjustSize n + X.size, true⟩ :: post')
          ((N.addr + adjustSize n) :: fl.erase X.addr) := by
        rw [List.append_assoc, List.singleton_append] at k2; exact k2
      have q1 := Rep.node k2'
      have q2 := Rep.node k2
      have q3 := k2.rep.prev_snoc
      have q4 := k2.rep.flist.1
      simp only at q1 q2 q3 q4
      exact ⟨q1.1, q1.2.1, k3, q4, q2.1, q2.2.1, q3, k2.freeNodes_eq⟩

/-- The shrink of C11 in the run W after its first three allocations: the block `4204` of
the node of 64 bytes at `4192`, followed by the free node of 160 bytes at `4256`, is shrunk
to one byte; the node keeps 32 bytes and the tail joins the follower in a free node of 192
bytes at `4224`. -/
theorem krealloc_shrink_witness :
    InitOK 4092 352 ∧ Reach 4092 352 bootHeap runW3.2 [4204, 4172, 4140] ∧
      (4204 : Int) ∈ ([4204, 4172, 4140] : List Int) ∧ (0 : Int) < 1 ∧
      1 ≤ runW3.2.mem (4204 - 12 + 4) - 12 ∧ freeNodes runW3.2 = some [4256] ∧
      runW3.2.mem (4204 - 12 + 4) = 64 ∧ specAdjusted 1 = 32 ∧
      (_krealloc 4204 1 runW3.2).map (fun r => (r.1, r.2.mem (4224 + 4))) = some (4204, 192) ∧
      ((runW3.2.mem (4204 - 12 + 4) - specAdjusted 1 < 32 →
        _krealloc 4204 1 runW3.2 = some (4204, runW3.2)) ∧
      (32 ≤ runW3.2.mem (4204 - 12 + 4) - specAdjusted 1 →
        ∃ h', _krealloc 4204 1 runW3.2 = some (4204, h') ∧
          h'.mem (4204 - 12) = HEAP_NODE_ALLOCED ∧ h'.mem (4204 - 12 + 4) = specAdjusted 1 ∧
          h'._k_heap_available =
            runW3.2._k_heap_available + (runW3.2.mem (4204 - 12 + 4) - specAdjusted 1) ∧
          h'._k_heapFreeList = 4204 - 12 + specAdjusted 1 ∧
          h'.mem (4204 - 12 + specAdjusted 1) = HEAP_NODE_FREE ∧
          h'.mem (4204 - 12 + specAdjusted 1 + 4) =
            runW3.2.mem (4204 - 12 + 4) - specAdjusted 1 +
            (if runW3.2.mem (physNext runW3.2 4204) = HEAP_NODE_FREE
              then runW3.2.mem (physNext runW3.2 4204 + 4) else 0) ∧
          h'.mem (4204 - 12 + specAdjusted 1 + 8) = 4204 - 12 ∧
          freeNodes h' = some ((4204 - 12 + specAdjusted 1) ::
            (if runW3.2.mem (physNext runW3.2 4204) = HEAP_NODE_FREE
              then ([4256] : List Int).erase (physNext runW3.2 4204) else [4256])))) :=
  ⟨initOK_W, reach_runW3, by decide, by decide, by decide, by decide, by decide, by decide,
    by decide,
    krealloc_shrink initOK_W reach_runW3 (by decide) (by decide) (by decide)
      (by decide : freeNodes runW3.2 = some [4256])⟩

/-! ### Registration, free-list consistency, node sizes -/

/-- The region of 160 bytes at `4092`, one block handed out. -/
theorem reach_runA1 : Reach 4092 160 bootHeap runA1.2 [4140] :=
  (Reach.malloc 1 runA1 Reach.init (by decide) (some_getD _ _ (by decide))).cast
    (by decide : (if runA1.1 = 0 then [] else runA1.1 :: []) = [4140])

/-- The `prevFree` fields along a free list. -/
theorem backLinked_of_FL {m : Mem} : ∀ {l : List Int} {prev cur : Int},
    FL m prev cur l → backLinked m prev l := by
  intro l
  induction l with
  | nil => intro prev cur _; trivial
  | cons a rest ih =>
    intro prev cur hfl
    simp only [FL] at hfl
    exact ⟨hfl.2.2.1, ih hfl.2.2.2⟩

/-- Free-list consistency in a heap that satisfies the invariant. -/
theorem Rep.freeListConsistent {base R : Int} {h : Heap} {bs : List Blk} {fl : List Int}
    (r : Rep base R h bs fl) : FreeListConsistent base h := by
  refine ⟨fl, bs.map (·.addr), r.freeNodes_eq, r.physNodes_eq, r.rep.fl_nodup, ?_,
    backLinked_of_FL r.rep.flist⟩
  intro a
  rw [r.rep.fl_mem a, List.mem_map]
  constructor
  · rintro ⟨⟨b, hb, hf, rfl⟩, _⟩
    refine ⟨⟨b, hb, rfl⟩, ?_⟩
    rw [(r.hdrs b hb).1, hf]; rfl
  · rintro ⟨⟨b, hb, rfl⟩, hm⟩
    rw [(r.hdrs b hb).1, markOf_eq_free] at hm
    obtain ⟨pre, post, rfl⟩ := List.append_of_mem hb
    have := (Rep.node r).2.2.1
    exact ⟨⟨b, hb, hm, rfl⟩, by omega⟩

/-- Claim C12 (init).  When the size rounded down to a multiple of 32 is less than 96,
`uffs_InitHeapMemory addr size` leaves the whole state as it was.  Otherwise, for a region
inside the address space, with `R` the size rounded down and offsets counted from the start
`B` that the routine uses (`addr`, or `addr + 4` when `addr` is a multiple of 4): the node at
offset 0 and the node at offset `R - 32`, which is the tail sentinel, are marked allocated;
the free list is the one node at offset 32, marked free, of size `R - 64`, with `prevFree`
`NULL`; it is the one node between the sentinels; `_k_heap_available` and
`_minimu_heap_avaiable` are both `R - 64`. -/
theorem init_heap_memory :
    (∀ (h : Heap) (addr size : Int), size - size % 32 < 96 →
      uffs_InitHeapMemory addr size h = h) ∧
    (∀ (h : Heap) (addr size : Int), InitOK addr size →
      arenaBase addr = (if addr % 4 = 0 then addr + 4 else addr) ∧
      arenaSize size = size - size % 32 ∧
      (uffs_InitHeapMemory addr size h).mem (arenaBase addr) = HEAP_NODE_ALLOCED ∧
      (uffs_InitHeapMemory addr size h).mem (arenaBase addr + (arenaSize size - 32)) =
        HEAP_NODE_ALLOCED ∧
      (uffs_InitHeapMemory addr size h)._k_heapTail_ = arenaBase addr + (arenaSize size - 32) ∧
      (uffs_InitHeapMemory addr size h)._k_heapFreeList = arenaBase addr + 32 ∧
      freeNodes (uffs_InitHeapMemory addr size h) = some [arenaBase addr + 32] ∧
      physNodes (arenaBase addr) (uffs_InitHeapMemory addr size h) =
        some [arenaBase addr + 32] ∧
      (uffs_InitHeapMemory addr size h).mem (arenaBase addr + 32) = HEAP_NODE_FREE ∧
      (uffs_InitHeapMemory addr size h).mem (arenaBase addr + 32 + 4) = arenaSize size - 64 ∧
      (uffs_InitHeapMemory addr size h).mem (arenaBase addr + 32 + 12) = 0 ∧
      (uffs_InitHeapMemory addr size h)._k_heap_available = arenaSize size - 64 ∧
      (uffs_InitHeapMemory addr size h)._minimu_heap_avaiable = arenaSize size - 64) := by
  constructor
  · intro h addr size hlt
    unfold uffs_InitHeapMemory
    simp only [ALLOC_PAGE_SIZE]
    rw [if_pos (by omega)]
  · intro h addr size ok
    have r := init_rep h ok
    have hb := r.rep.base_pos
    have hsentinel := (r.rep.hdr ⟨arenaBase addr, 32, false⟩ (by simp [full])).1
      (by show arenaBase addr ≠ 0; omega)
    have hf := init_facts ok
    have htail := (r.rep.hdr ⟨arenaBase addr + arenaSize size - 32, -1, false⟩
      (by simp [full])).1 (by simp only; omega)
    have hnode := r.hdrs ⟨arenaBase addr + 32, arenaSize size - 64, true⟩
      (List.mem_singleton.2 rfl)
    have hprev := r.rep.flist.2.2.1
    have hhead := r.rep.flist.1
    have htl := r.rep.tail
    have hav := r.avail
    have hmin : (uffs_InitHeapMemory addr size h)._minimu_heap_avaiable = arenaSize size - 64 := by
      rw [uffs_InitHeapMemory_eq h ok]
    have hphys := r.physNodes_eq
    simp only at hsentinel htail hnode
    simp only [List.map_cons, List.map_nil] at hphys
    have e1 : arenaBase addr + (arenaSize size - 32) = arenaBase addr + arenaSize size - 32 := by
      ring
    rw [e1]
    refine ⟨?_, rfl, hsentinel, htail, htl, hhead, r.freeNodes_eq, hphys, hnode.1, hnode.2,
      hprev, ?_, hmin⟩
    · unfold arenaBase
      have h1 := ok.addr_nonneg
      have h2 := ok.fits
      have h3 := ok.pages
      unfold arenaSize at h3
      split
      · rw [u32_of_range (by omega) (by omega)]; omega
      · rfl
    · rw [hav]; simp [freeSum]

/-- The registration of C12 on two regions at `4092`: 95 bytes are refused without effect,
160 bytes give the arena at `4092` with one free node of 96 bytes at offset 32. -/
theorem init_heap_memory_witness :
    uffs_InitHeapMemory 4092 95 bootHeap = bootHeap ∧
      (arenaBase 4092 = (if (4092 : Int) % 4 = 0 then 4092 + 4 else 4092) ∧
      arenaSize 160 = 160 - 160 % 32 ∧
      (uffs_InitHeapMemory 4092 160 bootHeap).mem (arenaBase 4092) = HEAP_NODE_ALLOCED ∧
      (uffs_InitHeapMemory 4092 160 bootHeap).mem (arenaBase 4092 + (arenaSize 160 - 32)) =
        HEAP_NODE_ALLOCED ∧
      (uffs_InitHeapMemory 4092 160 bootHeap)._k_heapTail_ =
        arenaBase 4092 + (arenaSize 160 - 32) ∧
      (uffs_InitHeapMemory 4092 160 bootHeap)._k_heapFreeList = arenaBase 4092 + 32 ∧
      freeNodes (uffs_InitHeapMemory 4092 160 bootHeap) = some [arenaBase 4092 + 32] ∧
      physNodes (arenaBase 4092) (uffs_InitHeapMemory 4092 160 bootHeap) =
        some [arenaBase 4092 + 32] ∧
      (uffs_InitHeapMemory 4092 160 bootHeap).mem (arenaBase 4092 + 32) = HEAP_NODE_FREE ∧
      (uffs_InitHeapMemory 4092 160 bootHeap).mem (arenaBase 4092 + 32 + 4) =
        arenaSize 160 - 64 ∧
      (uffs_InitHeapMemory 4092 160 bootHeap).mem (arenaBase 4092 + 32 + 12) = 0 ∧
      (uffs_InitHeapMemory 4092 160 bootHeap)._k_heap_available = arenaSize 160 - 64 ∧
      (uffs_InitHeapMemory 4092 160 bootHeap)._minimu_heap_avaiable = arenaSize 160 - 64) :=
  ⟨init_heap_memory.1 bootHeap 4092 95 (by decide),
    init_heap_memory.2 bootHeap 4092 160 initOK_A⟩

/-- Claim C19 (free-list consistency, for calls that respect the interface).  In every
state reached from a successful `uffs_InitHeapMemory` by `_kmalloc`, `_kfree` and `_krealloc`
calls in which every pointer passed in is a block handed out and not yet given back (or the
`_kfree` is rejected) and every requested size has an adjusted size that fits an `int`, the
walk along `nextFree` from `_k_heapFreeList` ends, meets no node twice, meets exactly the
nodes between the sentinels that are marked free, and `prevFree` leads back along the walk,
with `NULL` at the head. -/
theorem free_list_consistent_valid_calls {addr size : Int} {h0 h : Heap} {L : List Int}
    (ok : InitOK addr size) (hr : Reach addr size h0 h L) :
    FreeListConsistent (arenaBase addr) h := by
  obtain ⟨bs, fl, r, _⟩ := reach_inv ok hr
  exact r.freeListConsistent

/-- Free-list consistency in the run A after two allocations and one release. -/
theorem free_list_consistent_valid_calls_witness :
    InitOK 4092 160 ∧ Reach 4092 160 bootHeap runA3 [4172] ∧
      FreeListConsistent (arenaBase 4092) runA3 :=
  ⟨initOK_A, reach_runA3, free_list_consistent_valid_calls initOK_A reach_runA3⟩

/-- Claim C19 as stated fails.  After a `_kfree` on the address `4172`, which was never
handed out and where memory reads as an allocated header, the free list holds the address
`4160`, which is not a node of the chain between the sentinels. -/
theorem free_list_consistent_any_calls_counterexample :
    InitOK 4092 160 ∧ ReachAny 4092 160 strayHeap runStray ∧
      ¬ FreeListConsistent (arenaBase 4092) runStray := by
  refine ⟨initOK_A, ReachAny.free 4172 ReachAny.init, ?_⟩
  rintro ⟨fl, nodes, h1, h2, _, h4, _⟩
  have e1 : freeNodes runStray = some [4160, 4128] := by decide
  have e2 : physNodes (arenaBase 4092) runStray = some [4128] := by decide
  rw [e1] at h1
  rw [e2] at h2
  cases h1
  cases h2
  have := ((h4 4160).1 (by decide)).1
  revert this
  decide

/-- Claim C20 (node size granularity), evaluated on the code.  In the run A the block
`4140`, handed out by `_kmalloc`, has a node of 32 bytes at `4128`.  The call
`_krealloc(4140, -12)` returns `4140` and leaves that node with the size 0, so that the walk
over the nodes of the arena no longer reaches the tail sentinel. -/
theorem krealloc_negative_size_breaks_nodes :
    Reach 4092 160 bootHeap runA1.2 [4140] ∧ runA1.2.mem (4140 - 12 + 4) = 32 ∧
      physNodes (arenaBase 4092) runA1.2 = some [4128, 4160] ∧
      (_krealloc 4140 (-12) runA1.2).map
        (fun r => (r.1, r.2.mem (4140 - 12 + 4), physNodes (arenaBase 4092) r.2)) =
        some (4140, 0, none) :=
  ⟨reach_runA1, by decide, by decide, by decide⟩

/-! ### The tracker: foreign pointers and concrete runs -/

/-- The search loop of `__ufree` fails without effect on a chain that has no record of `p`. -/
theorem ufreeLoop_absent (c : Layout) (p : Int) (d : Dev) : ∀ (fuel : Nat) (node prev : Int)
    (l : List Int), chainWalk c d.heap.mem fuel node = some l →
    (∀ r ∈ l, d.heap.mem (r + c.off_p) ≠ p) → ufreeLoop c p d fuel node prev = some (-1, d) := by
  intro fuel
  induction fuel with
  | zero => intro node prev l hw; simp [chainWalk] at hw
  | succ f ih =>
    intro node prev l hw hl
    unfold chainWalk at hw
    unfold ufreeLoop
    by_cases hn : node = 0
    · rw [if_pos hn]
    · rw [if_neg hn] at hw ⊢
      cases hrest : chainWalk c d.heap.mem f (d.heap.mem (node + c.off_next)) with
      | none => rw [hrest] at hw; simp at hw
      | some l' =>
        rw [hrest] at hw
        simp only [Option.map_some', Option.some.injEq] at hw
        subst hw
        rw [if_neg (hl node (List.mem_cons_self _ _))]
        exact ih _ _ l' hrest (fun r hr => hl r (List.mem_cons_of_mem _ hr))

/-- Claim C13 (tracker isolation).  For every state of a device and every pointer `p`:
`__ufree` of `NULL` returns -1 and the unchanged state; and when the chain at the hash index
of `p` is a finite list of records none of which has `p` in its field `p` (as is the case
when no record of the table has it), `__ufree` of `p` returns -1 and the unchanged state:
the counters, the hash table, and the arena with all of memory. -/
theorem ufree_untracked (c : Layout) (d : Dev) (p : Int) :
    (p = 0 → __ufree c p d = some (-1, d)) ∧
    (∀ l, chainNodes c d (c.GET_HASH_INDEX p) = some l →
      (∀ r ∈ l, d.heap.mem (r + c.off_p) ≠ p) → __ufree c p d = some (-1, d)) := by
  constructor
  · intro hp
    unfold __ufree
    rw [if_neg (by simpa using hp)]
  · intro l hw hl
    unfold __ufree
    split
    · exact ufreeLoop_absent c p d FUEL _ 0 l hw hl
    · rfl

/-- The isolation of C13 in the run T: `4276` hashes to the chain of the tracked block
`4148` and is not tracked; `__ufree` of `4276` and of `NULL` return -1 and change nothing. -/
theorem ufree_untracked_witness :
    (layoutRun true).GET_HASH_INDEX 4276 = (layoutRun true).GET_HASH_INDEX 4148 ∧
      chainNodes (layoutRun true) runT1.2 ((layoutRun true).GET_HASH_INDEX 4276) =
        some [4204] ∧
      runT1.2.heap.mem (4204 + (layoutRun true).off_p) = 4148 ∧
      __ufree (layoutRun true) 0 runT1.2 = some (-1, runT1.2) ∧
      __ufree (layoutRun true) 4276 runT1.2 = some (-1, runT1.2) :=
  ⟨by decide, by decide, by decide,
    (ufree_untracked (layoutRun true) runT1.2 0).1 rfl,
    (ufree_untracked (layoutRun true) runT1.2 4276).2 [4204] (by decide) (by decide)⟩

/-- Claim C15 (a failing tracked realloc keeps the block), evaluated on the code.  In the
run T the block `p = 4148` is tracked by the record at `4204` and its node at
`p - 8 - 12 = 4128` is marked allocated with size 64.  For the size `4294967280` the sum
`HEAP_MAGIC_SIZE + size + HEAP_MAGIC_SIZE` wraps to 0, `_krealloc` releases the block, and
`__urealloc` returns `NULL`: the record still has `p`, but the node at `4128` is marked free
and `_k_heap_available` went from 192 to 256. -/
theorem urealloc_wrap_releases_block :
    runT1.1 = 4148 ∧ chainNodes (layoutRun true) runT1.2 ((layoutRun true).GET_HASH_INDEX 4148) =
        some [4204] ∧
      runT1.2.heap.mem (4204 + 8) = 4148 ∧
      runT1.2.heap.mem 4128 = HEAP_NODE_ALLOCED ∧ runT1.2.heap.mem (4128 + 4) = 64 ∧
      runT1.2.heap._k_heap_available = 192 ∧
      (__urealloc (layoutRun true) 7 4148 4294967280 runT1.2).map
        (fun r => (r.1, r.2.heap.mem (4204 + 8), r.2.heap.mem 4128,
          r.2.heap._k_heap_available)) =
        some (0, 4148, HEAP_NODE_FREE, 256) :=
  ⟨by decide, by decide, by decide, by decide, by decide, by decide, by decide⟩

/-- Claim C16 (a tracked realloc updates the record), evaluated on the code.  In the run T
the block `p = 4148` is tracked by the record at `4204` with the size 10.  The call
`__urealloc(p, 20)` finds room in place and returns `p`; the record still has the size 10,
not 20. -/
theorem urealloc_in_place_keeps_size :
    runT1.1 = 4148 ∧ chainNodes (layoutRun true) runT1.2 ((layoutRun true).GET_HASH_INDEX 4148) =
        some [4204] ∧
      runT1.2.heap.mem (4204 + 8) = 4148 ∧ runT1.2.heap.mem (4204 + 12) = 10 ∧
      (__urealloc (layoutRun true) 7 4148 20 runT1.2).map
        (fun r => (r.1, r.2.heap.mem (4204 + 8), r.2.heap.mem (4204 + 12))) =
        some (4148, 4148, 10) :=
  ⟨by decide, by decide, by decide, by decide, by decide⟩

/-- Claim C17 (tracked malloc/free round trip), evaluated on the code.  In the run U, with
free nodes of 64 and 96 bytes, `uffs_malloc(2147483631)` passes the guard `(int)size < 0`,
asks the arena for `2147483647` bytes, whose adjusted size overflows, and returns the block
`4212`; the `uffs_free(4212)` that follows at once returns `U_FAIL`, and
`_k_heap_available` is not back at its value 160 before the `uffs_malloc`. -/
theorem tracked_round_trip_overflow_fails :
    i32 2147483631 = 2147483631 ∧ runU4.heap._k_heap_available = 160 ∧
      freeNodes runU4.heap = some [4192, 4320] ∧
      runU5.1 = 4212 ∧
      (uffs_free (layoutRun true) 4212 runU5.2).map
        (fun r => (r.1, decide (r.2.heap._k_heap_available = 160))) =
        some (URET.U_FAIL, false) :=
  ⟨by decide, by decide, by decide, by decide, by decide⟩

/-- Claim C18 (high-water mark), evaluated on the code.  `__urealloc` writes the new size
into the record of a block that moved and leaves `count` as it was, so the `__ufree` that
follows takes more from `count` than `uffs_malloc` had added.  With counters declared
`unsigned int`, after `p = uffs_malloc(10)`, `q = __urealloc(p, 100)`, `__ufree(q)` on a
device over 352 bytes `count` is `4294967206` and `maxused` is 10.  With counters declared
`int`, after two rounds of `p = uffs_malloc(1)`, `q = __urealloc(p, 2147483000)`,
`__ufree(q)` on a device over 2147483647 bytes `count` is 1298 and `maxused` is 1.  In both
cases `count` is above `maxused` after the last call. -/
theorem count_exceeds_maxused :
    (devRun 352).count = 0 ∧ (devRun 352).maxused = 0 ∧
      (cycleV false 10 100 (devRun 352)).1 = 0 ∧
      (cycleV false 10 100 (devRun 352)).2.count = 4294967206 ∧
      (cycleV false 10 100 (devRun 352)).2.maxused = 10 ∧
      (cycleV true 1 2147483000 (cycleV true 1 2147483000 (devRun 2147483647)).2).1 = 0 ∧
      (cycleV true 1 2147483000 (cycleV true 1 2147483000 (devRun 2147483647)).2).2.count =
        1298 ∧
      (cycleV true 1 2147483000 (cycleV true 1 2147483000 (devRun 2147483647)).2).2.maxused =
        1 :=
  ⟨by decide, by decide, by decide, by decide, by decide, by decide, by decide, by decide⟩

/-! ### Size adjustment at the overflow bound, and the counter against the records -/

/-- Claim C21 (size adjustment), evaluated on the code.  The request `n = 2147483604` has
the adjusted size `2147483616`, the least multiple of 32 from `n + 12` on.  For the next
request `n = 2147483605`, which is below `INT_MAX`, the sum `n + 12 + 32` wraps and the
adjusted size is `-2147483648`, not the multiple `2147483648`; on the fresh arena of the
run A, whose one free node has 96 bytes, `_kmalloc(2147483605)` returns the block `4140`
of the node at `4128`, and the size field of that node then reads `-2147483648`. -/
theorem adjusted_size_overflow :
    adjustSize 2147483604 = 2147483616 ∧ specAdjusted 2147483604 = 2147483616 ∧
      (0 : Int) < 2147483605 ∧ (2147483605 : Int) ≤ 2147483647 ∧
      specAdjusted 2147483605 = 2147483648 ∧ adjustSize 2147483605 = -2147483648 ∧
      freeNodes runA0 = some [4128] ∧ runA0.mem (4128 + 4) = 96 ∧
      (_kmalloc 2147483605 runA0).map (fun r => (r.1, r.2.mem (4128 + 4))) =
        some (4140, -2147483648) :=
  ⟨by decide, by decide, by decide, by decide, by decide, by decide, by decide, by decide,
    by decide⟩

/-- Claim C22 (count matches the registry), evaluated on the code.  From the device over
352 bytes with an empty table and `count = 0`, `p = __umalloc(10)` returns `4148` with the
record `4204`, and `count` and the sum of the record sizes are both 10.  Then
`q = __urealloc(p, 100)` moves the block to `4244`: the one record of the table has the
size 100 and `count` is still 10.  So it is with the counters declared `unsigned int` and
with the counters declared `int`. -/
theorem count_differs_from_records :
    ∀ signed : Bool,
      (devRun 352).count = 0 ∧ tableRecords (layoutRun signed) (devRun 352) = some [] ∧
      (runR1 signed).1 = 4148 ∧ (runR1 signed).2.count = 10 ∧
      tableRecords (layoutRun signed) (runR1 signed).2 = some [4204] ∧
      recordedBytes (layoutRun signed) (runR1 signed).2 = some 10 ∧
      (runR2 signed).1 = 4244 ∧
      tableRecords (layoutRun signed) (runR2 signed).2 = some [4204] ∧
      chainNodes (layoutRun signed) (runR2 signed).2 ((layoutRun signed).GET_HASH_INDEX 4244) =
        some [4204] ∧
      (runR2 signed).2.heap.mem (4204 + 8) = 4244 ∧
      recordedBytes (layoutRun signed) (runR2 signed).2 = some 100 ∧
      (runR2 signed).2.count = 10 := by
  intro signed
  cases signed
  · exact ⟨by decide, by decide, by decide, by decide, by decide, by decide, by decide,
      by decide, by decide, by decide, by decide, by decide⟩
  · exact ⟨by decide, by decide, by decide, by decide, by decide, by decide, by decide,
      by decide, by decide, by decide, by decide, by decide⟩

/-! ### The words the arena routines leave alone -/

/-- The words that `HeapDeleteFromFreeList` writes: the link words of the two neighbours. -/
theorem HD_touch (x : Int) (h : Heap) (y : Int)
    (h1 : h.mem (x + 16) = 0 ∨ y ≠ h.mem (x + 16) + 12)
    (h2 : h.mem (x + 12) = 0 ∨ y ≠ h.mem (x + 12) + 16) :
    (HeapDeleteFromFreeList x h).mem y = h.mem y := by
  have e1 : (if h.mem (x + 16) ≠ 0 then store h.mem (h.mem (x + 16) + 12) (h.mem (x + 12))
      else h.mem) (x + 12) = h.mem (x + 12) := by
    split
    · unfold store; split
      · rfl
      · rfl
    · rfl
  have e2 : (if h.mem (x + 16) ≠ 0 then store h.mem (h.mem (x + 16) + 12) (h.mem (x + 12))
      else h.mem) y = h.mem y := by
    split
    · rename_i hne
      rcases h1 with h1 | h1
      · exact absurd h1 hne
      · exact store_ne _ _ h1
    · rfl
  have e3 : (HeapDeleteFromFreeList x h).mem y =
      (if (if h.mem (x + 16) ≠ 0 then store h.mem (h.mem (x + 16) + 12) (h.mem (x + 12))
        else h.mem) (x + 12) ≠ 0
      then store (if h.mem (x + 16) ≠ 0 then store h.mem (h.mem (x + 16) + 12) (h.mem (x + 12))
        else h.mem) ((if h.mem (x + 16) ≠ 0 then store h.mem (h.mem (x + 16) + 12) (h.mem (x + 12))
        else h.mem) (x + 12) + 16) ((if h.mem (x + 16) ≠ 0 then store h.mem (h.mem (x + 16) + 12) (h.mem (x + 12))
        else h.mem) (x + 16))
      else (if h.mem (x + 16) ≠ 0 then store h.mem (h.mem (x + 16) + 12) (h.mem (x + 12))
        else h.mem)) y := by
    unfold HeapDeleteFromFreeList
    by_cases hh : x = h._k_heapFreeList
    · simp only [if_pos hh]
    · simp only [if_neg hh]
  rw [e3]
  generalize (if h.mem (x + 16) ≠ 0 then store h.mem (h.mem (x + 16) + 12) (h.mem (x + 12))
      else h.mem) = m1 at e1 e2 ⊢
  split
  · rename_i hne
    rw [e1] at hne ⊢
    rcases h2 with h2 | h2
    · exact absurd h2 hne
    · rw [store_ne _ _ h2, e2]
  · exact e2

/-- The words that `HeapChainToFreeList` writes: the link words of the node and the
`prevFree` of the old head. -/
theorem HC_touch (x : Int) (h : Heap) (y : Int) (h1 : y ≠ x + 16) (h2 : y ≠ x + 12)
    (h3 : h._k_heapFreeList = 0 ∨ y ≠ h._k_heapFreeList + 12) :
    (HeapChainToFreeList x h).mem y = h.mem y := by
  unfold HeapChainToFreeList
  split
  · show store (store h.mem _ _) _ _ y = _
    rw [store_ne _ _ h2, store_ne _ _ h1]
  · rename_i hne
    rcases h3 with h3 | h3
    · exact absurd h3 hne
    · show store (store (store (store h.mem _ _) _ _) _ _) _ _ y = _
      rw [store_ne _ _ h1, store_ne _ _ h3, store_ne _ _ h2, store_ne _ _ h1]

/-- The free-list neighbours of a node of the free list are nodes of the list, or null. -/
theorem FL_nbrs_mem {m : Mem} {head x : Int} {fl : List Int} (hfl : FL m 0 head fl)
    (hx : x ∈ fl) :
    (m (x + 12) = 0 ∨ m (x + 12) ∈ fl) ∧ (m (x + 16) = 0 ∨ m (x + 16) ∈ fl) := by
  obtain ⟨l1, l2, rfl⟩ := List.append_of_mem hx
  obtain ⟨e1, e2⟩ := FL_nbrs hfl
  constructor
  · rw [e1]
    rcases nil_or_snoc l1 with rfl | ⟨A, b, rfl⟩
    · left; rfl
    · right; simp
  · rw [e2]
    cases l2 with
    | nil => left; rfl
    | cons b l2 => right; simp

/-- The head of the free list is a node of the list, or null. -/
theorem FL_head_mem {m : Mem} {prev head : Int} {fl : List Int} (hfl : FL m prev head fl) :
    head = 0 ∨ head ∈ fl := by
  cases fl with
  | nil => left; exact hfl
  | cons a l => right; rw [hfl.1]; simp

/-! ### The words a release leaves alone -/

/-- The node after a node of the chain starts where that node ends. -/
theorem next_addr_mem {base R : Int} {pre post : List Blk} {x : Blk}
    (h : List.Chain' Adj (full base R (pre ++ x :: post))) :
    x.addr + x.size ∈ (full base R (pre ++ x :: post)).map (·.addr) := by
  rw [full_split] at h ⊢
  obtain ⟨z0, F2, e⟩ := tail_cons post ⟨base + R - 32, -1, false⟩
  rw [e] at h ⊢
  have := (List.chain'_cons.1 (List.chain'_split.1 h).2).1.1
  simp only [List.map_append, List.map_cons, List.mem_append, List.mem_cons]
  right; right; left; exact this.symm

/-- The merge step writes header words and link words of the free list only. -/
theorem absorb_frame {base R k y z : Int} {h : Heap} {pre post : List Blk} {lo up : Blk}
    {fl : List Int}
    (r : RepP base R h (pre ++ lo :: up :: post) fl k)
    (hlo : lo.free = true) (hup : up.free = true)
    (hk : (k = lo.addr ∧ y = up.addr) ∨ (k = up.addr ∧ y = lo.addr))
    (hz : Clear base R (pre ++ lo :: up :: post) fl z) :
    (absorb lo.addr up.addr (up.addr + up.size) y h).mem z = h.mem z := by
  obtain ⟨lo1, _, lo3, lo4, lo5, lo6, _⟩ := geom_node r.geom
  obtain ⟨_, up2, up3, up4, up5, _, up7⟩ :=
    @geom_node base R (pre ++ [lo]) post up (by simpa using r.geom)
  have hgeom := r.geom
  rw [full_split2] at hgeom
  have hadj1 : up.addr = lo.addr + lo.size :=
    (List.chain'_cons.1 (List.chain'_split.1 hgeom).2).1.1
  have hbase := r.base_pos
  have hy : y ∈ fl := by
    rw [r.fl_mem]
    rcases hk with ⟨h1, h2⟩ | ⟨h1, h2⟩
    · exact ⟨⟨up, by simp, hup, h2.symm⟩, by omega⟩
    · exact ⟨⟨lo, by simp, hlo, h2.symm⟩, by omega⟩
  have hzlo := hz.1 lo.addr (List.mem_map_of_mem _ (mem_full (by simp)))
  have hnx : up.addr + up.size ∈ (full base R (pre ++ lo :: up :: post)).map (·.addr) := by
    have := @next_addr_mem base R (pre ++ [lo]) post up (by simpa using r.geom)
    simpa using this
  have hznx := hz.1 _ hnx
  obtain ⟨n12, n16⟩ := FL_nbrs_mem r.flist hy
  have hy' : y = up.addr ∨ y = lo.addr := by
    rcases hk with ⟨_, e⟩ | ⟨_, e⟩
    · exact Or.inl e
    · exact Or.inr e
  unfold absorb
  rw [HD_touch]
  · show store (store h.mem _ _) _ _ z = _
    rw [store_ne _ _ hznx.2.2, store_ne _ _ hzlo.2.1]
  · show store (store h.mem _ _) _ _ (y + 16) = 0 ∨
      z ≠ store (store h.mem _ _) _ _ (y + 16) + 12
    rw [store_ne _ _ (by omega), store_ne _ _ (by omega)]
    rcases n16 with e | e
    · left; exact e
    · right; exact (hz.2 _ e).1
  · show store (store h.mem _ _) _ _ (y + 12) = 0 ∨
      z ≠ store (store h.mem _ _) _ _ (y + 12) + 16
    rw [store_ne _ _ (by omega), store_ne _ _ (by omega)]
    rcases n12 with e | e
    · left; exact e
    · right; exact (hz.2 _ e).2

/-- First stage of a release: the words left alone. -/
theorem lo_frame {base R z : Int} {h : Heap} {pre post : List Blk} {N : Blk} {fl : List Int}
    (r : RepP base R h (pre ++ N :: post) fl 0) (hN : N.free = false)
    (hz : Clear base R (pre ++ N :: post) fl z) :
    (kfreeLo N.addr (N.addr + N.size) h).2.mem z = h.mem z := by
  have hbase := r.base_pos
  unfold kfreeLo
  rcases nil_or_snoc pre with rfl | ⟨A, P, rfl⟩
  · have hp := r.prev_nil
    have hm := (r.hdr ⟨base, 32, false⟩ (by simp [full])).1 (by show base ≠ 0; omega)
    have hne : ¬ h.mem (h.mem (N.addr + 8)) = HEAP_NODE_FREE := by
      rw [hp]; simp only at hm; rw [hm]; decide
    rw [if_neg hne]
  · have hp := r.prev_snoc
    have hPal := full_al r.geom P (mem_full (by simp))
    have hm := (r.hdr P (mem_full (by simp))).1 (by omega)
    have hc : h.mem (h.mem (N.addr + 8)) = HEAP_NODE_FREE ↔ P.free = true := by
      rw [hp, hm, markOf_eq_free]
    by_cases hP : P.free = true
    · rw [if_pos (hc.2 hP), hp]
      have r1 := @RepP.begin_free _ _ _ h _ _ _ _ r hN rfl rfl rfl
      rw [List.append_assoc, List.singleton_append] at r1
      have hz1 : Clear base R (A ++ P :: ⟨N.addr, N.size, true⟩ :: post) fl z := by
        refine ⟨?_, hz.2⟩
        have e := full_map_addr_replace base R (A ++ [P]) post N ⟨N.addr, N.size, true⟩ rfl
        rw [List.append_assoc, List.singleton_append] at e
        rw [e]
        exact hz.1
      have key := absorb_frame (y := P.addr) r1 hP rfl (Or.inr ⟨rfl, rfl⟩) hz1
      exact key
    · rw [if_neg (fun e => hP (hc.1 e))]

/-- Second stage of a release: the words left alone. -/
theorem hi_frame {base R z : Int} {h : Heap} {A post : List Blk} {B : Blk} {fl : List Int}
    (r : RepP base R h (A ++ B :: post) fl B.addr) (hB : B.free = true)
    (hz : Clear base R (A ++ B :: post) fl z) :
    (kfreeHi B.addr (B.addr + B.size) h).mem z = h.mem z := by
  obtain ⟨x1, x2, x3, x4, x5, x6, x7⟩ := geom_node r.geom
  have hbase := r.base_pos
  have htop := r.top
  unfold kfreeHi
  cases post with
  | nil =>
    have hg := r.geom
    rw [full_split] at hg
    have hadj : base + R - 32 = B.addr + B.size :=
      (List.chain'_cons.1 (List.chain'_split.1 hg).2).1.1
    have hm := (r.hdr ⟨base + R - 32, -1, false⟩ (by simp [full])).1
      (by show base + R - 32 ≠ B.addr; omega)
    have hne : ¬ h.mem (B.addr + B.size) = HEAP_NODE_FREE := by
      rw [← hadj]; simp only at hm; rw [hm]; decide
    rw [if_neg hne]
  | cons X post =>
    have hg := r.geom
    rw [full_split2] at hg
    have hadj : X.addr = B.addr + B.size :=
      (List.chain'_cons.1 (List.chain'_split.1 hg).2).1.1
    have hX := r.hdr X (mem_full (by simp))
    obtain ⟨_, y2, y3, _, _, _, _⟩ := @geom_node base R (A ++ [B]) post X (by simpa using r.geom)
    have hc : h.mem (B.addr + B.size) = HEAP_NODE_FREE ↔ X.free = true := by
      rw [← hadj, hX.1 (by omega), markOf_eq_free]
    by_cases hXf : X.free = true
    · rw [if_pos (hc.2 hXf), ← hadj]
      have e1 : store h.mem (B.addr + 4) (i32 (h.mem (B.addr + 4) + h.mem (X.addr + 4)))
          (X.addr + 4) = X.size := by
        rw [store_ne _ _ (by omega)]; exact hX.2
      have e2 : u32 (X.addr + X.size) = X.addr + X.size := u32_of_range (by omega) (by omega)
      rw [e1, e2]
      have key := absorb_frame (y := X.addr) r hB hXf (Or.inl ⟨rfl, rfl⟩) hz
      exact key
    · rw [if_neg (fun e => hXf (hc.1 e))]

/-- The words that are clear before a release are clear after its first stage, and the
link words of the merged node are not among them. -/
theorem clear_lo {base R z : Int} {h : Heap} {pre post : List Blk} {N : Blk} {fl : List Int}
    (r : RepP base R h (pre ++ N :: post) fl 0)
    (hz : Clear base R (pre ++ N :: post) fl z)
    (hz1 : z ≠ N.addr + 12) (hz2 : z ≠ N.addr + 16) :
    Clear base R ((mergeLo pre N).1 ++ (mergeLo pre N).2 :: post) (flLo fl pre) z ∧
      z ≠ (mergeLo pre N).2.addr + 12 ∧ z ≠ (mergeLo pre N).2.addr + 16 := by
  have hbase := r.base_pos
  rcases nil_or_snoc pre with rfl | ⟨A, P, rfl⟩
  · refine ⟨⟨?_, hz.2⟩, hz1, hz2⟩
    have e := full_map_addr_replace base R [] post N ⟨N.addr, N.size, true⟩ rfl
    show ∀ a ∈ (full base R ([] ++ ⟨N.addr, N.size, true⟩ :: post)).map (·.addr), _
    rw [e]
    exact hz.1
  · rw [mergeLo_snoc, flLo_snoc]
    by_cases hP : P.free = true
    · simp only [hP, if_true]
      have hPfl : P.addr ∈ fl := by
        rw [r.fl_mem]
        have hPal := full_al r.geom P (mem_full (by simp))
        exact ⟨⟨P, by simp, hP, rfl⟩, by omega⟩
      refine ⟨⟨?_, ?_⟩, (hz.2 _ hPfl).1, (hz.2 _ hPfl).2⟩
      · intro a ha
        apply hz.1
        simp only [full, List.map_cons, List.map_append, List.mem_cons, List.mem_append,
          List.map_nil, List.mem_singleton] at ha ⊢
        tauto
      · intro a ha
        exact hz.2 a (List.mem_of_mem_erase ha)
    · have hP' : P.free = false := by simpa using hP
      simp only [hP', Bool.false_eq_true, if_false]
      refine ⟨⟨?_, hz.2⟩, hz1, hz2⟩
      have e := full_map_addr_replace base R (A ++ [P]) post N ⟨N.addr, N.size, true⟩ rfl
      rw [e]
      exact hz.1

/-- A release writes header words, link words of the free list, and the link words of the
node it releases; every other word is left alone. -/
theorem kfree_frame {base R z : Int} {h : Heap} {pre post : List Blk} {N : Blk} {fl : List Int}
    (r : Rep base R h (pre ++ N :: post) fl) (hN : N.free = false)
    (hz : Clear base R (pre ++ N :: post) fl z)
    (hz1 : z ≠ N.addr + 12) (hz2 : z ≠ N.addr + 16) :
    (kfreeBody N.addr h).mem z = h.mem z := by
  obtain ⟨x1, x2, x3, x4, x5, x6, x7⟩ := geom_node r.rep.geom
  have hbase := r.rep.base_pos
  have htop := r.rep.top
  have hR := r.rep.R_le
  have hd := r.rep.hdr N (mem_full (by simp))
  have hsize := hd.2
  have hav := r.avail_bound hN
  have e1 : u32 (N.addr + N.size) = N.addr + N.size := u32_of_range (by omega) (by omega)
  have e2 : u32 (h._k_heap_available + N.size) = h._k_heap_available + N.size :=
    u32_of_range (by omega) (by omega)
  unfold kfreeBody
  simp only [hsize, e1, e2]
  have r1 := r.rep.set_counters (h._k_heap_available + N.size) h._minimu_heap_avaiable
    h._kernel_heap_total
  obtain ⟨nh, hnh, hnh1, rA, hBf, hBend, a1, a2, a3⟩ := kfree_lo r1 hN
  have f1 := lo_frame r1 hN hz
  rw [hnh] at f1
  obtain ⟨cA, cB1, cB2⟩ := clear_lo r1 hz hz1 hz2
  rw [hnh, hnh1, ← hBend]
  obtain ⟨h2, hh2, hB', rB, hB'f, b1, b2, b3⟩ := kfree_hi rA hBf
  have f2 := hi_frame rA hBf cA
  rw [hh2] at f2 ⊢
  have hzB := cA.1 (mergeLo pre N).2.addr (List.mem_map_of_mem _ (mem_full (by simp)))
  have hhead := FL_head_mem rB.flist
  rw [HC_touch _ _ _ cB2 cB1]
  · show store h2.mem _ _ z = _
    rw [store_ne _ _ hzB.1, f2, f1]
  · show h2._k_heapFreeList = 0 ∨ z ≠ h2._k_heapFreeList + 12
    rcases hhead with e | e
    · exact Or.inl e
    · right
      have e' : h2._k_heapFreeList ∈ flLo fl pre := by
        revert e
        cases post with
        | nil => exact id
        | cons X post =>
          unfold flHi
          simp only
          split
          · exact List.mem_of_mem_erase
          · exact id
      exact (cA.2 _ e').1

/-- The payload of an allocated node holds no header word and no link word of the free
list. -/
theorem payload_clear {base R k z : Int} {h : Heap} {pre post : List Blk} {x : Blk}
    {fl : List Int} (r : RepP base R h (pre ++ x :: post) fl k) (hx : x.free = false)
    (h1 : x.addr + 12 ≤ z) (h2 : z < x.addr + x.size) :
    Clear base R (pre ++ x :: post) fl z := by
  obtain ⟨x1, x2, x3, x4, x5, x6, x7⟩ := geom_node r.geom
  constructor
  · intro a ha
    obtain ⟨b, hb, rfl⟩ := List.mem_map.1 ha
    show z ≠ b.addr ∧ z ≠ b.addr + 4 ∧ z ≠ b.addr + 8
    rcases full_cases r.geom hb with rfl | ⟨g, _, _⟩ | ⟨g, _, _⟩ <;> omega
  · intro a ha
    obtain ⟨⟨b, hb, hbf, rfl⟩, _⟩ := (r.fl_mem a).1 ha
    simp only [List.mem_append, List.mem_cons] at hb
    rcases hb with hb | rfl | hb
    · have := x6 b hb
      omega
    · rw [hx] at hbf; simp at hbf
    · have := x7 b hb
      omega

/-- A release leaves the payloads of the other allocated nodes alone. -/
theorem kfree_payload {base R z : Int} {h : Heap} {pre post : List Blk} {N x : Blk}
    {fl : List Int} (r : Rep base R h (pre ++ N :: post) fl) (hN : N.free = false)
    (hx : x ∈ pre ∨ x ∈ post) (hxf : x.free = false)
    (h1 : x.addr + 12 ≤ z) (h2 : z < x.addr + x.size) :
    (kfreeBody N.addr h).mem z = h.mem z := by
  obtain ⟨x1, x2, x3, x4, x5, x6, x7⟩ := geom_node r.rep.geom
  have hmem : x ∈ pre ++ N :: post := by
    simp only [List.mem_append, List.mem_cons]; tauto
  obtain ⟨p', q', e⟩ := List.append_of_mem hmem
  have r' := r.rep
  rw [e] at r'
  have hc := payload_clear r' hxf h1 h2
  rw [← e] at hc
  have hsz := geom_size r.rep.geom x hmem
  rcases hx with hx | hx
  · have := x6 x hx
    exact kfree_frame r hN hc (by omega) (by omega)
  · have := x7 x hx
    exact kfree_frame r hN hc (by omega) (by omega)

/-! ### The words an allocation leaves alone -/

/-- The split of a node writes inside the node, the `prevNode` word of the next node, and
the `prevFree` word of the head of the free list. -/
theorem split_frame {base R sz z : Int} {h : Heap} {pre post : List Blk} {x : Blk}
    {fl : List Int} (r : RepP base R h (pre ++ x :: post) fl 0)
    (hsz1 : 32 ≤ sz) (hsz2 : sz % 32 = 0) (hsz3 : sz + 32 ≤ x.size)
    (hz : Clear base R (pre ++ x :: post) fl z) (hzx : z < x.addr ∨ x.addr + x.size ≤ z) :
    (splitNode x.addr sz h).mem z = h.mem z := by
  obtain ⟨x1, x2, x3, x4, x5, x6, x7⟩ := geom_node r.geom
  have hbase := r.base_pos
  have htop := r.top
  have hR := r.R_le
  have hdx := (r.hdr x (mem_full (by simp))).2
  have e1 : u32 (x.addr + sz) = x.addr + sz := u32_of_range (by omega) (by omega)
  have e2 : i32 (h.mem (x.addr + 4) - sz) = x.size - sz := by
    rw [hdx]; exact i32_of_range (by omega) (by omega)
  have hnew : x.addr + sz ∉ fl := not_mem_fl_of_inner r (by omega) (by omega)
  have hfl4 : FL (store (store (store (store h.mem (x.addr + sz + 4) (x.size - sz))
      (x.addr + sz) HEAP_NODE_FREE) (x.addr + sz + 8) x.addr) (x.addr + 4) sz) 0
      h._k_heapFreeList fl := by
    refine FL_store_hdr (c := base) ?_ r.fl_al (FL_store_hdr (c := base) ?_ r.fl_al
      (FL_store_hdr (c := base) ?_ r.fl_al (FL_store_hdr (c := base) ?_ r.fl_al r.flist)))
    all_goals (unfold IsHdr; omega)
  obtain ⟨C1, C2, C3, C4, C5, C6⟩ := HeapChainToFreeList_spec
    (h := { h with mem := store (store (store (store h.mem (x.addr + sz + 4) (x.size - sz)) (x.addr + sz) HEAP_NODE_FREE) (x.addr + sz + 8) x.addr) (x.addr + 4) sz })
    (c := base) (x := x.addr + sz) hfl4 r.fl_nodup r.fl_al hnew (by omega) (by omega)
  have e3 : (HeapChainToFreeList (x.addr + sz) { h with mem := store (store (store (store h.mem (x.addr + sz + 4) (x.size - sz)) (x.addr + sz) HEAP_NODE_FREE) (x.addr + sz + 8) x.addr) (x.addr + 4) sz }).mem (x.addr + sz + 4) = x.size - sz := by
    rw [C2 _ (by unfold IsHdr; omega)]
    show store (store (store (store h.mem _ _) _ _) _ _) _ _ _ = _
    rw [store_ne _ _ (by omega), store_ne _ _ (by omega), store_ne _ _ (by omega), store_same]
  have e4 : u32 (x.addr + sz + (x.size - sz)) = x.addr + x.size := by
    rw [u32_of_range (by omega) (by omega)]; omega
  have heq : splitNode x.addr sz h =
      { (HeapChainToFreeList (x.addr + sz) { h with mem := store (store (store (store h.mem (x.addr + sz + 4) (x.size - sz)) (x.addr + sz) HEAP_NODE_FREE) (x.addr + sz + 8) x.addr) (x.addr + 4) sz }) with
        mem := store (HeapChainToFreeList (x.addr + sz) { h with mem := store (store (store (store h.mem (x.addr + sz + 4) (x.size - sz)) (x.addr + sz) HEAP_NODE_FREE) (x.addr + sz + 8) x.addr) (x.addr + 4) sz }).mem (x.addr + x.size + 8) (x.addr + sz) } := by
    unfold splitNode
    simp only [e1, e2, e3, e4]
  rw [heq]
  have hznx := hz.1 _ (next_addr_mem r.geom)
  have hzx0 := hz.1 x.addr (List.mem_map_of_mem _ (mem_full (by simp)))
  have hhead := FL_head_mem r.flist
  show store (HeapChainToFreeList _ _).mem _ _ z = _
  rw [store_ne _ _ hznx.2.2, HC_touch _ _ _ (by omega) (by omega)]
  · show store (store (store (store h.mem _ _) _ _) _ _) _ _ z = _
    rw [store_ne _ _ hzx0.2.1, store_ne _ _ (by omega), store_ne _ _ (by omega),
      store_ne _ _ (by omega)]
  · show h._k_heapFreeList = 0 ∨ z ≠ h._k_heapFreeList + 12
    rcases hhead with e | e
    · exact Or.inl e
    · exact Or.inr (hz.2 _ e).1

/-- Handing out a node writes inside the node, header words, and link words of the free
list; every other word is left alone. -/
theorem alloc_frame {base R sz z : Int} {h : Heap} {pre post : List Blk} {F : Blk}
    {fl : List Int} (r : Rep base R h (pre ++ F :: post) fl) (hF : F.free = true)
    (hsz1 : 32 ≤ sz) (hsz2 : sz % 32 = 0) (hsz3 : sz ≤ F.size)
    (hz : Clear base R (pre ++ F :: post) fl z) (hzx : z < F.addr ∨ F.addr + F.size ≤ z) :
    (_k_allock_node F.addr sz h).2.mem z = h.mem z := by
  obtain ⟨x1, x2, x3, x4, x5, x6, x7⟩ := geom_node r.rep.geom
  have hbase := r.rep.base_pos
  have htop := r.rep.top
  have hR := r.rep.R_le
  have hd := (r.rep.hdr F (mem_full (by simp))).2
  have e1 : i32 (sz + 32) = sz + 32 := i32_of_range (by omega) (by omega)
  have hFfl : F.addr ∈ fl := by
    rw [r.rep.fl_mem]
    exact ⟨⟨F, by simp, hF, rfl⟩, by omega⟩
  rw [_k_allock_node_eq, hd, e1]
  have key : ∃ h1 : Heap, (if F.size ≥ sz + 32 then splitNode F.addr sz h else h) = h1 ∧
      ∃ fl1, FL h1.mem 0 h1._k_heapFreeList fl1 ∧ F.addr ∈ fl1 ∧
        (∀ a ∈ fl1, a ∈ fl ∨ (a = F.addr + sz ∧ sz + 32 ≤ F.size)) ∧
        h1.mem z = h.mem z := by
    by_cases c : sz + 32 ≤ F.size
    · rw [if_pos (by omega)]
      obtain ⟨s1, _, _, _⟩ := splitNode_spec r.rep hsz1 hsz2 c
      refine ⟨_, rfl, _, s1.flist, List.mem_cons_of_mem _ hFfl, ?_,
        split_frame r.rep hsz1 hsz2 c hz hzx⟩
      intro a ha
      rcases List.mem_cons.1 ha with e | e
      · exact Or.inr ⟨e, c⟩
      · exact Or.inl e
    · rw [if_neg (by omega)]
      exact ⟨_, rfl, fl, r.rep.flist, hFfl, fun a ha => Or.inl ha, rfl⟩
  obtain ⟨h1, hh1, fl1, hfl1, hF1, hsub, hfr⟩ := key
  rw [hh1]
  obtain ⟨n12, n16⟩ := FL_nbrs_mem hfl1 hF1
  have hzF := hz.1 F.addr (List.mem_map_of_mem _ (mem_full (by simp)))
  show (HeapDeleteFromFreeList F.addr { h1 with mem := store h1.mem F.addr HEAP_NODE_ALLOCED }).mem z
    = _
  rw [HD_touch]
  · show store h1.mem _ _ z = _
    rw [store_ne _ _ hzF.1, hfr]
  · show store h1.mem _ _ (F.addr + 16) = 0 ∨ z ≠ store h1.mem _ _ (F.addr + 16) + 12
    rw [store_ne _ _ (by omega)]
    rcases n16 with e | e
    · exact Or.inl e
    · right
      rcases hsub _ e with e' | ⟨e', c⟩
      · exact (hz.2 _ e').1
      · rw [e']; omega
  · show store h1.mem _ _ (F.addr + 12) = 0 ∨ z ≠ store h1.mem _ _ (F.addr + 12) + 16
    rw [store_ne _ _ (by omega)]
    rcases n12 with e | e
    · exact Or.inl e
    · right
      rcases hsub _ e with e' | ⟨e', c⟩
      · exact (hz.2 _ e').2
      · rw [e']; omega

/-- Handing out a node leaves the payloads of the allocated nodes alone. -/
theorem alloc_payload {base R sz z : Int} {h : Heap} {pre post : List Blk} {F x : Blk}
    {fl : List Int} (r : Rep base R h (pre ++ F :: post) fl) (hF : F.free = true)
    (hsz1 : 32 ≤ sz) (hsz2 : sz % 32 = 0) (hsz3 : sz ≤ F.size)
    (hx : x ∈ pre ∨ x ∈ post) (hxf : x.free = false)
    (h1 : x.addr + 12 ≤ z) (h2 : z < x.addr + x.size) :
    (_k_allock_node F.addr sz h).2.mem z = h.mem z := by
  obtain ⟨x1, x2, x3, x4, x5, x6, x7⟩ := geom_node r.rep.geom
  have hmem : x ∈ pre ++ F :: post := by
    simp only [List.mem_append, List.mem_cons]; tauto
  obtain ⟨p', q', e⟩ := List.append_of_mem hmem
  have r' := r.rep
  rw [e] at r'
  have hc := payload_clear r' hxf h1 h2
  rw [← e] at hc
  have hsz := geom_size r.rep.geom x hmem
  rcases hx with hx | hx
  · have := x6 x hx
    exact alloc_frame r hF hsz1 hsz2 hsz3 hc (by omega)
  · have := x7 x hx
    exact alloc_frame r hF hsz1 hsz2 hsz3 hc (by omega)

/-! ### Requests whose adjusted size overflows -/

/-- Above `2147483604` the adjusted size of a request wraps to one of two negative values. -/
theorem adjustSize_overflow {n : Int} (h0 : 2147483604 < n) (h1 : n ≤ 2147483647) :
    adjustSize n = -2147483648 ∨ adjustSize n = -2147483616 := by
  unfold adjustSize i32
  simp only [ALLOC_OFFSET, ALLOC_PAGE_SIZE]
  split <;> omega

/-- The head of the free list after `HeapDeleteFromFreeList` of a node that is not the head. -/
theorem HD_head_ne {x : Int} {h : Heap} (hx : x ≠ h._k_heapFreeList) :
    (HeapDeleteFromFreeList x h)._k_heapFreeList = h._k_heapFreeList := by
  unfold HeapDeleteFromFreeList
  simp only [if_neg hx]

/-- The node before the last node of the free list becomes the last one when
`HeapDeleteFromFreeList` takes the last node off. -/
theorem HD_next {x q : Int} {h : Heap} (h16 : h.mem (x + 16) = 0) (h12 : h.mem (x + 12) = q)
    (hq : q ≠ 0) : (HeapDeleteFromFreeList x h).mem (q + 16) = 0 := by
  have e : (HeapDeleteFromFreeList x h).mem = store h.mem (q + 16) 0 := by
    unfold HeapDeleteFromFreeList
    by_cases hh : x = h._k_heapFreeList
    · simp only [if_pos hh, h16, h12, ne_eq, not_true_eq_false, if_false, hq, not_false_eq_true,
        if_true]
    · simp only [if_neg hh, h16, h12, ne_eq, not_true_eq_false, if_false, hq, not_false_eq_true,
        if_true]
  rw [e, store_same]

/-- The old head of the free list points back to the node that `HeapChainToFreeList` puts
in front of it. -/
theorem HC_prev {x : Int} {h : Heap} (hh : h._k_heapFreeList ≠ 0)
    (hne : h._k_heapFreeList + 12 ≠ x + 16) :
    (HeapChainToFreeList x h).mem (h._k_heapFreeList + 12) = x := by
  unfold HeapChainToFreeList
  rw [if_neg hh]
  show store (store _ _ _) _ _ _ = _
  rw [store_ne _ _ hne, store_same]

/-- A request is refused when the free list is empty, or has one node whose size word is
below a page. -/
theorem kmalloc_fail_of_head {h : Heap} {m : Int} (hm0 : 0 < m) (hm1 : m ≤ 2147483604)
    (hh : h._k_heapFreeList = 0 ∨ (h.mem (h._k_heapFreeList + 4) < 32 ∧
      h.mem (h._k_heapFreeList + 16) = 0)) :
    _kmalloc m h = some (0, h) := by
  have hadj := adjustSize_spec hm0 hm1
  by_cases h0 : h._k_heapFreeList = 0
  · refine @kmalloc_no_fit _ _ [] hm0 ?_ (by simp)
    unfold freeNodes
    exact @freeWalk_of_FL _ [] _ 0 _ h0 (by unfold FUEL; simp)
  · rcases hh with hh | ⟨hh1, hh2⟩
    · exact absurd hh h0
    · refine @kmalloc_no_fit _ _ [h._k_heapFreeList] hm0 ?_ ?_
      · unfold freeNodes
        exact @freeWalk_of_FL _ [h._k_heapFreeList] _ (h.mem (h._k_heapFreeList + 12)) _
          ⟨rfl, h0, rfl, hh2⟩ (by unfold FUEL; simp)
      · intro a ha
        rw [List.mem_singleton] at ha
        rw [ha]
        omega

/-- With at most one node on the free list, a request above `2147483604` either is refused
or leaves a free list from which the next request is refused. -/
theorem kmalloc_overflow {base R : Int} {h : Heap} {bs : List Blk} {fl : List Int} {n m : Int}
    (r : Rep base R h bs fl) (hlen : fl.length ≤ 1)
    (hn0 : 2147483604 < n) (hn1 : n ≤ 2147483647) (hm0 : 0 < m) (hm1 : m ≤ 2147483604) :
    ∃ p h1, _kmalloc n h = some (p, h1) ∧ (p = 0 ∨ _kmalloc m h1 = some (0, h1)) := by
  have hk := kmalloc_eq (n := n) r.rep (by omega)
  match fl, r, hlen, hk with
  | [], r, _, hk =>
    refine ⟨0, h, ?_, Or.inl rfl⟩
    rw [hk]
    simp [pick]
  | [a], r, _, hk =>
    obtain ⟨pre, F, post, rfl, hF, hFa, hsz⟩ := r.rep.block_of_fl (List.mem_singleton_self a)
    subst hFa
    obtain ⟨_, _, n3, n4, n5, n6, n7⟩ := r.node
    have hfl := r.rep.flist
    obtain ⟨hhead, ha0, h12, h16⟩ := hfl
    have h16' : h.mem (F.addr + 16) = 0 := h16
    have hR := r.rep.R_le
    have hadj := adjustSize_overflow hn0 hn1
    generalize adjustSize n = adj at hadj hk
    have hpick : pick h.mem adj [F.addr] 0 = F.addr := by
      unfold pick
      rw [if_pos (by omega), if_neg (by omega)]
      simp [pick]
    rw [hpick, if_pos ⟨ha0, by omega⟩] at hk
    refine ⟨(_k_allock_node F.addr adj h).1, (_k_allock_node F.addr adj h).2, hk, Or.inr ?_⟩
    have hnn : 0 ≤ u32 (F.addr + adj) ∧ u32 (F.addr + adj) < 4294967296 ∧
        (u32 (F.addr + adj) = F.addr + adj ∨ u32 (F.addr + adj) = F.addr + adj + 4294967296) := by
      unfold u32; omega
    have e1 : i32 (adj + 32) = adj + 32 := i32_of_range (by omega) (by omega)
    have e2 : i32 (F.size - adj) = F.size - adj - 4294967296 := by
      unfold i32; omega
    rw [_k_allock_node_eq, hsz, e1, if_pos (by omega)]
    -- the heap after the split
    have hs_head : (splitNode F.addr adj h)._k_heapFreeList = u32 (F.addr + adj) := by
      unfold splitNode
      simp only [HeapChainToFreeList_head]
    have hHC4 : (HeapChainToFreeList (u32 (F.addr + adj)) { h with mem := store (store (store (store h.mem (u32 (F.addr + adj) + 4) (i32 (h.mem (F.addr + 4) - adj))) (u32 (F.addr + adj)) HEAP_NODE_FREE) (u32 (F.addr + adj) + 8) F.addr) (F.addr + 4) adj }).mem (u32 (F.addr + adj) + 4) = F.size - adj - 4294967296 := by
      rw [HC_touch _ _ _ (by omega) (by omega) (Or.inr (by show _ ≠ h._k_heapFreeList + 12; rw [hhead]; omega))]
      show store (store (store (store h.mem _ _) _ _) _ _) _ _ _ = _
      rw [store_ne _ _ (by omega), store_ne _ _ (by omega), store_ne _ _ (by omega), store_same,
        hsz, e2]
    have e3 : u32 (u32 (F.addr + adj) + (F.size - adj - 4294967296)) = F.addr + F.size := by
      unfold u32 at hnn ⊢; omega
    have hs_mem : (splitNode F.addr adj h).mem =
        store (HeapChainToFreeList (u32 (F.addr + adj)) { h with mem := store (store (store (store h.mem (u32 (F.addr + adj) + 4) (i32 (h.mem (F.addr + 4) - adj))) (u32 (F.addr + adj)) HEAP_NODE_FREE) (u32 (F.addr + adj) + 8) F.addr) (F.addr + 4) adj }).mem
          (F.addr + F.size + 8) (u32 (F.addr + adj)) := by
      unfold splitNode
      simp only [hHC4, e3]
    have hs4 : (splitNode F.addr adj h).mem (u32 (F.addr + adj) + 4) =
        F.size - adj - 4294967296 := by
      rw [hs_mem, store_ne _ _ (by omega), hHC4]
    have hs12 : (splitNode F.addr adj h).mem (F.addr + 12) = u32 (F.addr + adj) := by
      rw [hs_mem, store_ne _ _ (by omega)]
      have key : ∀ hd, h._k_heapFreeList = hd → hd ≠ 0 → hd + 12 ≠ u32 (F.addr + adj) + 16 →
          (HeapChainToFreeList (u32 (F.addr + adj)) { h with mem := store (store (store (store h.mem (u32 (F.addr + adj) + 4) (i32 (h.mem (F.addr + 4) - adj))) (u32 (F.addr + adj)) HEAP_NODE_FREE) (u32 (F.addr + adj) + 8) F.addr) (F.addr + 4) adj }).mem (hd + 12) = u32 (F.addr + adj) := by
        intro hd e e0 e1
        subst e
        exact HC_prev e0 e1
      exact key _ hhead ha0 (by omega)
    have hs16 : (splitNode F.addr adj h).mem (F.addr + 16) = 0 := by
      rw [hs_mem, store_ne _ _ (by omega),
        HC_touch _ _ _ (by omega) (by omega) (Or.inr (by show _ ≠ h._k_heapFreeList + 12; rw [hhead]; omega))]
      show store (store (store (store h.mem _ _) _ _) _ _) _ _ _ = _
      rw [store_ne _ _ (by omega), store_ne _ _ (by omega), store_ne _ _ (by omega),
        store_ne _ _ (by omega), h16']
    generalize splitNode F.addr adj h = hs at hs_head hs4 hs12 hs16
    generalize u32 (F.addr + adj) = nn at hnn hs_head hs4 hs12 hs16
    clear hs_mem hHC4 e3
    -- the step that hands the node out
    apply kmalloc_fail_of_head hm0 hm1
    show (HeapDeleteFromFreeList F.addr { hs with mem := store hs.mem F.addr HEAP_NODE_ALLOCED })._k_heapFreeList = 0 ∨
      ((HeapDeleteFromFreeList F.addr { hs with mem := store hs.mem F.addr HEAP_NODE_ALLOCED }).mem
        ((HeapDeleteFromFreeList F.addr { hs with mem := store hs.mem F.addr HEAP_NODE_ALLOCED })._k_heapFreeList + 4) < 32 ∧
      (HeapDeleteFromFreeList F.addr { hs with mem := store hs.mem F.addr HEAP_NODE_ALLOCED }).mem
        ((HeapDeleteFromFreeList F.addr { hs with mem := store hs.mem F.addr HEAP_NODE_ALLOCED })._k_heapFreeList + 16) = 0)
    have t16 : (store hs.mem F.addr HEAP_NODE_ALLOCED) (F.addr + 16) = 0 := by
      rw [store_ne _ _ (by omega), hs16]
    have t12 : (store hs.mem F.addr HEAP_NODE_ALLOCED) (F.addr + 12) = nn := by
      rw [store_ne _ _ (by omega), hs12]
    rw [@HD_head_ne F.addr { hs with mem := store hs.mem F.addr HEAP_NODE_ALLOCED }
      (by show F.addr ≠ hs._k_heapFreeList; rw [hs_head]; omega)]
    show hs._k_heapFreeList = 0 ∨ _
    rw [hs_head]
    by_cases hz : nn = 0
    · exact Or.inl hz
    · right
      constructor
      · rw [HD_touch _ _ _ (Or.inl t16)
          (Or.inr (by
            show nn + 4 ≠ store hs.mem F.addr HEAP_NODE_ALLOCED (F.addr + 12) + 16
            rw [t12]; omega))]
        show store hs.mem _ _ _ < 32
        rw [store_ne _ _ (by omega), hs4]
        omega
      · exact HD_next t16 t12 hz

/-! ### The invariant of the tracker -/

theorem blocksOf_append (l1 l2 : List Rec) :
    blocksOf (l1 ++ l2) = blocksOf l1 ++ blocksOf l2 := by
  induction l1 with
  | nil => rfl
  | cons r l1 ih => simp [blocksOf, ih]

theorem mem_blocksOf {q : Int} : ∀ {rs : List Rec},
    q ∈ blocksOf rs ↔ ∃ r ∈ rs, q = r.a ∨ q = r.p - 8
  | [] => by simp [blocksOf]
  | r :: rs => by
    simp only [blocksOf, List.mem_cons, @mem_blocksOf _ rs]
    constructor
    · rintro (h | h | ⟨r', h1, h2⟩)
      · exact ⟨r, Or.inl rfl, Or.inl h⟩
      · exact ⟨r, Or.inl rfl, Or.inr h⟩
      · exact ⟨r', Or.inr h1, h2⟩
    · rintro ⟨r', (rfl | h1), h2⟩
      · rcases h2 with h2 | h2
        · exact Or.inl h2
        · exact Or.inr (Or.inl h2)
      · exact Or.inr (Or.inr ⟨r', h1, h2⟩)

theorem length_blocksOf (rs : List Rec) : (blocksOf rs).length = 2 * rs.length := by
  induction rs with
  | nil => rfl
  | cons r rs ih => simp only [blocksOf, List.length_cons, ih]; omega

theorem sizeSum_append (l1 l2 : List Rec) : sizeSum (l1 ++ l2) = sizeSum l1 + sizeSum l2 := by
  induction l1 with
  | nil => simp [sizeSum]
  | cons r l1 ih =>
    show r.s + sizeSum (l1 ++ l2) = r.s + sizeSum l1 + sizeSum l2
    rw [ih]; omega

/-- A chain of records depends on the `next` words of its records only. -/
theorem ChainL_congr {c : Layout} {m m' : Mem} : ∀ {l : List Rec} {cur : Int},
    (∀ r ∈ l, m' (r.a + c.off_next) = m (r.a + c.off_next)) → ChainL c m cur l →
    ChainL c m' cur l
  | [], _, _, h => h
  | r :: t, _, hm, h => by
    refine ⟨h.1, ?_⟩
    rw [hm r (List.mem_cons_self _ _)]
    exact ChainL_congr (fun x hx => hm x (List.mem_cons_of_mem _ hx)) h.2

theorem wrap_add (c : Layout) (x y : Int) : c.wrap (c.wrap x + y) = c.wrap (x + y) := by
  unfold Layout.wrap i32 u32
  split <;> omega

theorem wrap_sub (c : Layout) (x y : Int) : c.wrap (c.wrap x - y) = c.wrap (x - y) := by
  unfold Layout.wrap i32 u32
  split <;> omega

/-- Two nodes of the chain with different addresses do not overlap. -/
theorem blk_disjoint {base R : Int} {bs : List Blk}
    (hg : List.Chain' Adj (full base R bs)) {x y : Blk} (hx : x ∈ bs) (hy : y ∈ bs)
    (hne : x.addr ≠ y.addr) :
    x.addr + x.size ≤ y.addr ∨ y.addr + y.size ≤ x.addr := by
  obtain ⟨pre, post, rfl⟩ := List.append_of_mem hy
  obtain ⟨_, _, _, _, _, x6, x7⟩ := geom_node hg
  simp only [List.mem_append, List.mem_cons] at hx
  rcases hx with hx | rfl | hx
  · exact Or.inl (x6 x hx).1
  · exact absurd rfl hne
  · exact Or.inr (x7 x hx).1

theorem allocFl_length {fl : List Int} {F : Blk} (sz : Int) (hlen : fl.length ≤ 1)
    (hF : F.addr ∈ fl) : (allocFl fl F sz).length ≤ 1 := by
  match fl, hlen, hF with
  | [a], _, hF =>
    rw [List.mem_singleton] at hF
    subst hF
    unfold allocFl
    split <;> simp

theorem Live.congr {bs : List Blk} {L L' : List Int} (hl : Live bs L) (hnd : L'.Nodup)
    (hm : ∀ p, p ∈ L' ↔ p ∈ L) : Live bs L' :=
  ⟨hnd, fun p => (hm p).trans (hl.2 p)⟩

/-- There are no more blocks handed out than nodes, and a node takes a page at least. -/
theorem Live.length_le {base R : Int} {h : Heap} {bs : List Blk} {fl L : List Int}
    (r : Rep base R h bs fl) (hl : Live bs L) : 32 * (L.length : Int) ≤ R - 64 := by
  have hsub : L ⊆ bs.map (fun b => b.addr + 12) := by
    intro p hp
    obtain ⟨b, hb, _, rfl⟩ := (hl.2 p).1 hp
    exact List.mem_map_of_mem _ hb
  have h1 := (List.subperm_of_subset hl.1 hsub).length_le
  rw [List.length_map] at h1
  have h2 := length_le_sums bs (geom_size r.rep.geom)
  have h3 := r.rep.sums
  have h4 : (L.length : Int) ≤ bs.length := by exact_mod_cast h1
  omega

/-! ### The records along the calls of the arena -/

theorem RecFrame.trans {c : Layout} {rs : List Rec} {m0 m1 m2 : Mem}
    (h1 : RecFrame c rs m0 m1) (h2 : RecFrame c rs m1 m2) : RecFrame c rs m0 m2 :=
  fun r hr off a b => (h2 r hr off a b).trans (h1 r hr off a b)

theorem RecBlks.mono {c : Layout} {rs rs' : List Rec} {bs : List Blk}
    (h1 : RecBlks c rs bs) (hs : ∀ r ∈ rs', r ∈ rs) : RecBlks c rs' bs :=
  fun r hr => h1 r (hs r hr)

/-- The fields of the records carry over to a memory that agrees on the records. -/
theorem flds_of_frame {c : Layout} (hc : c.OK) {rs : List Rec} {m m' : Mem}
    (hf : RecFrame c rs m m')
    (h : ∀ r ∈ rs, m (r.a + c.off_p) = r.p ∧ m (r.a + c.off_size) = r.s) :
    ∀ r ∈ rs, m' (r.a + c.off_p) = r.p ∧ m' (r.a + c.off_size) = r.s := by
  intro r hr
  rw [hf r hr _ hc.p_in.1 hc.p_in.2, hf r hr _ hc.size_in.1 hc.size_in.2]
  exact h r hr

/-- A chain of records carries over to a memory that agrees on the records. -/
theorem chain_of_frame {c : Layout} (hc : c.OK) {rs l : List Rec} {m m' : Mem} {cur : Int}
    (hf : RecFrame c rs m m') (hl : ∀ r ∈ l, r ∈ rs) (h : ChainL c m cur l) :
    ChainL c m' cur l :=
  ChainL_congr (fun r hr => hf r (hl r hr) _ hc.next_in.1 hc.next_in.2) h

theorem mem_of_mem_chainOf {c : Layout} {rs : List Rec} {i : Nat} :
    ∀ r ∈ chainOf c rs i, r ∈ rs :=
  fun r hr => (List.mem_filter.1 hr).1

/-- Handing out a node leaves the records alone. -/
theorem alloc_keeps {c : Layout} {rs : List Rec} {base R sz : Int} {h : Heap}
    {pre post : List Blk} {F : Blk} {fl : List Int}
    (r : Rep base R h (pre ++ F :: post) fl) (hF : F.free = true)
    (hsz1 : 32 ≤ sz) (hsz2 : sz % 32 = 0) (hsz3 : sz ≤ F.size)
    (hb : RecBlks c rs (pre ++ F :: post)) :
    RecFrame c rs h.mem (_k_allock_node F.addr sz h).2.mem ∧
      RecBlks c rs (allocList pre F post sz) := by
  have key : ∀ r' ∈ rs, ∃ x, (x ∈ pre ∨ x ∈ post) ∧ x.free = false ∧ x.addr + 12 = r'.a ∧
      c.sizeof_HEAP_MM + 12 ≤ x.size := by
    intro r' hr'
    obtain ⟨x, hx, hxf, hxa, hxs⟩ := hb r' hr'
    refine ⟨x, ?_, hxf, hxa, hxs⟩
    simp only [List.mem_append, List.mem_cons] at hx
    rcases hx with hx | rfl | hx
    · exact Or.inl hx
    · rw [hF] at hxf; exact absurd hxf (by simp)
    · exact Or.inr hx
  constructor
  · intro r' hr' off h0 h1
    obtain ⟨x, hx, hxf, hxa, hxs⟩ := key r' hr'
    rw [← hxa]
    exact alloc_payload r hF hsz1 hsz2 hsz3 hx hxf (by omega) (by omega)
  · intro r' hr'
    obtain ⟨x, hx, hxf, hxa, hxs⟩ := key r' hr'
    exact ⟨x, (alloc_alloc_mem sz hF hxf).2 (Or.inl hx), hxf, hxa, hxs⟩

/-- A release leaves the records in other nodes alone. -/
theorem free_keeps {c : Layout} {rs : List Rec} {base R : Int} {h : Heap}
    {pre post : List Blk} {N : Blk} {fl : List Int}
    (r : Rep base R h (pre ++ N :: post) fl) (hN : N.free = false)
    (hb : RecBlks c rs (pre ++ N :: post)) (hne : ∀ r ∈ rs, r.a ≠ N.addr + 12) :
    RecFrame c rs h.mem (kfreeBody N.addr h).mem ∧ RecBlks c rs (freedList pre N post) := by
  have key : ∀ r' ∈ rs, ∃ x, (x ∈ pre ∨ x ∈ post) ∧ x.free = false ∧ x.addr + 12 = r'.a ∧
      c.sizeof_HEAP_MM + 12 ≤ x.size := by
    intro r' hr'
    obtain ⟨x, hx, hxf, hxa, hxs⟩ := hb r' hr'
    refine ⟨x, ?_, hxf, hxa, hxs⟩
    simp only [List.mem_append, List.mem_cons] at hx
    rcases hx with hx | rfl | hx
    · exact Or.inl hx
    · exact absurd hxa.symm (hne r' hr')
    · exact Or.inr hx
  constructor
  · intro r' hr' off h0 h1
    obtain ⟨x, hx, hxf, hxa, hxs⟩ := key r' hr'
    rw [← hxa]
    exact kfree_payload r hN hx hxf (by omega) (by omega)
  · intro r' hr'
    obtain ⟨x, hx, hxf, hxa, hxs⟩ := key r' hr'
    exact ⟨x, (freed_alloc_mem hxf).2 hx, hxf, hxa, hxs⟩

/-- Writes into the payload of an allocated node leave the records in other nodes alone. -/
theorem write_keeps {c : Layout} {rs : List Rec} {base R : Int} {h : Heap} {bs : List Blk}
    {fl : List Int} {B : Blk} (r : Rep base R h bs fl) (hB : B ∈ bs)
    (hb : RecBlks c rs bs) (hne : ∀ r ∈ rs, r.a ≠ B.addr + 12) (m' : Mem)
    (hm : ∀ y, (y < B.addr + 12 ∨ B.addr + B.size ≤ y) → m' y = h.mem y) :
    RecFrame c rs h.mem m' := by
  intro r' hr' off h0 h1
  obtain ⟨x, hx, hxf, hxa, hxs⟩ := hb r' hr'
  have hd := blk_disjoint r.rep.geom hx hB (by have := hne r' hr'; omega)
  have hszx := geom_size r.rep.geom x hx
  have hszB := geom_size r.rep.geom B hB
  apply hm
  omega

/-- One call of `_kmalloc` on a device: either it is refused without effect, or it hands
out a new allocated node of at least `n + 12` bytes and leaves the records alone. -/
theorem kmalloc_track {c : Layout} {rs : List Rec} {base R n : Int} {h : Heap}
    {bs : List Blk} {fl L : List Int} (r : Rep base R h bs fl) (hl : Live bs L)
    (hb : RecBlks c rs bs) (hlen : fl.length ≤ 1) (hn0 : 0 < n) (hn1 : n ≤ 2147483604) :
    _kmalloc n h = some (0, h) ∨
    ∃ q h1 bs1 fl1 B, _kmalloc n h = some (q, h1) ∧ q ≠ 0 ∧ 0 < q ∧ q + 8 < 4294967296 ∧
      Rep base R h1 bs1 fl1 ∧ Live bs1 (q :: L) ∧ RecFrame c rs h.mem h1.mem ∧
      RecBlks c rs bs1 ∧ fl1.length ≤ 1 ∧ B ∈ bs1 ∧ B.free = false ∧ B.addr + 12 = q ∧
      n + 12 ≤ B.size := by
  rcases kmalloc_cases r hn0 with hfail | ⟨pre, F, post, rfl, hF, _, hfit, hk⟩
  · exact Or.inl hfail.1
  · right
    obtain ⟨a1, a2, a3, a4⟩ := kmalloc_alloc r hl hF hn0 hn1 hfit
    obtain ⟨s1, s2, s3, s4⟩ := adjustSize_spec hn0 hn1
    obtain ⟨k1, k2⟩ := @alloc_keeps c rs _ _ _ _ _ _ _ _ r hF s1 s2 hfit hb
    obtain ⟨_, _, n3, n4, n5, n6, n7⟩ := r.node
    have hFfl : F.addr ∈ fl := by
      rw [r.rep.fl_mem]
      exact ⟨⟨F, by simp, hF, rfl⟩, by omega⟩
    obtain ⟨post', hsplit⟩ := allocList_split pre post F (adjustSize n)
    refine ⟨(_k_allock_node F.addr (adjustSize n) h).1, (_k_allock_node F.addr (adjustSize n) h).2,
      _, _, ⟨F.addr, if adjustSize n + 32 ≤ F.size then adjustSize n else F.size, false⟩,
      hk, ?_, ?_, ?_, a2, ?_, k1, k2, allocFl_length _ hlen hFfl, ?_, rfl, ?_, ?_⟩
    · rw [a1]; omega
    · rw [a1]; omega
    · rw [a1]; omega
    · rw [a1]; exact a3
    · rw [hsplit]; simp
    · rw [a1]
    · show n + 12 ≤ (if adjustSize n + 32 ≤ F.size then adjustSize n else F.size)
      split <;> omega

/-! ### A successful `uffs_malloc` -/

/-- The call `__umalloc` returns `NULL` when the arena refuses the block. -/
theorem umalloc_fail1 (c : Layout) (task size : Int) (d : Dev) {h1 : Heap}
    (hk : _kmalloc (i32 (HEAP_MAGIC_SIZE + size + HEAP_MAGIC_SIZE)) d.heap = some (0, h1)) :
    ∃ d1, __umalloc c task size d = some (0, d1) := by
  unfold __umalloc
  rw [hk]
  simp only [ne_eq, not_true_eq_false, if_false]
  exact ⟨_, rfl⟩

/-- The call `__umalloc` returns `NULL` when the arena refuses the record. -/
theorem umalloc_fail2 (c : Layout) (task size : Int) (d : Dev) {q1 : Int} {h1 h2 : Heap}
    (hk : _kmalloc (i32 (HEAP_MAGIC_SIZE + size + HEAP_MAGIC_SIZE)) d.heap = some (q1, h1))
    (hk2 : _kmalloc c.sizeof_HEAP_MM h1 = some (0, h2)) :
    ∃ d1, __umalloc c task size d = some (0, d1) := by
  unfold __umalloc
  rw [hk]
  by_cases hq : q1 = 0
  · simp only [ne_eq, hq, not_true_eq_false, if_false]
    exact ⟨_, rfl⟩
  · simp only [ne_eq, hq, not_false_eq_true, if_true]
    rw [hk2]
    simp only [if_true]
    exact ⟨_, rfl⟩

/-- The state after a call of `__umalloc` for which the arena served the block and the
record. -/
theorem umalloc_ok (c : Layout) (task size : Int) (d : Dev) {q1 q2 : Int} {h1 h2 : Heap}
    (hk : _kmalloc (i32 (HEAP_MAGIC_SIZE + size + HEAP_MAGIC_SIZE)) d.heap = some (q1, h1))
    (hq1 : q1 ≠ 0) (hk2 : _kmalloc c.sizeof_HEAP_MM h1 = some (q2, h2)) (hq2 : q2 ≠ 0) :
    __umalloc c task size d = some (u32 (q1 + 8),
      { heap := { h2 with mem := store (store (store (store h2.mem (q2 + c.off_p) (u32 (q1 + 8))) (q2 + c.off_size) size) (q2 + c.off_task_id) task) (q2 + c.off_next) (d.tbl (c.GET_HASH_INDEX (u32 (q1 + 8)))) }
        tbl_addr := d.tbl_addr
        tbl := setTbl d.tbl (c.GET_HASH_INDEX (u32 (q1 + 8))) q2
        count := c.wrap (d.count + size)
        maxused := if d.maxused < c.wrap (d.count + size) then c.wrap (d.count + size)
          else d.maxused }) := by
  unfold __umalloc
  rw [hk]
  simp only [ne_eq, hq1, not_false_eq_true, if_true]
  rw [hk2]
  simp only [hq2, if_false, HEAP_MAGIC_SIZE]

theorem chainOf_cons (c : Layout) (r : Rec) (rs : List Rec) (i : Nat) :
    chainOf c (r :: rs) i =
      if c.GET_HASH_INDEX r.p = i then r :: chainOf c rs i else chainOf c rs i := by
  unfold chainOf
  rw [List.filter_cons]
  simp only [decide_eq_true_eq]

/-- A call of `uffs_malloc` that returns a block, on a device whose free list has one node
at most, adds one record and keeps the invariant. -/
theorem umalloc_step {c : Layout} (hc : c.OK) {base R c0 : Int} {d d' : Dev} {rs : List Rec}
    {bs : List Blk} {fl : List Int} {task size p : Int}
    (inv : TInv c base R c0 d rs bs fl) (hlen : fl.length ≤ 1)
    (hs0 : 0 ≤ size) (hs1 : size < 4294967296)
    (hcall : uffs_malloc c task size d = some (p, d')) (hp : p ≠ 0) :
    ∃ r bs' fl', TInv c base R c0 d' (r :: rs) bs' fl' ∧ fl'.length ≤ 1 ∧
      d'.tbl_addr = d.tbl_addr := by
  have hsz0 := hc.size_pos
  have hsz1 := hc.size_le
  have hfail : ∀ d1, __umalloc c task size d = some (0, d1) →
      uffs_malloc c task size d = some (p, d') → False := by
    intro d1 e hcall
    unfold uffs_malloc at hcall
    split at hcall
    · simp only [Option.some.injEq, Prod.mk.injEq] at hcall
      exact hp hcall.1.symm
    · split at hcall
      · rw [e] at hcall
        simp only [Option.some.injEq, Prod.mk.injEq] at hcall
        exact hp hcall.1.symm
      · simp only [Option.some.injEq, Prod.mk.injEq] at hcall
        exact hp hcall.1.symm
  have hn1 : i32 (HEAP_MAGIC_SIZE + size + HEAP_MAGIC_SIZE) ≤ 2147483647 := by
    unfold i32; omega
  generalize hnd : i32 (HEAP_MAGIC_SIZE + size + HEAP_MAGIC_SIZE) = n at hn1
  by_cases hn0 : n ≤ 0
  · -- the arena refuses a size that is not positive
    have hk : _kmalloc n d.heap = some (0, d.heap) := by
      unfold _kmalloc; rw [if_pos hn0]
    rw [← hnd] at hk
    obtain ⟨d1, e⟩ := umalloc_fail1 c task size d hk
    exact (hfail d1 e hcall).elim
  by_cases hbig : 2147483604 < n
  · -- the adjusted size overflows
    obtain ⟨q1, h1, hk, hor⟩ := kmalloc_overflow (m := c.sizeof_HEAP_MM) inv.rep hlen hbig hn1
      hsz0 (by omega)
    rw [← hnd] at hk
    rcases hor with rfl | hk2
    · obtain ⟨d1, e⟩ := umalloc_fail1 c task size d hk
      exact (hfail d1 e hcall).elim
    · obtain ⟨d1, e⟩ := umalloc_fail2 c task size d hk hk2
      exact (hfail d1 e hcall).elim
  -- the block
  rcases @kmalloc_track c rs _ _ _ _ _ _ _ inv.rep inv.live inv.blks hlen (by omega : 0 < n)
    (by omega) with hk | ⟨q1, h1, bs1, fl1, B1, hk, hq1, hq1p, hq1u, r1, l1, f1, b1, len1, hB1, hB1f,
      hB1a, hB1s⟩
  · rw [← hnd] at hk
    obtain ⟨d1, e⟩ := umalloc_fail1 c task size d hk
    exact (hfail d1 e hcall).elim
  rw [← hnd] at hk
  -- the record
  rcases @kmalloc_track c rs _ _ _ _ _ _ _ r1 l1 b1 len1 hsz0 (by omega) with
    hk2 | ⟨q2, h2, bs2, fl2, B2, hk2, hq2, hq2p, hq2u, r2, l2, f2, b2, len2, hB2, hB2f, hB2a, hB2s⟩
  · obtain ⟨d1, e⟩ := umalloc_fail2 c task size d hk hk2
    exact (hfail d1 e hcall).elim
  have hres := umalloc_ok c task size d hk hq1 hk2 hq2
  have eu : u32 (q1 + 8) = q1 + 8 := u32_of_range (by omega) (by omega)
  rw [eu] at hres
  -- the state returned
  have hd' : p = q1 + 8 ∧ d' = { heap := { h2 with mem := store (store (store (store h2.mem (q2 + c.off_p) (q1 + 8)) (q2 + c.off_size) size) (q2 + c.off_task_id) task) (q2 + c.off_next) (d.tbl (c.GET_HASH_INDEX (q1 + 8))) }, tbl_addr := d.tbl_addr, tbl := setTbl d.tbl (c.GET_HASH_INDEX (q1 + 8)) q2, count := c.wrap (d.count + size), maxused := if d.maxused < c.wrap (d.count + size) then c.wrap (d.count + size) else d.maxused } := by
    unfold uffs_malloc at hcall
    split at hcall
    · simp only [Option.some.injEq, Prod.mk.injEq] at hcall
      exact absurd hcall.1.symm hp
    · split at hcall
      · rw [hres] at hcall
        simp only [Option.some.injEq, Prod.mk.injEq] at hcall
        exact ⟨hcall.1.symm, hcall.2.symm⟩
      · simp only [Option.some.injEq, Prod.mk.injEq] at hcall
        exact absurd hcall.1.symm hp
  obtain ⟨hpe, hde⟩ := hd'
  subst hde
  -- the four words written lie in the payload of the node of the record
  obtain ⟨o1, o2⟩ := hc.next_in
  obtain ⟨o3, o4⟩ := hc.p_in
  obtain ⟨o5, o6⟩ := hc.size_in
  obtain ⟨o7, o8⟩ := hc.task_in
  obtain ⟨g1, g2, g3, g4, g5, g6⟩ := hc.distinct
  have hwrite : ∀ y, (y < B2.addr + 12 ∨ B2.addr + B2.size ≤ y) →
      store (store (store (store h2.mem (q2 + c.off_p) (q1 + 8)) (q2 + c.off_size) size) (q2 + c.off_task_id) task) (q2 + c.off_next) (d.tbl (c.GET_HASH_INDEX (q1 + 8))) y = h2.mem y := by
    intro y hy
    rw [store_ne _ _ (by omega), store_ne _ _ (by omega), store_ne _ _ (by omega),
      store_ne _ _ (by omega)]
  obtain ⟨pre2, post2, rfl⟩ := List.append_of_mem hB2
  have r3 := r2.payload_frame hB2f _ hwrite
  -- the old records are not the new one
  have hnd2 := l2.1
  have hne2 : ∀ r ∈ rs, r.a ≠ B2.addr + 12 := by
    intro r hr e
    have h1 : r.a ∈ q1 :: blocksOf rs :=
      List.mem_cons_of_mem _ (mem_blocksOf.2 ⟨r, hr, Or.inl rfl⟩)
    rw [hB2a] at e
    rw [e] at h1
    exact (List.nodup_cons.1 hnd2).1 h1
  have f3 := @write_keeps c rs _ _ _ _ _ _ r2 hB2 b2 hne2 _ hwrite
  have fall : RecFrame c rs d.heap.mem (store (store (store (store h2.mem (q2 + c.off_p) (q1 + 8)) (q2 + c.off_size) size) (q2 + c.off_task_id) task) (q2 + c.off_next) (d.tbl (c.GET_HASH_INDEX (q1 + 8)))) :=
    (f1.trans f2).trans f3
  refine ⟨⟨q2, q1 + 8, size⟩, _, fl2, ⟨r3, ?_, ?_, ?_, ?_, ?_⟩, len2, rfl⟩
  · -- the blocks handed out
    have e : q1 + 8 - 8 = q1 := by omega
    show Live _ (q2 :: (q1 + 8 - 8) :: blocksOf rs)
    rw [e]
    exact l2
  · -- the fields
    intro r hr
    rcases List.mem_cons.1 hr with rfl | hr
    · constructor
      · show store (store (store (store h2.mem _ _) _ _) _ _) _ _ (q2 + c.off_p) = q1 + 8
        rw [store_ne _ _ (by omega), store_ne _ _ (by omega), store_ne _ _ (by omega),
          store_same]
      · show store (store (store (store h2.mem _ _) _ _) _ _) _ _ (q2 + c.off_size) = size
        rw [store_ne _ _ (by omega), store_ne _ _ (by omega), store_same]
    · exact flds_of_frame hc fall inv.flds r hr
  · -- the nodes of the records
    intro r hr
    rcases List.mem_cons.1 hr with rfl | hr
    · exact ⟨B2, hB2, hB2f, hB2a, by omega⟩
    · exact b2 r hr
  · -- the chains
    intro i
    rw [chainOf_cons]
    show ChainL c _ (setTbl d.tbl (c.GET_HASH_INDEX (q1 + 8)) q2 i) _
    by_cases hi : c.GET_HASH_INDEX (q1 + 8) = i
    · rw [if_pos hi]
      subst hi
      refine ⟨by simp [setTbl], ?_⟩
      show ChainL c _ (store (store (store (store h2.mem _ _) _ _) _ _) _ _ (q2 + c.off_next)) _
      rw [store_same]
      exact chain_of_frame hc fall mem_of_mem_chainOf (inv.chains _)
    · rw [if_neg hi]
      have e : setTbl d.tbl (c.GET_HASH_INDEX (q1 + 8)) q2 i = d.tbl i := by
        unfold setTbl
        rw [if_neg (fun e => hi e.symm)]
      rw [e]
      exact chain_of_frame hc fall mem_of_mem_chainOf (inv.chains i)
  · -- the counter
    show c.wrap (d.count + size) = c.wrap (c0 + (size + sizeSum rs))
    rw [inv.count, wrap_add]
    congr 1
    omega

/-! ### The release of the first record of a chain -/

/-- The call `__ufree` of the block of the first record of its chain: the record leaves the
chain, its size leaves `count`, and the record and the block go back to the arena. -/
theorem ufree_first (c : Layout) (p : Int) (d : Dev) (hp : p ≠ 0)
    (hnode : d.tbl (c.GET_HASH_INDEX p) ≠ 0)
    (hfld : d.heap.mem (d.tbl (c.GET_HASH_INDEX p) + c.off_p) = p)
    (hk1 : (_kfree (d.tbl (c.GET_HASH_INDEX p)) d.heap).1 = 0) :
    __ufree c p d =
      some ((_kfree (u32 (p - 8)) (_kfree (d.tbl (c.GET_HASH_INDEX p)) d.heap).2).1,
        { d with
          heap := (_kfree (u32 (p - 8)) (_kfree (d.tbl (c.GET_HASH_INDEX p)) d.heap).2).2
          tbl := setTbl d.tbl (c.GET_HASH_INDEX p)
            (d.heap.mem (d.tbl (c.GET_HASH_INDEX p) + c.off_next))
          count := c.wrap (d.count - d.heap.mem (d.tbl (c.GET_HASH_INDEX p) + c.off_size)) }) := by
  have hk1' : ¬ (_kfree (d.tbl (c.GET_HASH_INDEX p)) d.heap).1 = -1 := by rw [hk1]; decide
  unfold __ufree
  rw [if_pos hp]
  show ufreeLoop c p d (4294967296 + 1) _ 0 = _
  unfold ufreeLoop
  rw [if_neg hnode, if_pos hfld]
  simp only [ne_eq, not_true_eq_false, if_false, HEAP_MAGIC_SIZE]
  rw [if_neg hk1']

theorem chainOf_append (c : Layout) (l1 l2 : List Rec) (i : Nat) :
    chainOf c (l1 ++ l2) i = chainOf c l1 i ++ chainOf c l2 i := by
  unfold chainOf
  rw [List.filter_append]

theorem chainOf_nil_of {c : Layout} {l : List Rec} {i : Nat}
    (h : ∀ x ∈ l, c.GET_HASH_INDEX x.p ≠ i) : chainOf c l i = [] := by
  unfold chainOf
  rw [List.filter_eq_nil_iff]
  intro x hx
  simp only [decide_eq_true_eq]
  exact h x hx

/-- The release of the first record of a chain keeps the invariant, with one record less. -/
theorem ufree_head {c : Layout} (hc : c.OK) {base R c0 : Int} {d : Dev} {l1 l2 : List Rec}
    {r : Rec} {bs : List Blk} {fl : List Int}
    (inv : TInv c base R c0 d (l1 ++ r :: l2) bs fl)
    (hl1 : ∀ x ∈ l1, c.GET_HASH_INDEX x.p ≠ c.GET_HASH_INDEX r.p) :
    ∃ d' bs' fl', __ufree c r.p d = some (0, d') ∧ TInv c base R c0 d' (l1 ++ l2) bs' fl' ∧
      d'.tbl_addr = d.tbl_addr := by
  have hr : r ∈ l1 ++ r :: l2 := by simp
  have hsub : ∀ x ∈ l1 ++ l2, x ∈ l1 ++ r :: l2 := by
    intro x hx
    simp only [List.mem_append, List.mem_cons] at hx ⊢
    tauto
  -- the chain of the record
  have hchain : chainOf c (l1 ++ r :: l2) (c.GET_HASH_INDEX r.p) =
      r :: chainOf c l2 (c.GET_HASH_INDEX r.p) := by
    rw [chainOf_append, chainOf_nil_of hl1, chainOf_cons, if_pos rfl, List.nil_append]
  have hch := inv.chains (c.GET_HASH_INDEX r.p)
  rw [hchain] at hch
  obtain ⟨ht, hrest⟩ := hch
  obtain ⟨hfp, hfs⟩ := inv.flds r hr
  -- the nodes of the record and of the block
  obtain ⟨X, hX, hXf, hXa, hXs⟩ := inv.blks r hr
  obtain ⟨Y, hY, hYf, hYa⟩ := (inv.live.2 (r.p - 8)).1 (mem_blocksOf.2 ⟨r, hr, Or.inr rfl⟩)
  have hnd := inv.live.1
  rw [blocksOf_append] at hnd
  simp only [blocksOf] at hnd
  have hnd' := hnd
  rw [List.nodup_append] at hnd
  obtain ⟨nd1, nd2, nd3⟩ := hnd
  rw [List.nodup_cons, List.nodup_cons] at nd2
  obtain ⟨nd4, nd5, nd6⟩ := nd2
  simp only [List.mem_cons, not_or] at nd4
  have hne_a : ∀ x ∈ l1 ++ l2, x.a ≠ r.a ∧ x.a ≠ r.p - 8 := by
    intro x hx
    rcases List.mem_append.1 hx with hx | hx
    · have hm : x.a ∈ blocksOf l1 := mem_blocksOf.2 ⟨x, hx, Or.inl rfl⟩
      constructor
      · intro e; exact nd3 hm (by rw [e]; simp)
      · intro e; exact nd3 hm (by rw [e]; simp)
    · have hm : x.a ∈ blocksOf l2 := mem_blocksOf.2 ⟨x, hx, Or.inl rfl⟩
      constructor
      · intro e; rw [e] at hm; exact nd4.2 hm
      · intro e; rw [e] at hm; exact nd5 hm
  have hYn : 0 < Y.addr ∧ Y.addr + Y.size ≤ 4294967268 ∧ 32 ≤ Y.size := by
    obtain ⟨p', q', e⟩ := List.append_of_mem hY
    have r' := inv.rep
    rw [e] at r'
    obtain ⟨_, _, y3, y4, y5, _, _⟩ := r'.node
    exact ⟨y3, y4, y5⟩
  obtain ⟨y3, y4, y5⟩ := hYn
  -- the release of the record
  obtain ⟨pre, post, rfl⟩ := List.append_of_mem hX
  obtain ⟨_, _, x3, x4, x5, _, _⟩ := inv.rep.node
  obtain ⟨k1, k2, _, _, _⟩ := kfree_spec inv.rep hXf
  have lv1 := Live.erase inv.rep.rep.geom inv.live hXf
    (fun b hb => @freed_alloc_mem pre post X b hb)
  have b0 : RecBlks c (l1 ++ l2) (pre ++ X :: post) := inv.blks.mono hsub
  obtain ⟨f1, b1⟩ := @free_keeps c (l1 ++ l2) _ _ _ _ _ _ _ inv.rep hXf b0
    (fun x hx => by rw [hXa]; exact (hne_a x hx).1)
  -- the release of the block
  have hYX : Y.addr ≠ X.addr := by
    intro e
    have : r.a = r.p - 8 := by omega
    exact nd4.1 this
  have hY' : Y ∈ pre ∨ Y ∈ post := by
    simp only [List.mem_append, List.mem_cons] at hY
    rcases hY with hY | rfl | hY
    · exact Or.inl hY
    · exact absurd rfl hYX
    · exact Or.inr hY
  have hY2 : Y ∈ freedList pre X post := (freed_alloc_mem hYf).2 hY'
  obtain ⟨pre', post', e'⟩ := List.append_of_mem hY2
  rw [e'] at k2 lv1 b1
  obtain ⟨k3, k4, _, _, _⟩ := kfree_spec k2 hYf
  have lv2 := Live.erase k2.rep.geom lv1 hYf
    (fun b hb => @freed_alloc_mem pre' post' Y b hb)
  obtain ⟨f2, b2⟩ := @free_keeps c (l1 ++ l2) _ _ _ _ _ _ _ k2 hYf b1
    (fun x hx => by rw [← hYa]; exact (hne_a x hx).2)
  -- the call
  have eu : u32 (r.p - 8) = Y.addr + 12 := by
    rw [hYa]; exact u32_of_range (by omega) (by omega)
  have hp0 : r.p ≠ 0 := by omega
  have hcall := ufree_first c r.p d hp0 (by rw [ht]; omega) (by rw [ht]; exact hfp)
    (by rw [ht, ← hXa, k1])
  rw [ht, ← hXa, k1, eu, k3, hXa, hfs] at hcall
  refine ⟨_, _, _, hcall, ⟨k4, ?_, ?_, b2, ?_, ?_⟩, rfl⟩
  · -- the blocks handed out
    refine lv2.congr ?_ ?_
    · rw [blocksOf_append]
      exact List.nodup_append.2 ⟨nd1, nd6, fun a h1 h2 => nd3 h1 (by simp [h2])⟩
    · intro q
      rw [← hYa, hXa, (inv.live.1.erase _).mem_erase_iff, inv.live.1.mem_erase_iff,
        blocksOf_append, blocksOf_append]
      simp only [blocksOf, List.mem_append, List.mem_cons]
      constructor
      · rintro (h | h)
        · refine ⟨?_, ?_, Or.inl h⟩
          · intro e; exact nd3 h (by rw [e]; simp)
          · intro e; exact nd3 h (by rw [e]; simp)
        · refine ⟨?_, ?_, Or.inr (Or.inr (Or.inr h))⟩
          · intro e; rw [e] at h; exact nd5 h
          · intro e; rw [e] at h; exact nd4.2 h
      · rintro ⟨h1, h2, h3 | h3 | h3 | h3⟩
        · exact Or.inl h3
        · exact absurd h3 h2
        · exact absurd h3 h1
        · exact Or.inr h3
  · -- the fields
    exact flds_of_frame hc (f1.trans f2) (fun x hx => inv.flds x (hsub x hx))
  · -- the chains
    intro i
    show ChainL c _ (setTbl d.tbl (c.GET_HASH_INDEX r.p) (d.heap.mem (r.a + c.off_next)) i) _
    by_cases hi : i = c.GET_HASH_INDEX r.p
    · subst hi
      have e1 : setTbl d.tbl (c.GET_HASH_INDEX r.p) (d.heap.mem (r.a + c.off_next))
          (c.GET_HASH_INDEX r.p) = d.heap.mem (r.a + c.off_next) := by simp [setTbl]
      rw [e1, chainOf_append, chainOf_nil_of hl1, List.nil_append]
      exact chain_of_frame hc (f1.trans f2)
        (fun x hx => List.mem_append_right _ (mem_of_mem_chainOf x hx)) hrest
    · have e1 : setTbl d.tbl (c.GET_HASH_INDEX r.p) (d.heap.mem (r.a + c.off_next)) i =
          d.tbl i := by
        unfold setTbl; rw [if_neg hi]
      have e2 : chainOf c (l1 ++ l2) i = chainOf c (l1 ++ r :: l2) i := by
        rw [chainOf_append, chainOf_append, chainOf_cons, if_neg (fun e => hi e.symm)]
      rw [e1, e2]
      have hold := inv.chains i
      rw [← e2] at hold ⊢
      exact chain_of_frame hc (f1.trans f2) mem_of_mem_chainOf hold
  · -- the counter
    show c.wrap (d.count - r.s) = c.wrap (c0 + sizeSum (l1 ++ l2))
    rw [inv.count, wrap_sub, sizeSum_append, sizeSum_append]
    congr 1
    simp only [sizeSum]
    omega

/-! ### The sweep of `ReleaseHeap` -/

theorem allocSum_of_free : ∀ bs : List Blk, (∀ b ∈ bs, b.free = true) → allocSum bs = 0
  | [], _ => rfl
  | b :: bs, h => by
    have h1 := h b (List.mem_cons_self _ _)
    have h2 := allocSum_of_free bs (fun x hx => h x (List.mem_cons_of_mem _ hx))
    simp only [allocSum, h1, if_true, h2]
    rfl

/-- The `while` loop of `ReleaseHeap` on one chain releases the records of the chain, one
for each round, and counts them. -/
theorem releaseChain_spec {c : Layout} (hc : c.OK) {base R c0 : Int} (i : Nat) :
    ∀ (n fuel : Nat) (cnt : Int) (d : Dev) (rs : List Rec) (bs : List Blk) (fl : List Int),
    (chainOf c rs i).length = n → n < fuel → TInv c base R c0 d rs bs fl →
    0 ≤ cnt → cnt + rs.length < 2147483648 →
    ∃ d' rs' bs' fl', releaseChain c i fuel cnt d = some (cnt + n, d') ∧
      TInv c base R c0 d' rs' bs' fl' ∧ chainOf c rs' i = [] ∧
      (∀ j, j ≠ i → chainOf c rs' j = chainOf c rs j) ∧
      (rs'.length : Int) + n = rs.length ∧ d'.tbl_addr = d.tbl_addr := by
  intro n
  induction n with
  | zero =>
    intro fuel cnt d rs bs fl hlen hfuel inv hc0 hc1
    have hnil : chainOf c rs i = [] := List.length_eq_zero.1 hlen
    have ht := inv.chains i
    rw [hnil] at ht
    have ht' : d.tbl i = 0 := ht
    obtain ⟨f, rfl⟩ : ∃ f, fuel = f + 1 := ⟨fuel - 1, by omega⟩
    refine ⟨d, rs, bs, fl, ?_, inv, hnil, fun j _ => rfl, by simp, rfl⟩
    unfold releaseChain
    rw [if_pos ht']
    simp
  | succ n ih =>
    intro fuel cnt d rs bs fl hlen hfuel inv hc0 hc1
    obtain ⟨f, rfl⟩ : ∃ f, fuel = f + 1 := ⟨fuel - 1, by omega⟩
    obtain ⟨r, t, hrt⟩ : ∃ r t, chainOf c rs i = r :: t := by
      cases hch : chainOf c rs i with
      | nil => rw [hch] at hlen; simp at hlen
      | cons r t => exact ⟨r, t, rfl⟩
    have hrt' := hrt
    unfold chainOf at hrt'
    obtain ⟨l1, l2, rfl, hl1, hr, hl2⟩ := List.filter_eq_cons_iff.1 hrt'
    simp only [decide_eq_true_eq] at hl1 hr
    subst hr
    have hl1' : ∀ x ∈ l1, c.GET_HASH_INDEX x.p ≠ c.GET_HASH_INDEX r.p := hl1
    -- the head of the chain
    have ht := inv.chains (c.GET_HASH_INDEX r.p)
    rw [hrt] at ht
    obtain ⟨ht1, _⟩ := ht
    have hrm : r ∈ l1 ++ r :: l2 := by simp
    obtain ⟨hfp, _⟩ := inv.flds r hrm
    obtain ⟨X, hX, hXf, hXa, hXs⟩ := inv.blks r hrm
    have hX0 : 0 < X.addr := by
      obtain ⟨p', q', e⟩ := List.append_of_mem hX
      have r' := inv.rep
      rw [e] at r'
      exact r'.node.2.2.1
    obtain ⟨d1, bs1, fl1, hcall, inv1, htb1⟩ := ufree_head hc inv hl1'
    have hlen1 : (chainOf c (l1 ++ l2) (c.GET_HASH_INDEX r.p)).length = n := by
      rw [chainOf_append, chainOf_nil_of hl1', List.nil_append]
      rw [chainOf_append, chainOf_nil_of hl1', List.nil_append, chainOf_cons, if_pos rfl,
        List.length_cons] at hlen
      omega
    have hlr : ((l1 ++ r :: l2).length : Int) = ((l1 ++ l2).length : Int) + 1 := by
      simp only [List.length_append, List.length_cons]
      push_cast
      omega
    have e32 : i32 (cnt + 1) = cnt + 1 := i32_of_range (by omega) (by omega)
    obtain ⟨d', rs', bs', fl', h1, h2, h3, h4, h5, h6⟩ :=
      ih f (cnt + 1) d1 (l1 ++ l2) bs1 fl1 hlen1 (by omega) inv1 (by omega) (by omega)
    refine ⟨d', rs', bs', fl', ?_, h2, h3, ?_, ?_, by rw [h6, htb1]⟩
    · unfold releaseChain
      rw [if_neg (by rw [ht1]; omega), ht1, hfp, hcall]
      simp only [e32]
      rw [h1]
      congr 2
      push_cast
      omega
    · intro j hj
      rw [h4 j hj, chainOf_append, chainOf_append, chainOf_cons, if_neg (fun e => hj e.symm)]
    · rw [hlr]
      push_cast
      omega

/-- The `for` loop of `ReleaseHeap` releases all records and counts them. -/
theorem releaseChains_spec {c : Layout} (hc : c.OK) {base R c0 : Int} :
    ∀ (k : Nat) (cnt : Int) (d : Dev) (rs : List Rec) (bs : List Blk) (fl : List Int),
    k ≤ c.HEAP_HASH_SIZE → TInv c base R c0 d rs bs fl →
    (∀ j, j < c.HEAP_HASH_SIZE - k → chainOf c rs j = []) →
    0 ≤ cnt → cnt + rs.length < 2147483648 →
    ∃ d' bs' fl', releaseChains c k cnt d = some (cnt + rs.length, d') ∧
      TInv c base R c0 d' [] bs' fl' ∧ d'.tbl_addr = d.tbl_addr := by
  intro k
  induction k with
  | zero =>
    intro cnt d rs bs fl hk inv hch hc0 hc1
    have hrs : rs = [] := by
      apply List.eq_nil_iff_forall_not_mem.2
      intro r hr
      have h1 : r ∈ chainOf c rs (c.GET_HASH_INDEX r.p) :=
        List.mem_filter.2 ⟨hr, by simp⟩
      rw [hch _ (by have := hc.hash_lt r.p; omega)] at h1
      simp at h1
    subst hrs
    exact ⟨d, bs, fl, by simp [releaseChains], inv, rfl⟩
  | succ k ih =>
    intro cnt d rs bs fl hk inv hch hc0 hc1
    have hn : (chainOf c rs (c.HEAP_HASH_SIZE - (k + 1))).length ≤ rs.length :=
      List.length_filter_le _ _
    obtain ⟨d1, rs1, bs1, fl1, h1, h2, h3, h4, h5, h6⟩ :=
      releaseChain_spec hc (c.HEAP_HASH_SIZE - (k + 1)) _ FUEL cnt d rs bs fl rfl
        (by unfold FUEL; omega) inv hc0 hc1
    have hch1 : ∀ j, j < c.HEAP_HASH_SIZE - k → chainOf c rs1 j = [] := by
      intro j hj
      by_cases e : j = c.HEAP_HASH_SIZE - (k + 1)
      · rw [e]; exact h3
      · rw [h4 j e]
        exact hch j (by omega)
    obtain ⟨d', bs', fl', g1, g2, g3⟩ :=
      ih (cnt + (chainOf c rs (c.HEAP_HASH_SIZE - (k + 1))).length) d1 rs1 bs1 fl1 (by omega) h2
        hch1 (by omega) (by omega)
    refine ⟨d', bs', fl', ?_, g2, by rw [g3, h6]⟩
    unfold releaseChains
    rw [h1]
    simp only
    rw [g1]
    congr 2
    omega

/-- The invariant holds along calls of `uffs_malloc` that return a block, from a device with
an empty table over a region just registered; the free list keeps one node at most. -/
theorem allocRun_inv {c : Layout} {addr size : Int} {h0 : Heap} {d0 : Dev}
    (hc : c.OK) (ok : InitOK addr size)
    (hheap : d0.heap = uffs_InitHeapMemory addr size h0)
    (hempty : ∀ i, d0.tbl i = 0) (hcount : c.wrap d0.count = d0.count) :
    ∀ {k : Nat} {d : Dev}, AllocRun c d0 k d →
    ∃ rs bs fl, TInv c (arenaBase addr) (arenaSize size) d0.count d rs bs fl ∧
      fl.length ≤ 1 ∧ rs.length = k ∧ d.tbl_addr = d0.tbl_addr := by
  intro k d hrun
  induction hrun with
  | start =>
    have r0 := init_rep h0 ok
    rw [← hheap] at r0
    refine ⟨[], _, _, ⟨r0, ⟨List.nodup_nil, ?_⟩, ?_, ?_, ?_, ?_⟩, by simp, rfl, rfl⟩
    · intro p
      simp [blocksOf]
    · intro r hr; simp at hr
    · intro r hr; simp at hr
    · intro i
      exact hempty i
    · show d0.count = c.wrap (d0.count + 0)
      rw [add_zero, hcount]
  | step task sz p d' hprev hs0 hs1 hcall hp ih =>
    obtain ⟨rs, bs, fl, inv, hlen, hk, htb⟩ := ih
    obtain ⟨r, bs', fl', inv', hlen', htb'⟩ := umalloc_step hc inv hlen hs0 hs1 hcall hp
    exact ⟨r :: rs, bs', fl', inv', hlen', by simp [hk], by rw [htb', htb]⟩

/-! ### Leak accounting -/

/-- The instance `layoutRun` of the declarations is well formed. -/
theorem layoutRun_ok (signed : Bool) : (layoutRun signed).OK := by
  cases signed <;>
  exact
    { hash_lt := fun p => by
        show ((p / 4) % 32).toNat < 32
        omega
      size_pos := by decide
      size_le := by decide
      next_in := by decide
      p_in := by decide
      size_in := by decide
      task_in := by decide
      distinct := by decide }

/-- A call that returns, as an equation with the two components of its result. -/
theorem some_getD_pair {α β : Type} (o : Option (α × β)) (d : α × β) (h : o.isSome = true) :
    o = some ((o.getD d).1, (o.getD d).2) := by
  cases o with
  | none => simp at h
  | some x => rfl

/-- The run U is a run of three calls of `uffs_malloc` that all return a block. -/
theorem allocRun_runU3 : AllocRun (layoutRun true) (devRun 352) 3 runU3.2 := by
  have e1 : uffs_malloc (layoutRun true) 7 1 (devRun 352) = some (runU1.1, runU1.2) :=
    some_getD_pair (uffs_malloc (layoutRun true) 7 1 (devRun 352)) (0, devRun 0) (by decide)
  have e2 : uffs_malloc (layoutRun true) 7 1 runU1.2 = some (runU2.1, runU2.2) :=
    some_getD_pair (uffs_malloc (layoutRun true) 7 1 runU1.2) (0, devRun 0) (by decide)
  have e3 : uffs_malloc (layoutRun true) 7 1 runU2.2 = some (runU3.1, runU3.2) :=
    some_getD_pair (uffs_malloc (layoutRun true) 7 1 runU2.2) (0, devRun 0) (by decide)
  have n1 : runU1.1 ≠ 0 := by decide
  have n2 : runU2.1 ≠ 0 := by decide
  have n3 : runU3.1 ≠ 0 := by decide
  exact AllocRun.step 7 1 runU3.1 runU3.2
    (AllocRun.step 7 1 runU2.1 runU2.2
      (AllocRun.step 7 1 runU1.1 runU1.2 AllocRun.start (by decide) (by decide) e1 n1)
      (by decide) (by decide) e2 n2)
    (by decide) (by decide) e3 n3

/-- Claim C14 (leak accounting).  Let a device have a table (`tbl_addr` is not null) whose
chains are all empty, a counter `count` that holds a value of its type, and an arena just
registered by `uffs_InitHeapMemory`.  After `k` calls of `uffs_malloc`, with sizes that are
values of an `unsigned int`, that all returned a block, and no other call: the walk of
`ReleaseHeap` over all hash chains ends and counts exactly `k`, which is what `ReleaseHeap`
returns; after the walk every entry of the table is null and every chain is empty, `count`
has its value from before the allocations, and `_k_heap_available` has its value from
before the allocations.  The `_kfree` of the table address with which `ReleaseHeap` ends
comes after the walk; when it is rejected the state after `ReleaseHeap` is the state after
the walk. -/
theorem leak_accounting {c : Layout} {addr size : Int} {h0 : Heap} {d0 d : Dev} {k : Nat}
    (hc : c.OK) (ok : InitOK addr size)
    (hheap : d0.heap = uffs_InitHeapMemory addr size h0)
    (htbl : d0.tbl_addr ≠ 0) (hempty : ∀ i, d0.tbl i = 0)
    (hcount : c.wrap d0.count = d0.count)
    (hrun : AllocRun c d0 k d) :
    ∃ d', releaseChains c c.HEAP_HASH_SIZE 0 d = some ((k : Int), d') ∧
      (ReleaseHeap c d).map Prod.fst = some (k : Int) ∧
      (∀ i, d'.tbl i = 0) ∧ (∀ i, chainNodes c d' i = some []) ∧
      d'.count = d0.count ∧
      d'.heap._k_heap_available = d0.heap._k_heap_available ∧
      ((_kfree d.tbl_addr d'.heap).1 = -1 → ReleaseHeap c d = some ((k : Int), d')) := by
  obtain ⟨rs, bs, fl, inv, _, hk, htb⟩ := allocRun_inv hc ok hheap hempty hcount hrun
  -- the number of records is small
  have hR := inv.rep.rep.R_le
  have hb := Live.length_le inv.rep inv.live
  rw [length_blocksOf] at hb
  push_cast at hb
  obtain ⟨d', bs', fl', hrel, inv', htb'⟩ :=
    releaseChains_spec hc c.HEAP_HASH_SIZE 0 d rs bs fl (le_refl _) inv
      (fun j hj => absurd hj (by omega)) (le_refl _) (by omega)
  rw [zero_add, hk] at hrel
  have htbl' : ∀ i, d'.tbl i = 0 := fun i => inv'.chains i
  have hne : ¬ d.tbl_addr = 0 := by rw [htb]; exact htbl
  refine ⟨d', hrel, ?_, htbl', ?_, ?_, ?_, ?_⟩
  · unfold ReleaseHeap
    rw [if_neg hne, hrel]
    rfl
  · intro i
    unfold chainNodes
    rw [htbl' i]
    show chainWalk c _ (4294967296 + 1) 0 = _
    unfold chainWalk
    rw [if_pos rfl]
  · have := inv'.count
    rw [this]
    show c.wrap (d0.count + 0) = _
    rw [add_zero, hcount]
  · have hfree : ∀ b ∈ bs', b.free = true := by
      intro b hb'
      by_contra hf
      have hf' : b.free = false := by simpa using hf
      have := (inv'.live.2 (b.addr + 12)).2 ⟨b, hb', hf', rfl⟩
      simp [blocksOf] at this
    have h1 := inv'.rep.rep.sums
    rw [allocSum_of_free bs' hfree] at h1
    rw [inv'.rep.avail, hheap, uffs_InitHeapMemory_eq h0 ok]
    show freeSum bs' = arenaSize size - 64
    omega
  · intro hrej
    unfold ReleaseHeap
    rw [if_neg hne, hrel]
    simp only
    rw [kfree_rejected _ _ (by rw [htb']; exact hrej)]

/-- The leak accounting of C14 in the run U: three blocks of one byte on the device over 352
bytes; `ReleaseHeap` reports 3. -/
theorem leak_accounting_witness :
    (layoutRun true).OK ∧ InitOK 4092 352 ∧
      (devRun 352).heap = uffs_InitHeapMemory 4092 352 bootHeap ∧
      (devRun 352).tbl_addr ≠ 0 ∧ (∀ i, (devRun 352).tbl i = 0) ∧
      (layoutRun true).wrap (devRun 352).count = (devRun 352).count ∧
      AllocRun (layoutRun true) (devRun 352) 3 runU3.2 ∧
      (ReleaseHeap (layoutRun true) runU3.2).map Prod.fst = some 3 ∧
      ∃ d', releaseChains (layoutRun true) (layoutRun true).HEAP_HASH_SIZE 0 runU3.2 =
          some (((3 : Nat) : Int), d') ∧
        (ReleaseHeap (layoutRun true) runU3.2).map Prod.fst = some ((3 : Nat) : Int) ∧
        (∀ i, d'.tbl i = 0) ∧ (∀ i, chainNodes (layoutRun true) d' i = some []) ∧
        d'.count = (devRun 352).count ∧
        d'.heap._k_heap_available = (devRun 352).heap._k_heap_available ∧
        ((_kfree runU3.2.tbl_addr d'.heap).1 = -1 →
          ReleaseHeap (layoutRun true) runU3.2 = some (((3 : Nat) : Int), d')) :=
  ⟨layoutRun_ok true, initOK_W, rfl, by decide, fun _ => rfl, by decide, allocRun_runU3,
    by decide,
    leak_accounting (layoutRun_ok true) initOK_W rfl (by decide) (fun _ => rfl) (by decide)
      allocRun_runU3⟩

end Uffs
